import Mathlib

/-!
# Aquarius: integral decoding, Boys function and the jellium model

A shallow embedding of three source files of the repository

* `src/integrals/cfour1eints.cxx`  (packed one-electron integral decoder),
* `src/slide/integrals/fmgamma.c`  (Boys function `fm`, `fmtaylor`, `fmasymptotic`, `fmrecursive`),
* `src/tasks/jellium/jellium.cxx`  (jellium basis construction and integrals),

together with theorems about them.

Conventions of the embedding.

* In the decoder (`cfour1eints.cxx`) a C++ `int` is an `Int` together with a range
  check: an `int` operation whose mathematical result does not fit in 32 bits is
  undefined behaviour and is modelled by `none`; `int64_t` is treated the same way
  with 64 bits.  In `fmgamma.c` and `jellium.cxx` the integers are orders `m ≤ 39`,
  table subscripts, lattice coordinates and orbital counts; they are modelled by
  `Int` and `Nat` without a range check.
* A `double` is an element of a linearly ordered field `α` (arithmetic is exact);
  the functions of the C mathematical library (`exp`, `log`, `sqrt`, `pow`) are
  parameters, collected in the structure `LibM`, and so are the helpers of the
  framework that are not part of the three files (`norm2`, `cosort`), collected
  in the structure `Util`.
* A loop without a bound in the source (`while (true)` in `fm`, `for (int r = 0;;r++)`
  in `Jellium::run`) carries a fuel argument and fails when the fuel runs out.
* An `assert` is active: a failing assertion ends the call.
-/

set_option autoImplicit false

/-! ## Machine integers -/

/-- Largest value of a C++ `int`. -/
def INT_MAX : Int := 2147483647

/-- Smallest value of a C++ `int`. -/
def INT_MIN : Int := -2147483648

/-- Largest value of an `int64_t`. -/
def INT64_MAX : Int := 9223372036854775807

/-- Smallest value of an `int64_t`. -/
def INT64_MIN : Int := -9223372036854775808

/-- Result of an `int` operation whose mathematical value is `x`: the value itself
when it is representable, `none` (signed overflow, undefined behaviour) otherwise. -/
def int32 (x : Int) : Option Int :=
  if INT_MIN ≤ x ∧ x ≤ INT_MAX then some x else none

/-- Result of an `int64_t` operation whose mathematical value is `x`. -/
def int64 (x : Int) : Option Int :=
  if INT64_MIN ≤ x ∧ x ≤ INT64_MAX then some x else none

/-- Conversion of an `int64_t` to `int` (`q = idxs[i]-pq`): reduction modulo `2^32`
into the range of `int`. -/
def narrow32 (x : Int) : Int :=
  (x + 2147483648) % 4294967296 - 2147483648

/-! ## `CFOUROneElectronIntegralsTask::run`: unpacking of a payload batch -/

namespace CFOUROneElectronIntegralsTask

/-- The search loop of `run` (lines 123-128):
```
int p, q, pq = 0;
for (p = 0;p < N[0];p++)
{
    if (pq+p+1 > idxs[i]) break;
    pq += p+1;
}
```
started in the state `(p, pq)`; it returns the final `(p, pq)`.  `N` is `N[0]` and
`idx` is the already decremented `idxs[i]`.  The first argument bounds the number
of iterations. -/
def unpackLoop (N idx : Int) : Nat → Int → Int → Option (Int × Int)
  | 0, _, _ => none
  | fuel + 1, p, pq =>
    if p < N then do
      let a ← int32 (pq + p)
      let t ← int32 (a + 1)
      if t > idx then pure (p, pq)
      else do
        let b ← int32 (p + 1)
        let pq' ← int32 (pq + b)
        let p' ← int32 (p + 1)
        unpackLoop N idx fuel p' pq'
    else pure (p, pq)

/-- Lines 122-129 of `run` for one entry: `idx1` is the packed index as stored in the
file.  It is decremented, the loop is run from `p = 0, pq = 0`, and
`q = idxs[i]-pq`.  The result is `(p, q)`. -/
def unpack (N idx1 : Int) : Option (Int × Int) := do
  let idx ← int64 (idx1 - 1)
  let (p, pq) ← unpackLoop N idx (N.toNat + 1) 0 0
  let d ← int64 (idx - pq)
  pure (p, narrow32 d)

/-- Lines 130-132 of `run`: the pairs pushed for an entry with value `v` that was
unpacked to `(p, q)`:
```
pairs.push_back(tkv_pair<double>(p+q*N[0], ints[i]));
if (p != q)
pairs.push_back(tkv_pair<double>(q+p*N[0], ints[i]));
``` -/
def emit {α : Type} (N : Int) (v : α) (p q : Int) : Option (List (Int × α)) := do
  let a ← int32 (q * N)
  let k ← int32 (p + a)
  if p ≠ q then do
    let b ← int32 (p * N)
    let k' ← int32 (q + b)
    pure [(k, v), (k', v)]
  else pure [(k, v)]

/-- Lines 118-133 of `run`: the vector `pairs` handed to `writeRemoteData` for a batch
whose first `numints` entries are `entries` (value `ints[i]`, packed index `idxs[i]`). -/
def decodeBatch {α : Type} (N : Int) : List (α × Int) → Option (List (Int × α))
  | [] => some []
  | (v, idx1) :: rest => do
    let (p, q) ← unpack N idx1
    let ps ← emit N v p q
    let more ← decodeBatch N rest
    pure (ps ++ more)

/-- The triangular packed index of the pair `(p, q)`, `0`-based. -/
def packedIndex (p q : Int) : Int := p * (p + 1) / 2 + q

end CFOUROneElectronIntegralsTask


/-! ## `CFOUROneElectronIntegralsTask::run`: reading the file `IIII` -/

namespace CFOUROneElectronIntegralsTask

/-- The ways in which `run` does not return normally. -/
inductive Failure where
  /-- An `assert` of the given source line fails. -/
  | assertion (line : Nat)
  /-- Undefined behaviour (an indeterminate value is used, a vector is read outside of
  its bounds, signed overflow). -/
  | undefined
  /-- The iteration bound of the embedding is exhausted. -/
  | fuel
  deriving DecidableEq

/-- The `std::ifstream ifs("IIII")`: the bytes of the file, the read position and
whether `failbit` is set.  (In `run` the bit `eofbit` is only ever set together with
`failbit`.) -/
structure IStream where
  /-- The bytes of the file. -/
  data : List Nat
  /-- The read position. -/
  pos : Nat
  /-- The state `ifs.fail()`. -/
  fail : Bool
  deriving DecidableEq

/-- The call `ifs.read(buf, n)`: the content of the `n`-byte prefix of the buffer and the
stream afterwards.  On a failed stream nothing is read; when fewer than `n` bytes are
left they are stored and `failbit` is set. -/
def IStream.read (s : IStream) (n : Nat) (buf : List Nat) : List Nat × IStream :=
  if s.fail then (buf, s)
  else
    let got := (s.data.drop s.pos).take n
    (got ++ buf.drop got.length,
      { s with pos := s.pos + got.length, fail := decide (got.length < n) })

/-- The call `ifs.seekg(off, ifstream::cur)`: no effect on a failed stream, `failbit`
when the target position is negative. -/
def IStream.seekgCur (s : IStream) (off : Int) : IStream :=
  if s.fail then s
  else if 0 ≤ (s.pos : Int) + off then { s with pos := ((s.pos : Int) + off).toNat }
  else { s with fail := true }

/-- The call `ifs.seekg(p)`. -/
def IStream.seekg (s : IStream) (p : Int) : IStream :=
  if s.fail then s
  else if 0 ≤ p then { s with pos := p.toNat }
  else { s with fail := true }

/-- The unsigned value of a little-endian sequence of bytes. -/
def leUnsigned (bs : List Nat) : Nat :=
  bs.foldr (fun b acc => b + 256 * acc) 0

/-- The value of an `int64_t` object with the given eight bytes. -/
def int64OfBytes (bs : List Nat) : Int :=
  if leUnsigned bs < 9223372036854775808 then (leUnsigned bs : Int)
  else (leUnsigned bs : Int) - 18446744073709551616

/-- The value of an `int32_t` object with the given four bytes. -/
def int32OfBytes (bs : List Nat) : Int :=
  if leUnsigned bs < 2147483648 then (leUnsigned bs : Int)
  else (leUnsigned bs : Int) - 4294967296

/-- The tensors `ovi`, `kei` and `oeh`: for each of them the vectors `pairs` handed to
`writeRemoteData`, in the order of the calls. -/
structure Tensors (α : Type) where
  /-- The tensor `ovi`. -/
  ovi : List (List (Int × α))
  /-- The tensor `kei`. -/
  kei : List (List (Int × α))
  /-- The tensor `oeh`. -/
  oeh : List (List (Int × α))

/-- The tensor selected by a label. -/
inductive Target where
  /-- The label `"OVERLAP "`. -/
  | ovi
  /-- The label `"ONEHAMIL"`. -/
  | oeh
  /-- The label `"KINETINT"`. -/
  | kei
  deriving DecidableEq

/-- Lines 91-104 of `run`: the tensor selected by the content of `char label[9]`, compared
as a C string. -/
def target (label : List Nat) : Option Target :=
  let str := label.takeWhile (fun b => b != 0)
  if str = [79, 86, 69, 82, 76, 65, 80, 32] then some .ovi
  else if str = [79, 78, 69, 72, 65, 77, 73, 76] then some .oeh
  else if str = [75, 73, 78, 69, 84, 73, 78, 84] then some .kei
  else none

/-- The calls `tensor->writeRemoteData({0,0}, pairs)` of one section, recorded in the
selected tensor. -/
def Tensors.write {α : Type} (t : Tensors α) (tgt : Target) (w : List (List (Int × α))) :
    Tensors α :=
  match tgt with
  | .ovi => { t with ovi := t.ovi ++ w }
  | .oeh => { t with oeh := t.oeh ++ w }
  | .kei => { t with kei := t.kei ++ w }

/-- Lines 106-136 of `run`: the loop `while (true)` over the payload batches of a
recognised section.  `recsize` holds the eight bytes of the variable `recsize`,
`toDouble` is the value of a `double` with the given eight bytes.  The result is the
stream after the section and the vectors `pairs` written.  The buffers `ints` and `idxs`
are shown as read afresh: their older content is used only after an incomplete read,
and then `numints` is indeterminate. -/
def batches {α : Type} (toDouble : List Nat → α) (N : Int) (intsize : Nat) :
    Nat → IStream → List Nat → Except Failure (IStream × List (List (Int × α)))
  | 0, _, _ => .error .fuel
  | fuel + 1, s, recsize =>
    let (recsize, s) := s.read intsize recsize
    if int64OfBytes recsize ≠ 600 * 16 + 8 then .error (.assertion 110)
    else
      let (ints, s) := s.read (600 * 8) (List.replicate (600 * 8) 0)
      let (idxs, s) := s.read (600 * 8) (List.replicate (600 * 8) 0)
      let (numints, s) := s.read 8 []
      let s := s.seekgCur intsize
      if numints.length ≠ 8 then .error .undefined
      else if int64OfBytes numints < 0 then .ok (s, [])
      else if 600 < int64OfBytes numints then .error .undefined
      else
        let entries := (List.range (int64OfBytes numints).toNat).map fun (i : Nat) =>
          (toDouble ((ints.drop (8 * i)).take 8), int64OfBytes ((idxs.drop (8 * i)).take 8))
        match decodeBatch N entries with
        | none => .error .undefined
        | some pairs =>
          match batches toDouble N intsize fuel s recsize with
          | .error e => .error e
          | .ok (s, more) => .ok (s, pairs :: more)

/-- Lines 78-137 of `run`: the loop `while (ifs)` over the records of the file. -/
def sections {α : Type} (toDouble : List Nat → α) (N : Int) (intsize : Nat) :
    Nat → IStream → Tensors α → Except Failure (Tensors α)
  | 0, _, _ => .error .fuel
  | fuel + 1, s, t =>
    if s.fail then .ok t
    else
      let (recsize, s) := s.read intsize (List.replicate 8 0)
      if int64OfBytes recsize ≠ 8 then
        match int64 (int64OfBytes recsize + intsize) with
        | none => .error .undefined
        | some off => sections toDouble N intsize fuel (s.seekgCur off) t
      else
        let (label, s) := s.read 8 (List.replicate 9 0)
        let s := s.seekgCur intsize
        match target label with
        | none => sections toDouble N intsize fuel s t
        | some tgt =>
          match batches toDouble N intsize fuel s recsize with
          | .error e => .error e
          | .ok (s, w) => sections toDouble N intsize fuel s (t.write tgt w)

/-- Lines 56-137 of `run`: the file `IIII` is opened, the width of the record-size
fields is detected, and the records are read into the tensors `ovi`, `kei`, `oeh`.
`N` is `N[0]`, `file` the bytes of the file, `fuel` bounds the iterations of the
loops. -/
def run {α : Type} (toDouble : List Nat → α) (N : Int) (fuel : Nat) (file : List Nat) :
    Except Failure (Tensors α) :=
  let s : IStream := ⟨file, 0, false⟩
  let (junk, s) := s.read 4 []
  if junk.length ≠ 4 then .error .undefined
  else if int32OfBytes junk ≠ 224 then .error (.assertion 62)
  else
    let (junk, s) := s.read 4 junk
    let intsize : Nat := if int32OfBytes junk ≠ 0 then 4 else 8
    let s := s.seekg 0
    sections toDouble N intsize fuel s ⟨[], [], []⟩

/-- A file with 4-byte record sizes: the header record of `224` bytes, the section
header with the label `"OVERLAP "`, and a payload record that declares the size `16`
instead of `600*16+8`. -/
def exampleFile : List Nat :=
  [224, 0, 0, 0] ++ [1, 0, 0, 0] ++ List.replicate 220 0 ++ [224, 0, 0, 0]
    ++ [8, 0, 0, 0] ++ [79, 86, 69, 82, 76, 65, 80, 32] ++ [8, 0, 0, 0]
    ++ [16, 0, 0, 0] ++ List.replicate 16 0 ++ [16, 0, 0, 0]

end CFOUROneElectronIntegralsTask

/-! ## The C mathematical library -/

/-- The functions of `<math.h>` called by the sources, as parameters of the embedding. -/
structure LibM (α : Type) where
  /-- The function `exp`. -/
  exp : α → α
  /-- The function `log`. -/
  log : α → α
  /-- The function `sqrt`. -/
  sqrt : α → α
  /-- The function `pow`. -/
  pow : α → α → α

/-- The function `round` of `<math.h>`: nearest integer, halfway cases away from zero. -/
def cround {α : Type} [LinearOrderedField α] [FloorRing α] (x : α) : Int :=
  if 0 ≤ x then Int.floor (x + 1 / 2) else -Int.floor (-x + 1 / 2)

/-! ## `fmgamma.c`: the Boys function -/

namespace Fmgamma

/-- The constant `TAYLOR_N`. -/
def TAYLOR_N : Nat := 8

/-- The table `TMAX[40]`. -/
def TMAX : List Int :=
  [33, 37, 40, 43, 46, 49, 51, 53, 56, 58,
   60, 62, 64, 66, 68, 70, 72, 74, 76, 78,
   80, 82, 83, 85, 87, 89, 90, 92, 94, 96,
   97, 99, 101, 102, 104, 106, 108, 110, 112, 114]

section
variable {α : Type} [LinearOrderedField α]

/-- The loop `for (i = 3;i < 2 * m;i += 2) sum += log((double)i);` of `fmasymptotic`,
started at `i` with the accumulator `sum`. -/
def fmasymptoticLoop (lib : LibM α) (m : Nat) (i : Nat) (sum : α) : α :=
  if i < 2 * m then fmasymptoticLoop lib m (i + 2) (sum + lib.log (i : α)) else sum
termination_by 2 * m - i
decreasing_by omega

/-- The function `fmasymptotic(T, m)`. -/
def fmasymptotic (lib : LibM α) (T : α) (m : Nat) : α :=
  let PI : α := 3.1415926535897932384626433832795
  let sum : α := -(m : α) * lib.log (2 * T)
  let sum := fmasymptoticLoop lib m 3 sum
  lib.exp sum * lib.sqrt (PI / T) / 2

/-- The loop `while (true)` of `fm`:
```
delt *= T / ap;
ap += 1.0;
if (fabs(delt) / sum < epsilon) break;
sum += delt;
```
It returns the final `sum`; the first argument bounds the number of iterations. -/
def fmLoop (T : α) : Nat → α → α → α → Option α
  | 0, _, _, _ => none
  | fuel + 1, sum, delt, ap =>
    let epsilon : α := 1e-15
    let delt := delt * (T / ap)
    let ap := ap + 1.0
    if |delt| / sum < epsilon then some sum
    else fmLoop T fuel (sum + delt) delt ap

/-- The function `fm(T, m)`.  The result is `none` when `TMAX[m]` is read outside of the
table or when the series loop does not stop within `fuel` iterations. -/
def fm (lib : LibM α) (fuel : Nat) (T : α) (m : Nat) : Option α :=
  let ap : α := (m : α) + 0.5
  if T ≤ 0 then some (0.5 / ap)
  else
    match TMAX[m]? with
    | none => none
    | some tmax =>
      if T > (tmax : α) then some (fmasymptotic lib T m)
      else
        let sum : α := 1.0 / ap / (2 * lib.exp T)
        let delt := sum
        let ap := ap + 1.0
        fmLoop T fuel sum delt ap

/-- The extents of the global `static double FMTABLE[2281][40]`. -/
def FMTABLE_ROWS : Nat := 2281

/-- The number of columns of `FMTABLE`. -/
def FMTABLE_COLS : Nat := 40

/-- The read `FMTABLE[tidx][j]` of the global `static double FMTABLE[2281][40]`.  The
content of the table is the function `FMTABLE`; the read is `none` (undefined behaviour)
when a subscript lies outside of the declared bounds. -/
def readFMTABLE (FMTABLE : Int → Nat → α) (tidx : Int) (j : Nat) : Option α :=
  if 0 ≤ tidx ∧ tidx < (FMTABLE_ROWS : Int) ∧ j < FMTABLE_COLS then some (FMTABLE tidx j)
  else none

/-- The loop `for (i = 0;i < TAYLOR_N;i++)` of `fmtaylor`, with `k` iterations left:
```
ans += FMTABLE[tidx][n + i] * fac;
fac *= trmt / (double)(i + 1);
```
The result is `none` when a cell is read outside of the table. -/
def fmtaylorLoop (FMTABLE : Int → Nat → α) (tidx : Int) (n : Nat) (trmt : α) :
    Nat → Nat → α → α → Option α
  | 0, _, ans, _ => some ans
  | k + 1, i, ans, fac =>
    match readFMTABLE FMTABLE tidx (n + i) with
    | none => none
    | some c =>
      fmtaylorLoop FMTABLE tidx n trmt k (i + 1)
        (ans + c * fac) (fac * (trmt / ((i + 1 : Nat) : α)))

/-- The function `fmtaylor(T, n)`.  The conversion `(int)round(T * 20.0)` is undefined
when the rounded value is not representable in an `int`, and the reads of `FMTABLE` are
undefined outside of the bounds `2281 × 40`; the result is `none` in these cases. -/
def fmtaylor [FloorRing α] (FMTABLE : Int → Nat → α) (T : α) (n : Nat) : Option α :=
  match int32 (cround (T * 20.0)) with
  | none => none
  | some tidx =>
    let tr : α := (tidx : α) / 20.0
    let trmt : α := tr - T
    fmtaylorLoop FMTABLE tidx n trmt TAYLOR_N 0 0.0 1.0

/-- The loop `for (i = n;i > 0;i--)` of `fmrecursive`, entered with the loop variable
equal to the first argument:
```
array[i - 1] = (2 * T * array[i] + emt) / (2 * i - 1);
``` -/
def fmrecursiveLoop (T emt : α) : Nat → (Nat → α) → (Nat → α)
  | 0, array => array
  | i + 1, array =>
    fmrecursiveLoop T emt i
      (Function.update array i
        ((2 * T * array (i + 1) + emt) / ((2 * ((i : Int) + 1) - 1 : Int) : α)))

/-- The function `fmrecursive(T, n, array)`: the content of `array` after the call, as
a function of the subscript.  The result is `none` when `TMAX[n]` is read outside of
the table or when the call of `fmtaylor` is undefined. -/
def fmrecursive [FloorRing α] (lib : LibM α) (FMTABLE : Int → Nat → α) (T : α) (n : Nat)
    (array : Nat → α) : Option (Nat → α) :=
  match TMAX[n]? with
  | none => none
  | some tmax =>
    match (if T > (tmax : α) then some (fmasymptotic lib T n) else fmtaylor FMTABLE T n) with
    | none => none
    | some seed =>
      let array := Function.update array n seed
      if n = 0 then some array
      else
        let emt := lib.exp (-T)
        some (fmrecursiveLoop T emt n array)

/-- The subscript pairs `(tidx, n + i)` of the cells `FMTABLE[tidx][n + i]` read by the
loop of `fmtaylor(T, n)`, in the order of the loop. -/
def fmtaylorCells [FloorRing α] (T : α) (n : Nat) : List (Int × Nat) :=
  let tidx : Int := cround (T * 20.0)
  (List.range TAYLOR_N).map fun i => (tidx, n + i)

/-- The inner loop of `calcfmtable` for the column `m`, with `k` iterations left:
```
for (Tidx = 0;Tidx < TMAX[m] * 20 + 1;Tidx++)
    FMTABLE[Tidx][m] = fm(((double)Tidx) / 20.0, m);
``` -/
def calcfmtableColumn (lib : LibM α) (fuel : Nat) (m : Nat) :
    Nat → Int → (Int → Nat → α) → Option (Int → Nat → α)
  | 0, _, FMTABLE => some FMTABLE
  | k + 1, Tidx, FMTABLE =>
    match fm lib fuel ((Tidx : α) / 20.0) m with
    | none => none
    | some v =>
      calcfmtableColumn lib fuel m k (Tidx + 1)
        (fun t j => if t = Tidx ∧ j = m then v else FMTABLE t j)

/-- The outer loop `for (m = 0;m < 40;m++)` of `calcfmtable`, with `k` iterations left. -/
def calcfmtableLoop (lib : LibM α) (fuel : Nat) :
    Nat → Nat → (Int → Nat → α) → Option (Int → Nat → α)
  | 0, _, FMTABLE => some FMTABLE
  | k + 1, m, FMTABLE =>
    match TMAX[m]? with
    | none => none
    | some tmax =>
      match calcfmtableColumn lib fuel m (tmax * 20 + 1).toNat 0 FMTABLE with
      | none => none
      | some FMTABLE => calcfmtableLoop lib fuel k (m + 1) FMTABLE

/-- The function `calcfmtable()`: the content of `FMTABLE` after the call, from its
content before.  `fuel` bounds the iterations of each call of `fm`. -/
def calcfmtable (lib : LibM α) (fuel : Nat) (FMTABLE : Int → Nat → α) :
    Option (Int → Nat → α) :=
  calcfmtableLoop lib fuel 40 0 FMTABLE

/-- The subscript pairs `(Tidx, m)` of the cells assigned by `calcfmtable`, in the order
of the two loops. -/
def calcfmtableCells : List (Int × Nat) :=
  (List.range 40).flatMap fun m =>
    (List.range ((TMAX.getD m 0) * 20 + 1).toNat).map fun (t : Nat) => ((t : Int), m)

/-! ### The series of `fm` in the words of the specification -/

/-- The term `t_k` of the direct series as the specification states it:
`t_0 = 1/((m+0.5) * 2 * e^T)` and `t_k = t_{k-1} * T / (m+0.5+k)`. -/
def specSeriesTerm (lib : LibM α) (T : α) (m : Nat) : Nat → α
  | 0 => 1 / (((m : α) + 0.5) * 2 * lib.exp T)
  | k + 1 => specSeriesTerm lib T m k * T / ((m : α) + 0.5 + ((k + 1 : Nat) : α))

/-- The partial sum `t_0 + ... + t_K` of the direct series. -/
def specSeriesSum (lib : LibM α) (T : α) (m : Nat) : Nat → α
  | 0 => specSeriesTerm lib T m 0
  | K + 1 => specSeriesSum lib T m K + specSeriesTerm lib T m (K + 1)

/-! ### The loop of `fm` at an integer argument, in integer arithmetic -/

/-- The state of the loop of `fm` after `j` iterations, for an integer `T = t`, as
fractions over the common denominator `P e^t`. -/
def SeriesState (lib : LibM α) (t m j N P pw : Nat) : Prop :=
  specSeriesSum lib (t : α) m j = (N : α) / ((P : α) * lib.exp (t : α)) ∧
  specSeriesTerm lib (t : α) m j = (pw : α) / ((P : α) * lib.exp (t : α)) ∧
  0 < N ∧ 0 < P

end

/-- The product `(2m-1)!!` of the odd numbers `1, 3, ..., 2m-1`. -/
def oddProduct : Nat → Nat
  | 0 => 1
  | m + 1 => oddProduct m * (2 * m + 1)

/-- The loop of `fm` for an integer `T = t`, in integer arithmetic.  After `j` iterations
the partial sum is `N / (P e^t)` and the last term is `pw / (P e^t)`, with
`P = (2m+1)(2m+3)...(2m+1+2j)` and `pw = (2t)^j`; the stopping test
`|delt| / sum < 1e-15` reads `pw * 2t * 10^15 < N * (2m+3+2j)`.  The result is the pair
`(N, P)` at the index where the loop stops. -/
def stopNat (t m : Nat) : Nat → Nat → Nat → Nat → Nat → Option (Nat × Nat)
  | 0, _, _, _, _ => none
  | fuel + 1, j, N, P, pw =>
    if pw * (2 * t) * 10 ^ 15 < N * (2 * m + 3 + 2 * j) then some (N, P)
    else stopNat t m fuel (j + 1) (N * (2 * m + 3 + 2 * j) + pw * (2 * t))
      (P * (2 * m + 3 + 2 * j)) (pw * (2 * t))

/-- The numerator of the constant `PI` of `fmasymptotic`, over `PI_DEN`. -/
def PI_NUM : Nat := 31415926535897932384626433832795

/-- The denominator of the constant `PI` of `fmasymptotic`. -/
def PI_DEN : Nat := 10 ^ 31

/-- A lower bound of `e`, over `E_DEN`. -/
def E_LOW : Nat := 27182818284590452353

/-- An upper bound of `e`, over `E_DEN`. -/
def E_HIGH : Nat := 27182818284590452354

/-- The denominator of the bounds of `e`. -/
def E_DEN : Nat := 10 ^ 19

/-- The factor `1 - 1e-13`, over `TOL_DEN`. -/
def TOL_LOW : Nat := 9999999999999

/-- The factor `1 + 1e-13`, over `TOL_DEN`. -/
def TOL_HIGH : Nat := 10000000000001

/-- The denominator of the tolerance factors. -/
def TOL_DEN : Nat := 10 ^ 13

/-- The common denominator of the comparison of the squares. -/
def scaleNat (t m : Nat) : Nat :=
  TOL_DEN ^ 2 * 4 * (2 * t) ^ (2 * m) * PI_DEN * t * E_DEN ^ (2 * t)

/-- The numerator of `((1 - 1e-13) * fmasymptotic(t, m) * e^t)^2` with `e` replaced by
its upper bound. -/
def lowerNat (t m : Nat) : Nat :=
  TOL_LOW ^ 2 * oddProduct m ^ 2 * PI_NUM * E_HIGH ^ (2 * t)

/-- The numerator of `((1 + 1e-13) * fmasymptotic(t, m) * e^t)^2` with `e` replaced by
its lower bound. -/
def upperNat (t m : Nat) : Nat :=
  TOL_HIGH ^ 2 * oddProduct m ^ 2 * PI_NUM * E_LOW ^ (2 * t)

/-- The comparison at the boundary `T = TMAX[m]` in integer arithmetic: the loop of `fm`
stops within `fuel` iterations with a sum `N / (P e^T)` whose square lies between the
squares of `(1 ∓ 1e-13) * fmasymptotic(T, m)`. -/
def boundaryCheck (fuel m : Nat) : Bool :=
  match stopNat (TMAX.getD m 0).toNat m fuel 0 1 (2 * m + 1) 1 with
  | none => false
  | some (N, P) =>
    decide (lowerNat (TMAX.getD m 0).toNat m * P ^ 2
      < N ^ 2 * scaleNat (TMAX.getD m 0).toNat m) &&
    decide (N ^ 2 * scaleNat (TMAX.getD m 0).toNat m
      < upperNat (TMAX.getD m 0).toNat m * P ^ 2)

/-! ### Lines 76-78 of `fmtaylor` in binary64 arithmetic -/

/-- The integer nearest to `x`, halfway cases to the even neighbour. -/
def roundTiesEven (x : ℚ) : Int :=
  if x - (Int.floor x : ℚ) < 1 / 2 then Int.floor x
  else if 1 / 2 < x - (Int.floor x : ℚ) then Int.floor x + 1
  else if Int.floor x % 2 = 0 then Int.floor x else Int.floor x + 1

/-- The result of a binary64 operation whose exact result is `x`, where `e` is the binary
exponent of `x` (`2^e ≤ |x| < 2^(e+1)`, in the normal range): the multiple of `2^(e-52)`
nearest to `x`, halfway cases to the even multiple. -/
def binary64 (e : Int) (x : ℚ) : ℚ :=
  (roundTiesEven (x / 2 ^ (e - 52)) : ℚ) * 2 ^ (e - 52)

/-- Lines 76-78 of `fmtaylor` with each of the three operations rounded to binary64:
```
tidx = (int)round(T * 20.0);
tr = (double)tidx / 20.0;
trmt = tr - T;
```
The arguments `e1`, `e2`, `e3` are the binary exponents of the product, the quotient and
the difference; the result is the pair `(tidx, trmt)`. -/
def fmtaylorPoint64 (e1 e2 e3 : Int) (T : ℚ) : Int × ℚ :=
  let tidx : Int := cround (binary64 e1 (T * 20))
  let tr : ℚ := binary64 e2 ((tidx : ℚ) / 20)
  (tidx, binary64 e3 (tr - T))

end Fmgamma

/-! ## The framework (`frameworks/util.hpp`) -/

/-- Modelled from the spec: the momentum vector `vec3` of the framework, three `double`
components. -/
structure vec3 (α : Type) where
  /-- First component. -/
  x : α
  /-- Second component. -/
  y : α
  /-- Third component. -/
  z : α

/-- Modelled from the spec: the momentum difference `operator-` of `vec3`, taken
component by component. -/
instance vec3.instSub {α : Type} [Sub α] : Sub (vec3 α) :=
  ⟨fun a b => ⟨a.x - b.x, a.y - b.y, a.z - b.z⟩⟩

/-- The helpers of the framework called by `jellium.cxx`, as parameters of the
embedding.  The two parallel vectors `glen`, `gvecs` handed to `cosort` are
represented by the list of the pairs `(glen[i], gvecs[i])`. -/
structure Util (α : Type) where
  /-- The function `norm2` of `vec3`. -/
  norm2 : vec3 α → α
  /-- The function `cosort(glen, gvecs)`. -/
  cosort : List (α × vec3 α) → List (α × vec3 α)

/-! ## `jellium.cxx`: the class `Jellium` -/

namespace Jellium

/-- The ways in which a call does not return normally. -/
inductive Failure where
  /-- An `assert` of the given source line fails. -/
  | assertion (line : Nat)
  /-- Undefined behaviour (a vector is read outside of its bounds, division of an
  integer by zero). -/
  | undefined
  /-- The iteration bound of the embedding is exhausted. -/
  | fuel
  deriving DecidableEq

/-- The configuration entries read by the constructor (`radius`, `num_electrons`,
`num_orbitals`, `dimension`). -/
structure Config (α : Type) where
  /-- Entry `num_electrons`. -/
  num_electrons : Int
  /-- Entry `num_orbitals`. -/
  num_orbitals : Int
  /-- Entry `radius`. -/
  radius : α
  /-- Entry `dimension`. -/
  dimension : Int

/-- The data members of the class `Jellium`. -/
structure State (α : Type) where
  /-- Member `nelec`. -/
  nelec : Int
  /-- Member `norb`. -/
  norb : Int
  /-- Member `radius`. -/
  radius : α
  /-- Member `gvecs`. -/
  gvecs : List (vec3 α)
  /-- Member `nocc`. -/
  nocc : Int
  /-- Member `V`. -/
  V : α
  /-- Member `L`. -/
  L : α
  /-- Member `PotVm`. -/
  PotVm : α

/-- What `run` hands over with `put("E", ...)` and `put("energy", ...)`, together with
the data members after the call. -/
structure Output (α : Type) where
  /-- The data members after the call. -/
  state : State α
  /-- The orbital energies `E[0]`. -/
  E : List α
  /-- The value `energy`. -/
  energy : α

section
variable {α : Type} [LinearOrderedField α]

/-- The constant `M_PI` of `<math.h>`. -/
def M_PI : α := 3.14159265358979323846

/-- Subscript `v[i]` of a `std::vector` with an `int` subscript; `none` outside of the
bounds. -/
def subscript {β : Type} (v : List β) (i : Int) : Option β :=
  if 0 ≤ i then v[i.toNat]? else none

/-- Lines 36-39 of `writeIntegrals`: the extent `(virt ? norb-nocc : nocc)` of an index
of the block. -/
def sectorSize (J : State α) (virt : Bool) : Int :=
  if virt then J.norb - J.nocc else J.nocc

/-- Lines 43-55 of `writeIntegrals`: the orbital indices `(p, q, r, s)` recovered from
the key `k`, shifted by `nocc` in the virtual sectors.  Integer division and remainder
round towards zero; a zero divisor is undefined behaviour. -/
def orbitalIndices (J : State α) (pvirt qvirt rvirt svirt : Bool) (k : Int) :
    Option (Int × Int × Int × Int) :=
  let np := sectorSize J pvirt
  let nq := sectorSize J qvirt
  let nr := sectorSize J rvirt
  if np = 0 ∨ nq = 0 ∨ nr = 0 then none
  else
    let p := Int.tmod k np
    let k := Int.tdiv k np
    let q := Int.tmod k nq
    let k := Int.tdiv k nq
    let r := Int.tmod k nr
    let k := Int.tdiv k nr
    let s := narrow32 k
    let p := if pvirt then p + J.nocc else p
    let q := if qvirt then q + J.nocc else q
    let r := if rvirt then r + J.nocc else r
    let s := if svirt then s + J.nocc else s
    some (p, q, r, s)

/-- Lines 57-74 of `writeIntegrals`: the value assigned to `pair.d` for the orbital
indices `(p, q, r, s)`. -/
def integral (U : Util α) (J : State α) (p q r s : Int) : Option α := do
  let gp ← subscript J.gvecs p
  let gq ← subscript J.gvecs q
  let gr ← subscript J.gvecs r
  let gs ← subscript J.gvecs s
  let pr := gp - gr
  let sq := gs - gq
  if U.norm2 (pr - sq) < 1e-12 then
    if p = r then pure J.PotVm
    else pure (1 / (M_PI * J.L * U.norm2 pr))
  else pure 0

/-- The function `writeIntegrals`: `pairs` are the key-value pairs obtained from the
tensor by `getLocalData`, the result the pairs handed to `writeRemoteData` (the loop
`for (auto& pair : pairs)` overwrites `pair.d` and keeps `pair.k`). -/
def writeIntegrals (U : Util α) (J : State α) (pvirt qvirt rvirt svirt : Bool) :
    List (Int × α) → Option (List (Int × α))
  | [] => some []
  | pair :: rest => do
    let (p, q, r, s) ← orbitalIndices J pvirt qvirt rvirt svirt pair.1
    let d ← integral U J p q r s
    let more ← writeIntegrals U J pvirt qvirt rvirt svirt rest
    pure ((pair.1, d) :: more)

/-- Modelled from the spec: the assignments of the tensor framework that derive a
same-spin block with two antisymmetric index pairs from the block filled by
`writeIntegrals`, lines 220-221, 243-244 and 250-251 of `run`, as in
`H.getABCD()({0,0},{0,0})["abcd"] = 0.5*H.getABCD()({1,0},{1,0})["abcd"]`.  The
assignment operator of the framework is not part of the sources; following the
specification (the derived block is antisymmetrized, "swapping either pair of particle
indices negates the value", with the "scale factor 0.5") the derived value is
`0.5 * (v(p,q,r,s) - v(q,p,r,s) - v(p,q,s,r) + v(q,p,s,r))`, where `v` is the value
assigned by `writeIntegrals`. -/
def sameSpinBlock (U : Util α) (J : State α) (p q r s : Int) : Option α := do
  let a ← integral U J p q r s
  let b ← integral U J q p r s
  let c ← integral U J p q s r
  let d ← integral U J q p s r
  pure (0.5 * (a - b - c + d))

/-- Modelled from the spec: the assignments of the tensor framework that derive a
same-spin block with one antisymmetric index pair, the first pair in lines 227 and 229
(`H.getABCI()({0,0},{0,0})["abci"] = H.getABCI()({1,0},{1,0})["abci"]`) when `first` is
`true`, the second pair in lines 236 and 238
(`H.getAIJK()({0,0},{0,0})["aijk"] = H.getAIJK()({1,0},{0,1})["aijk"]`) otherwise.  The
assignment operator of the framework is not part of the sources; following the
specification the derived block is antisymmetrized in that pair, without a scale
factor: `v(p,q,r,s) - v(q,p,r,s)`, respectively `v(p,q,r,s) - v(p,q,s,r)`. -/
def sameSpinBlockPair (U : Util α) (J : State α) (first : Bool) (p q r s : Int) :
    Option α := do
  let a ← integral U J p q r s
  let b ← if first then integral U J q p r s else integral U J p q s r
  pure (a - b)

/-- The values `-r, ..., r` of a loop variable `for (int x = -r;x <= r;x++)`. -/
def axis (r : Nat) : List Int :=
  (List.range (2 * r + 1)).map fun (i : Nat) => (i : Int) - (r : Int)

/-- Lines 104-117 of `run`: the pairs `(glen[i], gvecs[i])` pushed for the radius `r`,
in the order of the three nested loops. -/
def lattice (lib : LibM α) (r : Nat) : List (α × vec3 α) :=
  (axis r).flatMap fun x => (axis r).flatMap fun y => (axis r).flatMap fun z =>
    if lib.sqrt ((x * x + y * y + z * z : Int) : α) < ((r : Int) : α) then
      [(lib.sqrt ((x * x + y * y + z * z : Int) : α), ⟨(x : α), (y : α), (z : α)⟩)]
    else []

/-- Lines 102-120 of `run`: the loop `for (int r = 0;;r++)`, entered with the given
radius; it returns the vectors of the first radius with `n >= norb`. -/
def search (lib : LibM α) (norb : Int) : Nat → Nat → Except Failure (List (α × vec3 α))
  | 0, _ => .error .fuel
  | fuel + 1, r =>
    let c := lattice lib r
    if (c.length : Int) ≥ norb then .ok c else search lib norb fuel (r + 1)

/-- Lines 100-122 of `run`: the candidates found by the search loop, rearranged by
`cosort(glen, gvecs)`. -/
def basis (lib : LibM α) (U : Util α) (fuel : Nat) (norb : Int) :
    Except Failure (List (α × vec3 α)) :=
  match search lib norb fuel 0 with
  | .error e => .error e
  | .ok c => .ok (U.cosort c)

/-- The expression `std::abs(glen[n-1] - glen[n]) > 1e-12`. -/
def gap (glen : List α) (n : Int) : Except Failure Bool :=
  match subscript glen (n - 1), subscript glen n with
  | some a, some b => .ok (decide (|a - b| > 1e-12))
  | _, _ => .error .undefined

/-- Lines 139-153 of `run`: the orbital energy `E[0][i]`. -/
def orbitalEnergy (U : Util α) (gvecs : List (vec3 α)) (nocc : Int) (L PotVm : α)
    (i : Nat) : Except Failure α :=
  match gvecs[i]? with
  | none => .error .undefined
  | some gi =>
    (List.range nocc.toNat).foldlM
      (fun (e : α) (j : Nat) =>
        if i = j then (.ok (e - PotVm) : Except Failure α)
        else
          match gvecs[j]? with
          | none => .error .undefined
          | some gj => .ok (e - 1 / (M_PI * L * U.norm2 (gi - gj))))
      (2 * (M_PI / L) * (M_PI / L) * U.norm2 gi)

/-- Lines 157-172 of `run`: the value of `energy`. -/
def totalEnergy (U : Util α) (gvecs : List (vec3 α)) (nocc : Int) (L PotVm : α)
    (E : List α) : Except Failure α :=
  (List.range nocc.toNat).foldlM
    (fun (energy : α) (i : Nat) =>
      match E[i]?, gvecs[i]? with
      | some Ei, some gi =>
        (List.range nocc.toNat).foldlM
          (fun (energy : α) (j : Nat) =>
            if i = j then (.ok (energy + PotVm) : Except Failure α)
            else
              match gvecs[j]? with
              | none => .error .undefined
              | some gj => .ok (energy + 1 / (M_PI * L * U.norm2 (gi - gj))))
          (energy + 2 * Ei)
      | _, _ => .error .undefined)
    0

/-- The constructor of `Jellium` followed by `run`, up to `put("energy", energy)`
(lines 81-178).  `fuel` bounds the number of radii tried by the search loop. -/
def run (lib : LibM α) (U : Util α) (fuel : Nat) (config : Config α) :
    Except Failure (Output α) := do
  let nelec := config.num_electrons
  let norb := config.num_orbitals
  let radius := config.radius
  if config.dimension ≠ 3 then throw (.assertion 95)
  let c ← basis lib U fuel norb
  let glen := c.map Prod.fst
  let gvecs := c.map Prod.snd
  let ok ← if norb = (gvecs.length : Int) then pure true else gap glen norb
  if !ok then throw (.assertion 124)
  let gvecs := gvecs.take norb.toNat
  let nocc := Int.tdiv nelec 2
  if ¬ (0 < nocc ∧ nocc ≤ norb) then throw (.assertion 128)
  let ok ← if nocc = norb then pure true else gap glen nocc
  if !ok then throw (.assertion 129)
  let V : α := (nelec : α) * (4.0 / 3.0) * M_PI * lib.pow radius 3
  let L : α := lib.pow V (1.0 / 3.0)
  let PotVm : α := 2.83729747948149 / L
  let E ← (List.range norb.toNat).mapM (orbitalEnergy U gvecs nocc L PotVm)
  let energy ← totalEnergy U gvecs nocc L PotVm E
  pure ⟨⟨nelec, norb, radius, gvecs, nocc, V, L, PotVm⟩, E, energy⟩

/-! ### Assumptions on the parameters and the integer view of the lattice -/

/-- The property of the library function `sqrt` that the statements about `run` rely
on: on non-negative arguments it returns the non-negative square root. -/
def IsSqrt (lib : LibM α) : Prop :=
  ∀ x : α, 0 ≤ x → 0 ≤ lib.sqrt x ∧ lib.sqrt x * lib.sqrt x = x

/-- The property of `cosort` that the statements about `run` rely on: the result is a
rearrangement of the pairs `(glen[i], gvecs[i])` in non-decreasing order of `glen`. -/
def Sorts (U : Util α) : Prop :=
  ∀ l : List (α × vec3 α),
    List.Perm (U.cosort l) l ∧ List.Sorted (fun a b => a.1 ≤ b.1) (U.cosort l)

/-- Modelled from the spec: the helpers of the framework as the spec describes them,
`norm2` the squared length of a momentum vector and `cosort` a sort of the candidates
by ascending length (here the insertion sort, which is stable). -/
def referenceUtil : Util α where
  norm2 := fun v => v.x * v.x + v.y * v.y + v.z * v.z
  cosort := fun l => l.insertionSort (fun a b => a.1 ≤ b.1)

/-- The squared length `x*x+y*y+z*z` of an integer vector. -/
def normSq (v : Int × Int × Int) : Int :=
  v.1 * v.1 + v.2.1 * v.2.1 + v.2.2 * v.2.2

/-- The `vec3` with the given integer components. -/
def toVec (v : Int × Int × Int) : vec3 α :=
  ⟨(v.1 : α), (v.2.1 : α), (v.2.2 : α)⟩

/-- The integer vectors selected for the radius `r` when `sqrt` is exact: those with
`x*x+y*y+z*z < r*r`, in the order of the three nested loops. -/
def latticeInt (r : Nat) : List (Int × Int × Int) :=
  (axis r).flatMap fun x => (axis r).flatMap fun y => (axis r).flatMap fun z =>
    if x * x + y * y + z * z < (r : Int) * (r : Int) then [(x, y, z)] else []

end

/-- The data members after a run with `num_orbitals = 7`, `num_electrons = 2`: the
vector `(0, 0, 0)` and the six vectors of length `1`, one occupied orbital; the box
length `L` is given the rational value `2`. -/
def exampleState : State Rat where
  nelec := 2
  norb := 7
  radius := 1
  gvecs := [(0, 0, 0), (-1, 0, 0), (0, -1, 0), (0, 0, -1), (0, 0, 1), (0, 1, 0),
    (1, 0, 0)].map toVec
  nocc := 1
  V := 8
  L := 2
  PotVm := 2.83729747948149 / 2

end Jellium
/-! ## Theorems: packed index decoding -/

namespace CFOUROneElectronIntegralsTask

theorem tri_succ (p : Int) : (p + 1) * (p + 1 + 1) / 2 = p * (p + 1) / 2 + (p + 1) := by
  have h : (p + 1) * (p + 1 + 1) = p * (p + 1) + 2 * (p + 1) := by ring
  rw [h, Int.add_mul_ediv_left _ _ (by decide : (2 : Int) ≠ 0)]

theorem tri_nonneg (p : Int) (hp : 0 ≤ p) : 0 ≤ p * (p + 1) / 2 :=
  Int.ediv_nonneg (mul_nonneg hp (by omega)) (by decide)

theorem tri_mono (p r : Int) (hp : 0 ≤ p) (h : p ≤ r) :
    p * (p + 1) / 2 ≤ r * (r + 1) / 2 := by
  apply Int.ediv_le_ediv (by decide)
  nlinarith

theorem int32_of_range (x : Int) (h1 : INT_MIN ≤ x) (h2 : x ≤ INT_MAX) :
    int32 x = some x := by
  simp [int32, h1, h2]

theorem int64_of_range (x : Int) (h1 : INT64_MIN ≤ x) (h2 : x ≤ INT64_MAX) :
    int64 x = some x := by
  simp [int64, h1, h2]

/-- One iteration that does not break. -/
theorem unpackLoop_step (N idx : Int) (fuel : Nat) (p : Int) (hp : 0 ≤ p) (hN : p < N)
    (hmax : (p + 1) * (p + 1 + 1) / 2 ≤ INT_MAX)
    (hle : (p + 1) * (p + 1 + 1) / 2 ≤ idx) :
    unpackLoop N idx (fuel + 1) p (p * (p + 1) / 2)
      = unpackLoop N idx fuel (p + 1) ((p + 1) * (p + 1 + 1) / 2) := by
  have ht := tri_succ p
  have h0 := tri_nonneg p hp
  have hI : INT_MIN = -2147483648 := rfl
  have hA : INT_MAX = 2147483647 := rfl
  rw [unpackLoop, if_pos hN]
  rw [int32_of_range (p * (p + 1) / 2 + p) (by omega) (by omega)]
  simp only [Option.bind_eq_bind, Option.some_bind]
  rw [int32_of_range (p * (p + 1) / 2 + p + 1) (by omega) (by omega)]
  simp only [Option.some_bind]
  rw [if_neg (by omega)]
  rw [int32_of_range (p + 1) (by omega) (by omega)]
  simp only [Option.some_bind]
  rw [int32_of_range (p * (p + 1) / 2 + (p + 1)) (by omega) (by omega)]
  simp only [Option.some_bind]
  rw [ht]

/-- The iteration that breaks. -/
theorem unpackLoop_stop (N idx : Int) (fuel : Nat) (p : Int) (hp : 0 ≤ p) (hN : p < N)
    (hmax : (p + 1) * (p + 1 + 1) / 2 ≤ INT_MAX)
    (hgt : idx < (p + 1) * (p + 1 + 1) / 2) :
    unpackLoop N idx (fuel + 1) p (p * (p + 1) / 2) = some (p, p * (p + 1) / 2) := by
  have ht := tri_succ p
  have h0 := tri_nonneg p hp
  have hI : INT_MIN = -2147483648 := rfl
  have hA : INT_MAX = 2147483647 := rfl
  rw [unpackLoop, if_pos hN]
  rw [int32_of_range (p * (p + 1) / 2 + p) (by omega) (by omega)]
  simp only [Option.bind_eq_bind, Option.some_bind]
  rw [int32_of_range (p * (p + 1) / 2 + p + 1) (by omega) (by omega)]
  simp only [Option.some_bind]
  rw [if_pos (by omega)]
  rfl

/-- The iteration in which `pq+p+1` leaves the range of `int`. -/
theorem unpackLoop_overflow (N idx : Int) (fuel : Nat) (p : Int) (hN : p < N)
    (hmax : INT_MAX < (p + 1) * (p + 1 + 1) / 2) :
    unpackLoop N idx (fuel + 1) p (p * (p + 1) / 2) = none := by
  have ht := tri_succ p
  have hA : INT_MAX = 2147483647 := rfl
  rw [unpackLoop, if_pos hN]
  by_cases h : INT_MIN ≤ p * (p + 1) / 2 + p ∧ p * (p + 1) / 2 + p ≤ INT_MAX
  · rw [int32_of_range _ h.1 h.2]
    simp only [Option.bind_eq_bind, Option.some_bind]
    have : int32 (p * (p + 1) / 2 + p + 1) = none := by
      simp only [int32]
      rw [if_neg (by omega)]
    rw [this]
    rfl
  · have : int32 (p * (p + 1) / 2 + p) = none := by
      simp only [int32]
      rw [if_neg h]
    rw [this]
    rfl

/-- Iterations `p0, p0+1, ..., p0+k-1` do not break when the triangular number of
`p0+k` is at most `idx`. -/
theorem unpackLoop_skip (N idx : Int) (fuel : Nat) (k : Nat) :
    ∀ p0 : Int, 0 ≤ p0 → p0 + k ≤ N →
      (p0 + k) * (p0 + k + 1) / 2 ≤ INT_MAX →
      (p0 + k) * (p0 + k + 1) / 2 ≤ idx →
      unpackLoop N idx (fuel + k) p0 (p0 * (p0 + 1) / 2)
        = unpackLoop N idx fuel (p0 + k) ((p0 + k) * (p0 + k + 1) / 2) := by
  induction k with
  | zero => intro p0 _ _ _ _; simp
  | succ k ih =>
    intro p0 hp0 hN hmax hle
    have hcast : ((k + 1 : Nat) : Int) = (k : Int) + 1 := by push_cast; ring
    rw [hcast] at hN hmax hle ⊢
    have e1 : p0 + ((k : Int) + 1) = (p0 + 1) + k := by ring
    rw [e1] at hN hmax hle ⊢
    have hmono := tri_mono (p0 + 1) (p0 + 1 + k) (by omega) (by omega)
    have hfuel : fuel + (k + 1) = (fuel + k) + 1 := by omega
    rw [hfuel, unpackLoop_step N idx (fuel + k) p0 hp0 (by omega) (by omega) (by omega)]
    exact ih (p0 + 1) (by omega) hN hmax hle

/-- The loop stops in the row `p` of the index `idx`. -/
theorem unpackLoop_row (N idx p : Int) (hp : 0 ≤ p) (hN : p < N)
    (hmax : (p + 1) * (p + 1 + 1) / 2 ≤ INT_MAX)
    (hlo : p * (p + 1) / 2 ≤ idx) (hhi : idx < (p + 1) * (p + 1 + 1) / 2) :
    unpackLoop N idx (N.toNat + 1) 0 0 = some (p, p * (p + 1) / 2) := by
  obtain ⟨k, rfl⟩ := Int.eq_ofNat_of_zero_le hp
  obtain ⟨f, hf⟩ : ∃ f : Nat, N.toNat + 1 = (f + 1) + k := ⟨N.toNat - k, by omega⟩
  have hmono := tri_mono (k : Int) ((k : Int) + 1) (by omega) (by omega)
  have hskip := unpackLoop_skip N idx (f + 1) k 0 (le_refl 0) (by omega)
    (by simp only [zero_add]; omega) (by simp only [zero_add]; omega)
  simp only [zero_add, zero_mul, Int.zero_ediv] at hskip
  rw [hf, hskip]
  exact unpackLoop_stop N idx f k hp hN hmax hhi

/-- Rows up to `65534` keep the running sum `pq+p+1` inside the range of `int`. -/
theorem tri_le_INT_MAX (p : Int) (hp : 0 ≤ p) (h : p ≤ 65534) :
    (p + 1) * (p + 1 + 1) / 2 ≤ INT_MAX := by
  have h1 := tri_mono (p + 1) 65535 (by omega) (by omega)
  have h2 : (65535 : Int) * (65535 + 1) / 2 = 2147450880 := by decide
  have hA : INT_MAX = 2147483647 := rfl
  omega

/-- Decoding of a well-formed packed index: when `idx` lies in row `p`, the entry
stored as `idx + 1` is unpacked to `(p, idx - p(p+1)/2)`. -/
theorem unpack_row (N idx p : Int) (hp : 0 ≤ p) (hN : p < N) (h : p ≤ 65534)
    (hlo : p * (p + 1) / 2 ≤ idx) (hhi : idx < (p + 1) * (p + 1 + 1) / 2) :
    unpack N (idx + 1) = some (p, idx - p * (p + 1) / 2) := by
  have hmax := tri_le_INT_MAX p hp h
  have h0 := tri_nonneg p hp
  have ht := tri_succ p
  have hA : INT_MAX = 2147483647 := rfl
  have h64a : INT64_MAX = 9223372036854775807 := rfl
  have h64i : INT64_MIN = -9223372036854775808 := rfl
  unfold unpack
  rw [show idx + 1 - 1 = idx by ring, int64_of_range idx (by omega) (by omega)]
  simp only [Option.bind_eq_bind, Option.some_bind]
  rw [unpackLoop_row N idx p hp hN hmax hlo hhi]
  simp only [Option.some_bind]
  rw [int64_of_range _ (by omega) (by omega)]
  simp only [Option.some_bind]
  have hn : narrow32 (idx - p * (p + 1) / 2) = idx - p * (p + 1) / 2 := by
    unfold narrow32
    omega
  rw [hn]
  rfl

/-- Every index below the `N`-th triangular number lies in a row `p < N`. -/
theorem exists_row (N : Nat) : ∀ idx : Int, 0 ≤ idx → idx < (N : Int) * (N + 1) / 2 →
    ∃ p : Int, 0 ≤ p ∧ p < N ∧ p * (p + 1) / 2 ≤ idx ∧ idx < (p + 1) * (p + 1 + 1) / 2 := by
  induction N with
  | zero => intro idx h0 h; simp at h; omega
  | succ n ih =>
    intro idx h0 h
    by_cases hlt : idx < (n : Int) * (n + 1) / 2
    · obtain ⟨p, hp, hpn, h1, h2⟩ := ih idx h0 hlt
      exact ⟨p, hp, by push_cast; omega, h1, h2⟩
    · refine ⟨n, by omega, by push_cast; omega, by omega, ?_⟩
      have hc : ((n + 1 : Nat) : Int) = (n : Int) + 1 := by push_cast; ring
      rw [hc] at h
      exact h


/-- Keys of an in-range pair stay inside the range of `int` when `N ≤ 46340`. -/
theorem emit_in_range {α : Type} (N : Int) (hN : N ≤ 46340) (v : α) (p q : Int)
    (hq : 0 ≤ q) (hqp : q ≤ p) (hpN : p < N) :
    emit N v p q = some ((p + q * N, v) :: (if p ≠ q then [(q + p * N, v)] else [])) := by
  have hI : INT_MIN = -2147483648 := rfl
  have hA : INT_MAX = 2147483647 := rfl
  have h1 : 0 ≤ q * N := mul_nonneg hq (by omega)
  have h2 : 0 ≤ p * N := mul_nonneg (by omega) (by omega)
  have h3 : p * N ≤ 46339 * 46340 := by nlinarith
  have h4 : q * N ≤ 46339 * 46340 := by nlinarith
  unfold emit
  rw [int32_of_range (q * N) (by omega) (by omega)]
  simp only [Option.bind_eq_bind, Option.some_bind]
  rw [int32_of_range (p + q * N) (by omega) (by omega)]
  simp only [Option.some_bind]
  by_cases hpq : p = q
  · simp [hpq]
  · rw [if_pos hpq, if_pos hpq, int32_of_range (p * N) (by omega) (by omega)]
    simp only [Option.some_bind]
    rw [int32_of_range (q + p * N) (by omega) (by omega)]
    rfl

/-- An entry whose search loop has no defined result has no defined unpacking. -/
theorem unpack_eq_none (N idx1 idx : Int) (fuel : Nat) (hidx : idx1 - 1 = idx)
    (hfuel : N.toNat + 1 = fuel) (hloop : unpackLoop N idx fuel 0 0 = none) :
    unpack N idx1 = none := by
  subst hidx hfuel
  unfold unpack
  cases h : int64 (idx1 - 1) with
  | none => rfl
  | some i =>
    have hi : i = idx1 - 1 := by
      unfold int64 at h
      split at h
      · exact (Option.some.inj h).symm
      · cases h
    subst hi
    simp only [Option.bind_eq_bind, Option.some_bind, hloop, Option.none_bind]

/-- With `N[0] = 65536` every index of the last row `p = 65535` drives the running sum
`pq+p+1` to `2147516416`, outside the range of `int`. -/
theorem unpackLoop_65536 (idx : Int) (h : 2147450880 ≤ idx) :
    unpackLoop 65536 idx 65537 0 0 = none := by
  have hskip := unpackLoop_skip 65536 idx 2 65535 0 (le_refl 0) (by norm_num)
    (by norm_num [INT_MAX]) (by norm_num; exact h)
  have hover := unpackLoop_overflow 65536 idx 1 65535 (by norm_num) (by norm_num [INT_MAX])
  norm_num at hskip
  rw [hskip]
  exact hover

/-- C1 (amended): round trip of the packed index.  For every bound `N` and every pair
`(p, q)` with `0 ≤ q ≤ p < N` whose row satisfies `p ≤ 65534` (every pair when
`N ≤ 65535`), storing the triangular index `p(p+1)/2 + q` in the file as that number
plus one and running the unpacking code with bound `N` returns exactly `(p, q)`. -/
theorem packedIndex_roundtrip (N p q : Int) (hq : 0 ≤ q) (hqp : q ≤ p) (hpN : p < N)
    (hp : p ≤ 65534) :
    unpack N (packedIndex p q + 1) = some (p, q) := by
  have ht := tri_succ p
  have h := unpack_row N (packedIndex p q) p (by omega) hpN hp
    (by unfold packedIndex; omega) (by unfold packedIndex; omega)
  rw [h]
  unfold packedIndex
  simp

theorem packedIndex_roundtrip_witness :
    ((0 : Int) ≤ 1 ∧ (1 : Int) ≤ 2 ∧ (2 : Int) < 3 ∧ (2 : Int) ≤ 65534) ∧
    unpack 3 (packedIndex 2 1 + 1) = some (2, 1) :=
  ⟨by decide, packedIndex_roundtrip 3 2 1 (by decide) (by decide) (by decide) (by decide)⟩

/-- C1 (as stated) fails for `N = 65536`: the pair `(65535, 0)` satisfies
`0 ≤ q ≤ p < N`, but in the iteration `p = 65535` the `int` expression `pq+p+1`
has the value `2147516416 > INT_MAX`, so the unpacking has no defined result. -/
theorem packedIndex_roundtrip_fails_65536 :
    (0 : Int) ≤ 0 ∧ (0 : Int) ≤ 65535 ∧ (65535 : Int) < 65536 ∧
    unpack 65536 (packedIndex 65535 0 + 1) ≠ some (65535, 0) := by
  refine ⟨by decide, by decide, by decide, ?_⟩
  have h := unpack_eq_none 65536 (packedIndex 65535 0 + 1) 2147450880 65537
    (by norm_num [packedIndex]) (by decide) (unpackLoop_65536 2147450880 (le_refl _))
  rw [h]
  exact fun h' => Option.noConfusion h'

/-- C2 (amended): range of the decoder.  For every bound `N ≥ 1` and every `0`-based index
`idx` with `0 ≤ idx < N(N+1)/2` and `idx < 2147450880 = 65535·65536/2` (every valid
index when `N ≤ 65535`), unpacking the stored index `idx + 1` yields `(p, q)` where
`p` is the smallest natural number whose cumulative triangular sum `(p+1)(p+2)/2`
exceeds `idx`, `q = idx - p(p+1)/2`, and `0 ≤ q ≤ p < N`. -/
theorem unpack_range (N idx : Int) (hN1 : 1 ≤ N) (h0 : 0 ≤ idx)
    (hN : idx < N * (N + 1) / 2)
    (hb : idx < 2147450880) :
    ∃ p q : Int, unpack N (idx + 1) = some (p, q) ∧
      0 ≤ p ∧ idx < (p + 1) * (p + 2) / 2 ∧
      (∀ r : Int, 0 ≤ r → idx < (r + 1) * (r + 2) / 2 → p ≤ r) ∧
      q = idx - p * (p + 1) / 2 ∧ 0 ≤ q ∧ q ≤ p ∧ p < N := by
  have hNpos : 0 ≤ N := by omega
  obtain ⟨n, rfl⟩ := Int.eq_ofNat_of_zero_le hNpos
  obtain ⟨p, hp0, hpn, hlo, hhi⟩ := exists_row n idx h0 hN
  have hp : p ≤ 65534 := by
    by_contra hgt
    have hm := tri_mono 65535 p (by decide) (by omega)
    have e : (65535 : Int) * (65535 + 1) / 2 = 2147450880 := by decide
    omega
  have ht := tri_succ p
  refine ⟨p, idx - p * (p + 1) / 2, unpack_row n idx p hp0 hpn hp hlo hhi, hp0, ?_, ?_,
    rfl, by omega, by omega, hpn⟩
  · rw [show p + 2 = p + 1 + 1 by ring]; exact hhi
  · intro r hr hidx
    by_contra hlt
    have hm := tri_mono (r + 1) p (by omega) (by omega)
    rw [show r + 2 = r + 1 + 1 by ring] at hidx
    omega

theorem unpack_range_witness :
    ((1 : Int) ≤ 3 ∧ (0 : Int) ≤ 4 ∧ (4 : Int) < 3 * (3 + 1) / 2 ∧ (4 : Int) < 2147450880) ∧
    ∃ p q : Int, unpack 3 (4 + 1) = some (p, q) ∧
      0 ≤ p ∧ 4 < (p + 1) * (p + 2) / 2 ∧
      (∀ r : Int, 0 ≤ r → 4 < (r + 1) * (r + 2) / 2 → p ≤ r) ∧
      q = 4 - p * (p + 1) / 2 ∧ 0 ≤ q ∧ q ≤ p ∧ p < 3 :=
  ⟨by decide, unpack_range 3 4 (by decide) (by decide) (by decide) (by decide)⟩

/-- C2 (as stated) fails for `N = 65536`: the index `2147450881` is non-negative and
below `N(N+1)/2 = 2147516416`, but the unpacking yields no pair at all, because the
`int` running sum overflows in the row `p = 65535`. -/
theorem unpack_range_fails_65536 :
    (1 : Int) ≤ 65536 ∧ (0 : Int) ≤ 2147450881 ∧
    (2147450881 : Int) < 65536 * (65536 + 1) / 2 ∧
    ¬ ∃ p q : Int, unpack 65536 (2147450881 + 1) = some (p, q) := by
  refine ⟨by decide, by decide, by decide, ?_⟩
  have h := unpack_eq_none 65536 (2147450881 + 1) 2147450881 65537
    (by norm_num) (by decide) (unpackLoop_65536 2147450881 (by norm_num))
  rw [h]
  rintro ⟨p, q, hpq⟩
  exact Option.noConfusion hpq

/-- The stored index `1` is unpacked to `(0, 0)`, whatever the dimension. -/
theorem unpack_one (N : Int) : unpack N 1 = some (0, 0) := by
  have h64 : int64 (1 - 1) = some 0 := by decide
  have h64' : int64 (0 - 0) = some 0 := by decide
  have ha : int32 (0 + 0) = some 0 := by decide
  have hb : int32 (0 + 1) = some 1 := by decide
  have hn : narrow32 0 = 0 := by decide
  have hloop : unpackLoop N 0 (N.toNat + 1) 0 0 = some (0, 0) := by
    rw [unpackLoop]
    by_cases hN : (0 : Int) < N
    · rw [if_pos hN, ha]
      simp only [Option.bind_eq_bind, Option.some_bind]
      rw [hb]
      simp only [Option.some_bind]
      rw [if_pos (by decide)]
      rfl
    · rw [if_neg hN]
      rfl
  unfold unpack
  rw [h64]
  simp only [Option.bind_eq_bind, Option.some_bind]
  rw [hloop]
  simp only [Option.some_bind]
  rw [h64']
  simp only [Option.some_bind]
  rw [hn]
  rfl

/-- The pairs pushed for an entry unpacked to `(p, q)` when the products and keys that
lines 130-132 compute are representable in an `int`. -/
theorem emit_of_keys {α : Type} (N : Int) (v : α) (p q : Int)
    (h1 : INT_MIN ≤ q * N ∧ q * N ≤ INT_MAX)
    (h2 : INT_MIN ≤ p + q * N ∧ p + q * N ≤ INT_MAX)
    (h3 : p ≠ q → INT_MIN ≤ p * N ∧ p * N ≤ INT_MAX)
    (h4 : p ≠ q → INT_MIN ≤ q + p * N ∧ q + p * N ≤ INT_MAX) :
    emit N v p q = some ((p + q * N, v) :: (if p ≠ q then [(q + p * N, v)] else [])) := by
  unfold emit
  rw [int32_of_range (q * N) h1.1 h1.2]
  simp only [Option.bind_eq_bind, Option.some_bind]
  rw [int32_of_range (p + q * N) h2.1 h2.2]
  simp only [Option.some_bind]
  by_cases hpq : p = q
  · simp [hpq]
  · rw [if_pos hpq, if_pos hpq, int32_of_range (p * N) (h3 hpq).1 (h3 hpq).2]
    simp only [Option.some_bind]
    rw [int32_of_range (q + p * N) (h4 hpq).1 (h4 hpq).2]
    rfl

/-- When the first key of an entry is not representable in an `int`, the batch has no
defined result. -/
theorem emit_overflow {α : Type} (N : Int) (v : α) (p q : Int)
    (h : ¬ (INT_MIN ≤ q * N ∧ q * N ≤ INT_MAX) ∨
      ¬ (INT_MIN ≤ p + q * N ∧ p + q * N ≤ INT_MAX)) :
    emit N v p q = none := by
  unfold emit
  by_cases h1 : INT_MIN ≤ q * N ∧ q * N ≤ INT_MAX
  · rw [int32_of_range (q * N) h1.1 h1.2]
    simp only [Option.bind_eq_bind, Option.some_bind]
    have h2 : int32 (p + q * N) = none := by
      unfold int32
      rw [if_neg (h.resolve_left (not_not.mpr h1))]
    rw [h2]
    rfl
  · have h0 : int32 (q * N) = none := by
      unfold int32
      rw [if_neg h1]
    rw [h0]
    rfl

/-- C3 (amended): emission of the symmetric partner.  For every dimension `N` and every
batch whose first entry has value `v` and a packed index that is unpacked to `(p, q)`,
when the products and keys computed by lines 130-132 are representable in an `int`
(`q*N` and `p + q*N`, and `p*N` and `q + p*N` when `p ≠ q`), the pairs produced for the
batch are the pair `(p + q*N, v)`, then the pair `(q + p*N, v)` exactly when `p ≠ q`,
then the pairs of the remaining entries.  In particular, for every `N`, a batch holding
the single entry with stored index `1` (that is `p = 0`, `q = 0`) and value `v`
produces exactly one pair, the diagonal key `0` with value `v`. -/
theorem decodeBatch_entry {α : Type} (N : Int) (v : α) (idx1 : Int)
    (rest : List (α × Int)) (p q : Int) (hu : unpack N idx1 = some (p, q))
    (h1 : INT_MIN ≤ q * N ∧ q * N ≤ INT_MAX)
    (h2 : INT_MIN ≤ p + q * N ∧ p + q * N ≤ INT_MAX)
    (h3 : p ≠ q → INT_MIN ≤ p * N ∧ p * N ≤ INT_MAX)
    (h4 : p ≠ q → INT_MIN ≤ q + p * N ∧ q + p * N ≤ INT_MAX) :
    decodeBatch N ((v, idx1) :: rest)
      = (decodeBatch N rest).map
          (fun more => ((p + q * N, v) :: (if p ≠ q then [(q + p * N, v)] else [])) ++ more)
    ∧ decodeBatch N [(v, 1)] = some [(0, v)] := by
  constructor
  · rw [decodeBatch, hu]
    simp only [Option.bind_eq_bind, Option.some_bind]
    rw [emit_of_keys N v p q h1 h2 h3 h4]
    simp only [Option.some_bind]
    cases decodeBatch N rest <;> rfl
  · rw [decodeBatch, unpack_one N]
    simp only [Option.bind_eq_bind, Option.some_bind]
    rw [emit_of_keys N v 0 0 (by rw [zero_mul]; decide) (by rw [zero_mul]; decide)
      (fun h => absurd rfl h) (fun h => absurd rfl h)]
    simp [decodeBatch]

theorem decodeBatch_entry_witness :
    (unpack 50000 5 = some (2, 1) ∧
      (INT_MIN ≤ (1 : Int) * 50000 ∧ (1 : Int) * 50000 ≤ INT_MAX) ∧
      (INT_MIN ≤ (2 : Int) + 1 * 50000 ∧ (2 : Int) + 1 * 50000 ≤ INT_MAX) ∧
      (INT_MIN ≤ (2 : Int) * 50000 ∧ (2 : Int) * 50000 ≤ INT_MAX) ∧
      (INT_MIN ≤ (1 : Int) + 2 * 50000 ∧ (1 : Int) + 2 * 50000 ≤ INT_MAX)) ∧
    (decodeBatch 50000 (((7 : Rat), (5 : Int)) :: [])
      = (decodeBatch 50000 []).map
          (fun more => (((2 : Int) + 1 * 50000, (7 : Rat)) ::
            (if (2 : Int) ≠ 1 then [((1 : Int) + 2 * 50000, (7 : Rat))] else [])) ++ more)
    ∧ decodeBatch 50000 [((7 : Rat), 1)] = some [(0, 7)]) :=
  ⟨⟨by decide, by decide, by decide, by decide, by decide⟩,
   decodeBatch_entry 50000 7 5 [] 2 1 (by decide) (by decide) (by decide)
     (fun _ => by decide) (fun _ => by decide)⟩

/-- In the batch of the witness the pairs are `(50002, 7)` and `(100001, 7)`. -/
theorem decodeBatch_50000 :
    decodeBatch 50000 [((7 : Rat), (5 : Int))] = some [(50002, 7), (100001, 7)] := by
  decide

/-- C3 (as stated) fails for `N = 46341`: the entry with stored index `1073767311`
is unpacked to `(p, q) = (46340, 46340)`, but the key `p + q*N = 2147488280` is
outside the range of `int`, so no pair `(p + q*N, v)` is produced. -/
theorem decodeBatch_fails_46341 :
    unpack 46341 1073767311 = some (46340, 46340) ∧
    decodeBatch 46341 [((1 : Rat), (1073767311 : Int))] = none := by
  have hu : unpack 46341 1073767311 = some (46340, 46340) := by
    have h := unpack_row 46341 1073767310 46340 (by decide) (by decide) (by decide)
      (by decide) (by decide)
    have e1 : (1073767310 : Int) + 1 = 1073767311 := by decide
    have e2 : (1073767310 : Int) - 46340 * (46340 + 1) / 2 = 46340 := by decide
    rw [e1, e2] at h
    exact h
  refine ⟨hu, ?_⟩
  have he : emit 46341 (1 : Rat) 46340 46340 = none := by
    unfold emit
    rw [int32_of_range (46340 * 46341) (by decide) (by decide)]
    simp only [Option.bind_eq_bind, Option.some_bind]
    have : int32 (46340 + 46340 * 46341) = none := by decide
    rw [this]
    rfl
  rw [decodeBatch, hu]
  simp only [Option.bind_eq_bind, Option.some_bind]
  rw [he]
  rfl

/-- For a stored index above `N(N+1)/2` the search loop never breaks: it ends with
`p = N` and `pq = N(N+1)/2`. -/
theorem unpackLoop_above (N idx : Int) (hN0 : 0 ≤ N) (hN : N ≤ 65535)
    (hidx : N * (N + 1) / 2 ≤ idx) :
    unpackLoop N idx (N.toNat + 1) 0 0 = some (N, N * (N + 1) / 2) := by
  obtain ⟨n, rfl⟩ := Int.eq_ofNat_of_zero_le hN0
  have hmax : (n : Int) * (n + 1) / 2 ≤ INT_MAX := by
    have h1 := tri_mono (n : Int) 65535 (by omega) hN
    have h2 : (65535 : Int) * (65535 + 1) / 2 = 2147450880 := by decide
    have hA : INT_MAX = 2147483647 := rfl
    omega
  have hskip := unpackLoop_skip (n : Int) idx 1 n 0 (le_refl 0) (by omega)
    (by simp only [zero_add]; exact hmax) (by simp only [zero_add]; exact hidx)
  simp only [zero_add, zero_mul, Int.zero_ediv] at hskip
  rw [show (n : Int).toNat + 1 = 1 + n by simp; omega, hskip, unpackLoop,
    if_neg (lt_irrefl _)]
  rfl

/-- A stored index above `N(N+1)/2` is unpacked to the row `p = N`. -/
theorem unpack_above (N idx1 : Int) (hN0 : 0 ≤ N) (hN : N ≤ 46340)
    (hlo : N * (N + 1) / 2 < idx1) (hhi : idx1 ≤ N * (N + 1) / 2 + N + 1) :
    unpack N idx1 = some (N, idx1 - 1 - N * (N + 1) / 2) := by
  have h0 := tri_nonneg N hN0
  have h1 := tri_mono N 46340 hN0 hN
  have h2 : (46340 : Int) * (46340 + 1) / 2 = 1073720970 := by decide
  have h64a : INT64_MAX = 9223372036854775807 := rfl
  have h64i : INT64_MIN = -9223372036854775808 := rfl
  unfold unpack
  rw [int64_of_range (idx1 - 1) (by omega) (by omega)]
  simp only [Option.bind_eq_bind, Option.some_bind]
  rw [unpackLoop_above N (idx1 - 1) hN0 (by omega) (by omega)]
  simp only [Option.some_bind]
  rw [int64_of_range _ (by omega) (by omega)]
  simp only [Option.some_bind]
  have hn : narrow32 (idx1 - 1 - N * (N + 1) / 2) = idx1 - 1 - N * (N + 1) / 2 := by
    unfold narrow32
    omega
  rw [hn]
  rfl

/-- A stored index below `1` is unpacked to the row `p = 0` with a negative `q`. -/
theorem unpack_below (N idx1 : Int) (hN1 : 1 ≤ N) (hlo : -2147483647 ≤ idx1)
    (hhi : idx1 ≤ 0) :
    unpack N idx1 = some (0, idx1 - 1) := by
  have h64a : INT64_MAX = 9223372036854775807 := rfl
  have h64i : INT64_MIN = -9223372036854775808 := rfl
  obtain ⟨f, hf⟩ : ∃ f : Nat, N.toNat + 1 = f + 1 := ⟨N.toNat, rfl⟩
  have hloop : unpackLoop N (idx1 - 1) (N.toNat + 1) 0 0 = some (0, 0) := by
    rw [hf, unpackLoop, if_pos (by omega)]
    rw [int32_of_range (0 + 0) (by decide) (by decide)]
    simp only [Option.bind_eq_bind, Option.some_bind]
    rw [int32_of_range (0 + 0 + 1) (by decide) (by decide)]
    simp only [Option.some_bind]
    rw [if_pos (by omega)]
    rfl
  unfold unpack
  rw [int64_of_range (idx1 - 1) (by omega) (by omega)]
  simp only [Option.bind_eq_bind, Option.some_bind]
  rw [hloop]
  simp only [Option.some_bind]
  rw [int64_of_range _ (by omega) (by omega)]
  simp only [Option.some_bind]
  have hn : narrow32 (idx1 - 1 - 0) = idx1 - 1 := by
    unfold narrow32
    omega
  rw [hn]
  rfl

/-- The pairs pushed for a row and column that need not be in range, when the keys fit
in an `int`. -/
theorem emit_of_fit {α : Type} (N : Int) (v : α) (p q : Int)
    (h1 : INT_MIN ≤ q * N ∧ q * N ≤ INT_MAX) (h2 : INT_MIN ≤ p + q * N ∧ p + q * N ≤ INT_MAX)
    (h3 : INT_MIN ≤ p * N ∧ p * N ≤ INT_MAX) (h4 : INT_MIN ≤ q + p * N ∧ q + p * N ≤ INT_MAX) :
    emit N v p q = some ((p + q * N, v) :: (if p ≠ q then [(q + p * N, v)] else [])) := by
  unfold emit
  rw [int32_of_range (q * N) h1.1 h1.2]
  simp only [Option.bind_eq_bind, Option.some_bind]
  rw [int32_of_range (p + q * N) h2.1 h2.2]
  simp only [Option.some_bind]
  by_cases hpq : p = q
  · simp [hpq]
  · rw [if_pos hpq, if_pos hpq, int32_of_range (p * N) h3.1 h3.2]
    simp only [Option.some_bind]
    rw [int32_of_range (q + p * N) h4.1 h4.2]
    rfl

/-- The pairs of a batch whose first entry is unpacked to `(p, q)` and whose keys fit. -/
theorem decodeBatch_cons_of_emit {α : Type} (N : Int) (v : α) (idx1 : Int)
    (rest : List (α × Int)) (p q : Int) (ps : List (Int × α))
    (hu : unpack N idx1 = some (p, q)) (he : emit N v p q = some ps) :
    decodeBatch N ((v, idx1) :: rest) = (decodeBatch N rest).map (fun more => ps ++ more) := by
  rw [decodeBatch, hu]
  simp only [Option.bind_eq_bind, Option.some_bind]
  rw [he]
  simp only [Option.some_bind]
  cases decodeBatch N rest <;> rfl

/-- C11 (amended): a malformed packed index is not detected.  Let `1 ≤ N ≤ 46340`.  An
entry whose stored index `idx1` satisfies `-N < idx1 ≤ 0` is unpacked to
`(p, q) = (0, idx1 - 1)`, with `q < 0`, and an entry whose stored index satisfies
`N(N+1)/2 < idx1 ≤ N(N+1)/2 + N + 1` is unpacked to `(p, q) = (N, idx1 - 1 - N(N+1)/2)`,
with `p = N`; in both cases the decoder does not fail but produces the pair
`(p + q*N, v)` and, when `p ≠ q`, the pair `(q + p*N, v)`, and goes on with the rest of
the batch. -/
theorem decodeBatch_malformed {α : Type} (N : Int) (hN1 : 1 ≤ N) (hN : N ≤ 46340) (v : α)
    (idx1 : Int) (rest : List (α × Int)) :
    (-N < idx1 ∧ idx1 ≤ 0 →
      unpack N idx1 = some (0, idx1 - 1) ∧
      decodeBatch N ((v, idx1) :: rest)
        = (decodeBatch N rest).map
            (fun more => [(0 + (idx1 - 1) * N, v), (idx1 - 1 + 0 * N, v)] ++ more)) ∧
    (N * (N + 1) / 2 < idx1 ∧ idx1 ≤ N * (N + 1) / 2 + N + 1 →
      unpack N idx1 = some (N, idx1 - 1 - N * (N + 1) / 2) ∧
      decodeBatch N ((v, idx1) :: rest)
        = (decodeBatch N rest).map
            (fun more => ((N + (idx1 - 1 - N * (N + 1) / 2) * N, v) ::
              (if N ≠ idx1 - 1 - N * (N + 1) / 2 then
                [(idx1 - 1 - N * (N + 1) / 2 + N * N, v)] else [])) ++ more)) := by
  have hI : INT_MIN = -2147483648 := rfl
  have hA : INT_MAX = 2147483647 := rfl
  have hNN : N * N ≤ 46340 * 46340 := by nlinarith
  have hNN0 : 0 ≤ N * N := by nlinarith
  constructor
  · rintro ⟨hlo, hhi⟩
    have hu := unpack_below N idx1 hN1 (by omega) hhi
    have hq1 : (idx1 - 1) * N ≤ 0 := by nlinarith
    have hq2 : -(N * N) ≤ (idx1 - 1) * N := by nlinarith
    have he := emit_of_fit N v 0 (idx1 - 1) (by omega) (by omega)
      (by rw [zero_mul]; omega) (by rw [zero_mul]; omega)
    rw [if_pos (by omega)] at he
    exact ⟨hu, decodeBatch_cons_of_emit N v idx1 rest _ _ _ hu he⟩
  · rintro ⟨hlo, hhi⟩
    have hu := unpack_above N idx1 (by omega) hN hlo hhi
    have hq1 : 0 ≤ (idx1 - 1 - N * (N + 1) / 2) * N := by nlinarith
    have hq2 : (idx1 - 1 - N * (N + 1) / 2) * N ≤ N * N := by nlinarith
    have he := emit_of_fit N v N (idx1 - 1 - N * (N + 1) / 2) (by omega) (by omega)
      (by omega) (by omega)
    exact ⟨hu, decodeBatch_cons_of_emit N v idx1 rest _ _ _ hu he⟩

theorem decodeBatch_malformed_witness :
    ((1 : Int) ≤ 3 ∧ (3 : Int) ≤ 46340) ∧
    ((-3 < (0 : Int) ∧ (0 : Int) ≤ 0 →
      unpack 3 0 = some (0, 0 - 1) ∧
      decodeBatch 3 (((7 : Rat), (0 : Int)) :: [])
        = (decodeBatch 3 []).map
            (fun more => [(0 + (0 - 1) * 3, (7 : Rat)), (0 - 1 + 0 * 3, 7)] ++ more)) ∧
    ((3 : Int) * (3 + 1) / 2 < 0 ∧ (0 : Int) ≤ 3 * (3 + 1) / 2 + 3 + 1 →
      unpack 3 0 = some (3, 0 - 1 - 3 * (3 + 1) / 2) ∧
      decodeBatch 3 (((7 : Rat), (0 : Int)) :: [])
        = (decodeBatch 3 []).map
            (fun more => (((3 : Int) + (0 - 1 - 3 * (3 + 1) / 2) * 3, (7 : Rat)) ::
              (if (3 : Int) ≠ 0 - 1 - 3 * (3 + 1) / 2 then
                [((0 : Int) - 1 - 3 * (3 + 1) / 2 + 3 * 3, (7 : Rat))] else [])) ++ more))) :=
  ⟨⟨by decide, by decide⟩, decodeBatch_malformed 3 (by decide) (by decide) 7 0 []⟩

/-- C11 (as stated) fails for `N = 3`: the stored indices `0` and `7` lie outside
`1..N(N+1)/2 = 1..6`, yet the decoder does not fail.  The index `0` is unpacked to
`(p, q) = (0, -1)` and yields the pairs with the keys `-3` and `-1`; the index `7` is
unpacked to `(p, q) = (3, 0)` and yields the pairs with the keys `3` and `9`. -/
theorem decodeBatch_malformed_emits :
    unpack 3 0 = some (0, -1) ∧
    decodeBatch 3 [((1 : Rat), (0 : Int))] = some [(-3, 1), (-1, 1)] ∧
    unpack 3 7 = some (3, 0) ∧
    decodeBatch 3 [((1 : Rat), (7 : Int))] = some [(3, 1), (9, 1)] := by
  refine ⟨by decide, by decide, by decide, by decide⟩

/-! ### Reading the file -/

/-- A complete read from a stream that has not failed. -/
theorem IStream.read_of_prefix (s : IStream) (n : Nat) (buf got : List Nat)
    (hs : s.fail = false) (hgot : (s.data.drop s.pos).take n = got) (hlen : got.length = n) :
    s.read n buf = (got ++ buf.drop n, { s with pos := s.pos + n, fail := false }) := by
  unfold IStream.read
  rw [hs]
  simp only [Bool.false_eq_true, if_false]
  rw [hgot, hlen]
  simp

/-- The loop over the batches stops with the failure of the assertion of line 110 when
the record size it reads is not `600*16+8`. -/
theorem batches_of_size_ne {α : Type} (toDouble : List Nat → α) (N : Int)
    (intsize fuel : Nat) (s : IStream) (recsize : List Nat)
    (h : int64OfBytes (s.read intsize recsize).1 ≠ 600 * 16 + 8) :
    batches toDouble N intsize (fuel + 1) s recsize = .error (.assertion 110) := by
  rw [batches]
  simp only []
  rw [if_pos h]

/-- C12 (amended): no resynchronisation inside a section.  When the loop over the
payload batches of a recognised section reads a record size other than `600*16+8`, the
decoder does not skip the record: the assertion `recsize == 600*16+8` of line 110 fails
and `run` ends.  Skipping forward by the declared size happens one level up only, for a
record read where a section header is expected and whose size is not `8`: the reader
then moves forward by the declared size and the width of the trailing size field, and
carries on with the next record. -/
theorem batches_size_mismatch {α : Type} (toDouble : List Nat → α) (N : Int)
    (intsize fuel : Nat) (s : IStream) (recsize size : List Nat) (t : Tensors α)
    (hs : s.fail = false) (hsize : (s.data.drop s.pos).take intsize = size)
    (hlen : size.length = intsize) :
    (int64OfBytes (size ++ recsize.drop intsize) ≠ 600 * 16 + 8 →
      batches toDouble N intsize (fuel + 1) s recsize = .error (.assertion 110)) ∧
    (int64OfBytes (size ++ (List.replicate 8 0).drop intsize) ≠ 8 →
      ∀ off : Int,
        int64 (int64OfBytes (size ++ (List.replicate 8 0).drop intsize) + intsize)
          = some off →
        sections toDouble N intsize (fuel + 1) s t
          = sections toDouble N intsize fuel
              (IStream.seekgCur { s with pos := s.pos + intsize, fail := false } off) t) := by
  constructor
  · intro hne
    apply batches_of_size_ne
    rw [IStream.read_of_prefix s intsize recsize size hs hsize hlen]
    exact hne
  · intro hne off hoff
    rw [sections]
    simp only [hs, Bool.false_eq_true, if_false]
    rw [IStream.read_of_prefix s intsize (List.replicate 8 0) size hs hsize hlen]
    simp only []
    rw [if_pos hne, hoff]

/-- On `exampleFile` the decoder skips the header record, enters the section
`"OVERLAP "` and fails the assertion of line 110 at the payload record of size `16`. -/
theorem run_exampleFile {α : Type} (toDouble : List Nat → α) (N : Int) (fuel : Nat) :
    run toDouble N (fuel + 3) exampleFile = .error (.assertion 110) := by
  rfl

theorem batches_size_mismatch_witness :
    ((⟨exampleFile, 248, false⟩ : IStream).fail = false ∧
      ((⟨exampleFile, 248, false⟩ : IStream).data.drop
        (⟨exampleFile, 248, false⟩ : IStream).pos).take 4 = [16, 0, 0, 0] ∧
      [16, 0, 0, 0].length = 4) ∧
    ((int64OfBytes ([16, 0, 0, 0] ++ [8, 0, 0, 0, 0, 0, 0, 0].drop 4) ≠ 600 * 16 + 8 →
      batches (fun _ => (0 : Rat)) 3 4 (0 + 1) ⟨exampleFile, 248, false⟩
        [8, 0, 0, 0, 0, 0, 0, 0] = .error (.assertion 110)) ∧
    (int64OfBytes ([16, 0, 0, 0] ++ (List.replicate 8 0).drop 4) ≠ 8 →
      ∀ off : Int,
        int64 (int64OfBytes ([16, 0, 0, 0] ++ (List.replicate 8 0).drop 4) + (4 : Nat))
          = some off →
        sections (fun _ => (0 : Rat)) 3 4 (0 + 1) ⟨exampleFile, 248, false⟩ ⟨[], [], []⟩
          = sections (fun _ => (0 : Rat)) 3 4 0
              (IStream.seekgCur
                { (⟨exampleFile, 248, false⟩ : IStream) with pos := 248 + 4, fail := false }
                off) ⟨[], [], []⟩)) :=
  ⟨⟨rfl, by decide, rfl⟩,
    batches_size_mismatch (fun _ => (0 : Rat)) 3 4 0 ⟨exampleFile, 248, false⟩
      [8, 0, 0, 0, 0, 0, 0, 0] [16, 0, 0, 0] ⟨[], [], []⟩ rfl (by decide) rfl⟩

/-- C12 (as stated) fails on `exampleFile`: the payload record of the recognised section
`"OVERLAP "` declares the size `16`, and the decoder neither skips it nor carries on:
whatever the iteration bound, `run` returns no tensors, and with a bound of at least `3`
it ends with the failure of the assertion of line 110. -/
theorem run_exampleFile_aborts :
    run (fun _ => (0 : Rat)) 3 3 exampleFile = .error (.assertion 110) ∧
    ¬ ∃ (fuel : Nat) (t : Tensors Rat), run (fun _ => (0 : Rat)) 3 fuel exampleFile = .ok t := by
  refine ⟨run_exampleFile _ 3 0, ?_⟩
  rintro ⟨fuel, t, h⟩
  rcases Nat.lt_or_ge fuel 3 with hlt | hge
  · interval_cases fuel
    · exact Except.noConfusion (show (Except.error Failure.fuel : Except Failure (Tensors Rat))
        = .ok t from h)
    · exact Except.noConfusion (show (Except.error Failure.fuel : Except Failure (Tensors Rat))
        = .ok t from h)
    · exact Except.noConfusion (show (Except.error Failure.fuel : Except Failure (Tensors Rat))
        = .ok t from h)
  · obtain ⟨f, rfl⟩ : ∃ f, fuel = f + 3 := ⟨fuel - 3, by omega⟩
    rw [run_exampleFile] at h
    exact Except.noConfusion h

end CFOUROneElectronIntegralsTask

/-! ## Theorems: the Boys function -/

namespace Fmgamma

section
variable {α : Type} [LinearOrderedField α]

/-- For `T ≤ 0` the function `fm` returns before the table `TMAX` is read and before
the series loop. -/
theorem fm_of_nonpos (lib : LibM α) (fuel : Nat) (T : α) (m : Nat) (hT : T ≤ 0) :
    fm lib fuel T m = some (0.5 / ((m : α) + 0.5)) := by
  unfold fm
  simp only [if_pos hT]

/-- C4: for every order `m` (in particular `0 ≤ m ≤ 39`), `fm(0, m)` returns exactly
`0.5/(m+0.5)`; the result does not depend on the number of iterations granted to the
series loop, not even when none is granted, so the loop is not entered. -/
theorem fm_zero (lib : LibM α) (fuel : Nat) (m : Nat) :
    fm lib fuel 0 m = some (0.5 / ((m : α) + 0.5)) ∧ fm lib 0 0 m = fm lib fuel 0 m := by
  rw [fm_of_nonpos lib fuel 0 m (le_refl 0), fm_of_nonpos lib 0 0 m (le_refl 0)]
  exact ⟨rfl, rfl⟩

/-- C10 (amended): for every `T < 0` and every order `m`, `fm(T, m)` does not fail:
the guard `T <= 0` makes it return the closed form `0.5/(m+0.5)`, the value it
returns for `T = 0`. -/
theorem fm_neg (lib : LibM α) (fuel : Nat) (T : α) (m : Nat) (hT : T < 0) :
    fm lib fuel T m = some (0.5 / ((m : α) + 0.5)) :=
  fm_of_nonpos lib fuel T m (le_of_lt hT)

/-- The loop of `fmrecursive` leaves the entries at and above its starting subscript
unchanged. -/
theorem fmrecursiveLoop_above (T emt : α) (i : Nat) :
    ∀ (array : Nat → α) (j : Nat), i ≤ j → fmrecursiveLoop T emt i array j = array j := by
  induction i with
  | zero => intro array j _; rfl
  | succ i ih =>
    intro array j hj
    rw [fmrecursiveLoop, ih _ j (by omega), Function.update_noteq (by omega)]

/-- After the loop of `fmrecursive`, each entry below the starting subscript is obtained
from the entry above it by the downward recurrence. -/
theorem fmrecursiveLoop_rec (T emt : α) (i : Nat) :
    ∀ (array : Nat → α) (j : Nat), 1 ≤ j → j ≤ i →
      fmrecursiveLoop T emt i array (j - 1)
        = (2 * T * fmrecursiveLoop T emt i array j + emt) / (2 * (j : α) - 1) := by
  induction i with
  | zero => intro array j h1 h2; omega
  | succ i ih =>
    intro array j h1 h2
    rw [fmrecursiveLoop]
    rcases Nat.lt_or_ge j (i + 1) with hlt | hge
    · exact ih _ j h1 (by omega)
    · have hj : j = i + 1 := by omega
      subst hj
      rw [fmrecursiveLoop_above T emt i _ (i + 1 - 1) (by omega),
        fmrecursiveLoop_above T emt i _ (i + 1) (by omega)]
      rw [show i + 1 - 1 = i by omega, Function.update_same,
        Function.update_noteq (by omega)]
      push_cast
      rfl

/-- The function `round` stays within one half of its argument. -/
theorem abs_cround_sub_le [FloorRing α] (x : α) (hx : 0 ≤ x) :
    |((cround x : Int) : α) - x| ≤ 1 / 2 := by
  unfold cround
  rw [if_pos hx]
  have h1 := Int.floor_le (x + 1 / 2)
  have h2 := Int.lt_floor_add_one (x + 1 / 2)
  rw [abs_le]
  constructor <;> linarith

/-- The loop of `fmasymptotic`, entered at the odd number `2j+1`, adds the logarithms of
the odd numbers `2k+1` with `j ≤ k < m`. -/
theorem fmasymptoticLoop_sum (lib : LibM α) (m : Nat) (d : Nat) :
    ∀ (j : Nat) (sum : α), m - j = d →
      fmasymptoticLoop lib m (2 * j + 1) sum
        = sum + ∑ k in Finset.Ico j m, lib.log (((2 * k + 1 : Nat) : α)) := by
  induction d with
  | zero =>
    intro j sum hd
    rw [fmasymptoticLoop, if_neg (by omega), Finset.Ico_eq_empty (by omega)]
    simp
  | succ d ih =>
    intro j sum hd
    rw [fmasymptoticLoop, if_pos (by omega)]
    rw [show 2 * j + 1 + 2 = 2 * (j + 1) + 1 by ring, ih (j + 1) _ (by omega)]
    rw [Finset.sum_eq_sum_Ico_succ_bot (by omega : j < m), add_assoc]

/-! ### The cells of `FMTABLE` -/

/-- A read of `FMTABLE` inside of the declared bounds gives the content of the cell. -/
theorem readFMTABLE_inside (FMTABLE : Int → Nat → α) (tidx : Int) (j : Nat)
    (h0 : 0 ≤ tidx) (h1 : tidx < 2281) (hj : j < 40) :
    readFMTABLE FMTABLE tidx j = some (FMTABLE tidx j) := by
  unfold readFMTABLE
  rw [if_pos]
  exact ⟨h0, h1, hj⟩

/-- A read of `FMTABLE` at a column beyond the last one is undefined. -/
theorem readFMTABLE_column (FMTABLE : Int → Nat → α) (tidx : Int) (j : Nat) (hj : 40 ≤ j) :
    readFMTABLE FMTABLE tidx j = none := by
  unfold readFMTABLE
  rw [if_neg]
  rintro ⟨_, _, h⟩
  have : FMTABLE_COLS = 40 := rfl
  omega

/-- A read of `FMTABLE` at a row beyond the last one is undefined. -/
theorem readFMTABLE_row (FMTABLE : Int → Nat → α) (tidx : Int) (j : Nat) (ht : 2281 ≤ tidx) :
    readFMTABLE FMTABLE tidx j = none := by
  unfold readFMTABLE
  rw [if_neg]
  rintro ⟨_, h, _⟩
  have : (FMTABLE_ROWS : Int) = 2281 := rfl
  omega

/-- The eight iterations of the loop of `fmtaylor`, written out, when the eight cells lie
inside of the table. -/
theorem fmtaylorLoop_eight (FMTABLE : Int → Nat → α) (tidx : Int) (n : Nat) (trmt : α)
    (h0 : 0 ≤ tidx) (h1 : tidx < 2281) (hn : n ≤ 32) :
    fmtaylorLoop FMTABLE tidx n trmt TAYLOR_N 0 0.0 1.0
      = some (∑ i in Finset.range 8,
          FMTABLE tidx (n + i) * trmt ^ i / (Nat.factorial i : α)) := by
  simp only [TAYLOR_N, fmtaylorLoop,
    readFMTABLE_inside FMTABLE tidx (n + 0) h0 h1 (by omega),
    readFMTABLE_inside FMTABLE tidx (n + 1) h0 h1 (by omega),
    readFMTABLE_inside FMTABLE tidx (n + 2) h0 h1 (by omega),
    readFMTABLE_inside FMTABLE tidx (n + 3) h0 h1 (by omega),
    readFMTABLE_inside FMTABLE tidx (n + 4) h0 h1 (by omega),
    readFMTABLE_inside FMTABLE tidx (n + 5) h0 h1 (by omega),
    readFMTABLE_inside FMTABLE tidx (n + 6) h0 h1 (by omega),
    readFMTABLE_inside FMTABLE tidx (n + 7) h0 h1 (by omega),
    Finset.sum_range_succ, Finset.sum_range_zero, Nat.factorial]
  congr 1
  norm_num
  ring

/-- The loop of `fmtaylor` is undefined when one of the columns it still has to read lies
beyond the last column of the table. -/
theorem fmtaylorLoop_outside (FMTABLE : Int → Nat → α) (tidx : Int) (n : Nat) (trmt : α) :
    ∀ (k i : Nat) (ans fac : α), 0 < k → 40 < n + i + k →
      fmtaylorLoop FMTABLE tidx n trmt k i ans fac = none := by
  intro k
  induction k with
  | zero => intro i ans fac h; omega
  | succ k ih =>
    intro i ans fac _ hk
    rw [fmtaylorLoop]
    cases hr : readFMTABLE FMTABLE tidx (n + i) with
    | none => rfl
    | some c =>
      simp only []
      rcases Nat.eq_zero_or_pos k with hz | hpos
      · subst hz
        rw [readFMTABLE_column FMTABLE tidx (n + i) (by omega)] at hr
        cases hr
      · exact ih (i + 1) _ _ hpos (by omega)

/-- The loop of `fmtaylor` is undefined when the row lies beyond the last row of the
table. -/
theorem fmtaylorLoop_row (FMTABLE : Int → Nat → α) (tidx : Int) (n : Nat) (trmt : α)
    (ht : 2281 ≤ tidx) (k i : Nat) (ans fac : α) :
    fmtaylorLoop FMTABLE tidx n trmt (k + 1) i ans fac = none := by
  rw [fmtaylorLoop, readFMTABLE_row FMTABLE tidx (n + i) ht]

/-- The loop of `fmtaylor` depends on `FMTABLE` only through the cells it reads. -/
theorem fmtaylorLoop_congr (F G : Int → Nat → α) (tidx : Int) (n : Nat) (trmt : α) :
    ∀ (k i : Nat) (ans fac : α),
      (∀ j, i ≤ j → j < i + k → F tidx (n + j) = G tidx (n + j)) →
      fmtaylorLoop F tidx n trmt k i ans fac = fmtaylorLoop G tidx n trmt k i ans fac := by
  intro k
  induction k with
  | zero => intro i ans fac _; rfl
  | succ k ih =>
    intro i ans fac h
    have hr : readFMTABLE F tidx (n + i) = readFMTABLE G tidx (n + i) := by
      unfold readFMTABLE
      rw [h i (le_refl i) (by omega)]
    rw [fmtaylorLoop, fmtaylorLoop, hr]
    cases readFMTABLE G tidx (n + i) with
    | none => rfl
    | some c =>
      simp only []
      exact ih (i + 1) _ _ (fun j hj1 hj2 => h j (by omega) (by omega))

/-- The value of `fmtaylor(T, n)` depends on `FMTABLE` only through the cells listed by
`fmtaylorCells`. -/
theorem fmtaylor_congr [FloorRing α] (F G : Int → Nat → α) (T : α) (n : Nat)
    (h : ∀ c ∈ fmtaylorCells T n, F c.1 c.2 = G c.1 c.2) :
    fmtaylor F T n = fmtaylor G T n := by
  unfold fmtaylor
  cases hc : int32 (cround (T * 20.0)) with
  | none => rfl
  | some tidx =>
    have ht : tidx = cround (T * 20.0) := by
      unfold int32 at hc
      split at hc
      · exact (Option.some.inj hc).symm
      · cases hc
    simp only []
    refine fmtaylorLoop_congr F G tidx n _ TAYLOR_N 0 _ _ ?_
    intro j _ hj
    have hmem : (cround (T * 20.0), n + j) ∈ fmtaylorCells T n := by
      unfold fmtaylorCells
      exact List.mem_map.mpr ⟨j, List.mem_range.mpr (by simpa [TAYLOR_N] using hj), rfl⟩
    rw [ht]
    exact h _ hmem

/-- The cells assigned by `calcfmtable` are the cells `(Tidx, m)` with `m < 40` and
`0 ≤ Tidx ≤ 20 * TMAX[m]`. -/
theorem mem_calcfmtableCells (t : Int) (j : Nat) :
    (t, j) ∈ calcfmtableCells ↔ j < 40 ∧ 0 ≤ t ∧ t ≤ TMAX.getD j 0 * 20 := by
  unfold calcfmtableCells
  simp only [List.mem_flatMap, List.mem_map, List.mem_range, Prod.mk.injEq]
  constructor
  · rintro ⟨m, hm, i, hi, rfl, rfl⟩
    refine ⟨hm, by omega, by omega⟩
  · rintro ⟨hj, h0, ht⟩
    exact ⟨j, hj, t.toNat, by omega, by omega, rfl⟩

/-- The inner loop of `calcfmtable` assigns only the cells `(t, m)` with
`Tidx ≤ t < Tidx + k`. -/
theorem calcfmtableColumn_frame (lib : LibM α) (fuel m : Nat) (k : Nat) :
    ∀ (Tidx : Int) (F F' : Int → Nat → α), calcfmtableColumn lib fuel m k Tidx F = some F' →
      ∀ (t : Int) (j : Nat), ¬ (j = m ∧ Tidx ≤ t ∧ t < Tidx + k) → F' t j = F t j := by
  induction k with
  | zero =>
    intro Tidx F F' h t j _
    rw [calcfmtableColumn] at h
    rw [← Option.some.inj h]
  | succ k ih =>
    intro Tidx F F' h t j hn
    rw [calcfmtableColumn] at h
    cases hv : fm lib fuel ((Tidx : α) / 20.0) m with
    | none => rw [hv] at h; cases h
    | some v =>
      rw [hv] at h
      simp only [] at h
      rw [ih (Tidx + 1) _ F' h t j (by push_cast at hn ⊢; omega)]
      rw [if_neg]
      rintro ⟨rfl, rfl⟩
      exact hn ⟨rfl, le_refl _, by push_cast; omega⟩

/-- The outer loop of `calcfmtable` assigns only cells listed by `calcfmtableCells`. -/
theorem calcfmtableLoop_frame (lib : LibM α) (fuel : Nat) (k : Nat) :
    ∀ (m : Nat) (F F' : Int → Nat → α), calcfmtableLoop lib fuel k m F = some F' →
      ∀ (t : Int) (j : Nat), (t, j) ∉ calcfmtableCells → F' t j = F t j := by
  induction k with
  | zero =>
    intro m F F' h t j _
    rw [calcfmtableLoop] at h
    rw [← Option.some.inj h]
  | succ k ih =>
    intro m F F' h t j hn
    rw [calcfmtableLoop] at h
    cases htm : TMAX[m]? with
    | none => rw [htm] at h; cases h
    | some tmax =>
      rw [htm] at h
      simp only [] at h
      cases hc : calcfmtableColumn lib fuel m (tmax * 20 + 1).toNat 0 F with
      | none => rw [hc] at h; cases h
      | some F1 =>
        rw [hc] at h
        simp only [] at h
        rw [ih (m + 1) F1 F' h t j hn]
        refine calcfmtableColumn_frame lib fuel m _ 0 F F1 hc t j ?_
        rintro ⟨rfl, h0, hlt⟩
        apply hn
        have hlen : j < TMAX.length := (List.getElem?_eq_some_iff.mp htm).1
        have hget : TMAX.getD j 0 = tmax := by
          rw [List.getD_eq_getElem?_getD, htm]; rfl
        have h40 : TMAX.length = 40 := rfl
        rw [mem_calcfmtableCells, hget]
        refine ⟨by omega, h0, ?_⟩
        omega

/-- Cells that `calcfmtable` does not list keep their content. -/
theorem calcfmtable_frame (lib : LibM α) (fuel : Nat) (F F' : Int → Nat → α)
    (h : calcfmtable lib fuel F = some F') (t : Int) (j : Nat)
    (hn : (t, j) ∉ calcfmtableCells) : F' t j = F t j :=
  calcfmtableLoop_frame lib fuel 40 0 F F' h t j hn

/-- The table `TMAX` is non-decreasing over the eight columns read by `fmtaylor`. -/
theorem TMAX_le_of_le : ∀ n < 33, ∀ i < 8, TMAX.getD n 0 ≤ TMAX.getD (n + i) 0 := by
  decide

theorem TMAX_le_114 : ∀ n < 40, 0 ≤ TMAX.getD n 0 ∧ TMAX.getD n 0 ≤ 114 := by
  decide

/-- The function `round` does not exceed an integer bound of its argument. -/
theorem cround_le [FloorRing α] (x : α) (hx : 0 ≤ x) (b : Int) (hb : x ≤ (b : α)) :
    0 ≤ cround x ∧ cround x ≤ b := by
  unfold cround
  rw [if_pos hx]
  constructor
  · exact Int.floor_nonneg.mpr (by linarith)
  · have h1 : x + 1 / 2 < ((b + 1 : Int) : α) := by push_cast; linarith
    have := Int.floor_lt.mpr h1
    omega

/-- C15 (amended): table coverage for the Taylor step.  For every order `n` in `[0, 32]`
and every `T` with `0 ≤ T ≤ TMAX[n]`, each of the eight cells that `fmtaylor(T, n)`
reads, `FMTABLE[round(20T)][n+i]` for `i = 0..7`, lies inside the `2281 × 40` table and
is one of the cells assigned by `calcfmtable`: `n+i ≤ 39` and
`0 ≤ round(20T) ≤ 20*TMAX[n+i]`. -/
theorem fmtaylor_cells_covered [FloorRing α] (T : α) (n : Nat) (hn : n ≤ 32) (hT : 0 ≤ T)
    (hmax : T ≤ ((TMAX.getD n 0 : Int) : α)) :
    ∀ c ∈ fmtaylorCells T n,
      (0 ≤ c.1 ∧ c.1 < (FMTABLE_ROWS : Int) ∧ c.2 < FMTABLE_COLS) ∧
      c ∈ calcfmtableCells ∧ c.2 ≤ 39 ∧ c.1 ≤ 20 * TMAX.getD c.2 0 := by
  intro c hc
  unfold fmtaylorCells at hc
  obtain ⟨i, hi, rfl⟩ := List.mem_map.mp hc
  have hi8 : i < 8 := List.mem_range.mp hi
  have h20 : (20.0 : α) = 20 := by norm_num
  have hbound := cround_le (T * 20.0) (by rw [h20]; positivity) (TMAX.getD n 0 * 20)
    (by rw [h20]; push_cast; linarith)
  have hmono := TMAX_le_of_le n (by omega) i hi8
  have h114 := TMAX_le_114 (n + i) (by omega)
  have hrows : (FMTABLE_ROWS : Int) = 2281 := rfl
  have hcols : FMTABLE_COLS = 40 := rfl
  simp only []
  refine ⟨⟨hbound.1, by omega, by omega⟩, ?_, by omega, by omega⟩
  rw [mem_calcfmtableCells]
  exact ⟨by omega, hbound.1, by omega⟩

/-- The function `round` maps non-negative numbers to non-negative integers. -/
theorem cround_nonneg [FloorRing α] (x : α) (hx : 0 ≤ x) : 0 ≤ cround x := by
  unfold cround
  rw [if_pos hx]
  exact Int.floor_nonneg.mpr (by linarith)

/-- The value of `fmtaylor(T, n)` when the row `round(20T)` and the eight columns lie
inside of the table. -/
theorem fmtaylor_inside [FloorRing α] (FMTABLE : Int → Nat → α) (T : α) (n : Nat)
    (hT : 0 ≤ T) (hrow : cround (T * 20) ≤ 2280) (hn : n ≤ 32) :
    fmtaylor FMTABLE T n
      = some (∑ i in Finset.range 8,
          FMTABLE (cround (T * 20)) (n + i) * (((cround (T * 20) : Int) : α) / 20 - T) ^ i
            / (Nat.factorial i : α)) := by
  have h20 : (20.0 : α) = 20 := by norm_num
  have h0 : 0 ≤ cround (T * 20) := cround_nonneg (T * 20) (by positivity)
  have hint : int32 (cround (T * 20)) = some (cround (T * 20)) := by
    unfold int32
    rw [if_pos]
    have h1 : INT_MIN = -2147483648 := rfl
    have h2 : INT_MAX = 2147483647 := rfl
    omega
  unfold fmtaylor
  simp only [h20, hint]
  exact fmtaylorLoop_eight FMTABLE _ n _ h0 (by omega) hn

/-- The row `round(20T)` lies inside of the table when `0 ≤ T ≤ TMAX[n]`. -/
theorem cround_row [FloorRing α] (T : α) (n : Nat) (hn : n < 40) (hT : 0 ≤ T)
    (hmax : T ≤ ((TMAX.getD n 0 : Int) : α)) : cround (T * 20) ≤ 2280 := by
  have h114 := TMAX_le_114 n hn
  have hbound := cround_le (T * 20) (by positivity) (TMAX.getD n 0 * 20)
    (by push_cast; linarith)
  omega

/-- C5 (amended): downward recurrence.  For every `T ≥ 0` and every seed order `n ≤ 39`
such that `n ≤ 32` whenever the Taylor seed is used (`T ≤ TMAX[n]`), the call
`fmrecursive(T, n, array)` returns, and in the resulting array
`array[i-1] = (2*T*array[i] + exp(-T)) / (2i-1)` for every `i` in `[1, n]`, while
`array[n]` is the seed: `fmasymptotic(T, n)` when `T > TMAX[n]` and the value returned by
`fmtaylor(T, n)` otherwise. -/
theorem fmrecursive_recurrence [FloorRing α] (lib : LibM α) (FMTABLE : Int → Nat → α)
    (T : α) (n : Nat) (array : Nat → α) (hT : 0 ≤ T) (hn : n ≤ 39)
    (hseed : T ≤ ((TMAX.getD n 0 : Int) : α) → n ≤ 32) :
    ∃ (tmax : Int) (out : Nat → α) (seed : α), TMAX[n]? = some tmax ∧
      fmrecursive lib FMTABLE T n array = some out ∧
      (∀ i : Nat, 1 ≤ i → i ≤ n →
        out (i - 1) = (2 * T * out i + lib.exp (-T)) / (2 * (i : α) - 1)) ∧
      out n = seed ∧
      (if T > (tmax : α) then seed = fmasymptotic lib T n
        else fmtaylor FMTABLE T n = some seed) := by
  have hlen : n < TMAX.length := by
    have : TMAX.length = 40 := rfl
    omega
  have hget : TMAX[n]? = some TMAX[n] := List.getElem?_eq_getElem hlen
  have hgetD : TMAX.getD n 0 = TMAX[n] := by
    rw [List.getD_eq_getElem?_getD, hget]; rfl
  obtain ⟨seed, hs1, hs2⟩ : ∃ seed : α,
      (if T > ((TMAX[n] : Int) : α) then some (fmasymptotic lib T n)
        else fmtaylor FMTABLE T n) = some seed ∧
      (if T > ((TMAX[n] : Int) : α) then seed = fmasymptotic lib T n
        else fmtaylor FMTABLE T n = some seed) := by
    by_cases hc : T > ((TMAX[n] : Int) : α)
    · exact ⟨fmasymptotic lib T n, by rw [if_pos hc], by rw [if_pos hc]⟩
    · have hle : T ≤ ((TMAX.getD n 0 : Int) : α) := by rw [hgetD]; exact not_lt.mp hc
      have hv := fmtaylor_inside FMTABLE T n hT (cround_row T n (by omega) hT hle)
        (hseed hle)
      exact ⟨_, by rw [if_neg hc]; exact hv, by rw [if_neg hc]; exact hv⟩
  refine ⟨TMAX[n], ?_⟩
  unfold fmrecursive
  rw [hget]
  simp only [hs1]
  by_cases h0 : n = 0
  · subst h0
    refine ⟨Function.update array 0 seed, seed, trivial, by simp, ?_, by simp, hs2⟩
    intro i h1 h2; omega
  · refine ⟨fmrecursiveLoop T (lib.exp (-T)) n (Function.update array n seed), seed, trivial,
      by simp [h0], ?_, ?_, hs2⟩
    · intro i h1 h2
      exact fmrecursiveLoop_rec T (lib.exp (-T)) n _ i h1 h2
    · rw [fmrecursiveLoop_above T (lib.exp (-T)) n _ n (le_refl n)]
      simp

/-- C17 (amended): the Taylor interpolation formula.  For every `T ≥ 0` whose row
`k = round(20T)` lies inside of the table (`k ≤ 2280`) and every order `n ≤ 32`, with
`Tr = k/20`, `fmtaylor(T, n)` returns the sum over `i = 0..7` of
`FMTABLE[k][n+i] * (Tr - T)^i / i!`, the eight cells lie inside of the table, and `k` is
an integer nearest to the product `20T` that the code rounds: `|k - 20T| ≤ 1/2`. -/
theorem fmtaylor_formula [FloorRing α] (FMTABLE : Int → Nat → α) (T : α) (n : Nat)
    (hT : 0 ≤ T) (hrow : cround (T * 20) ≤ 2280) (hn : n ≤ 32) :
    fmtaylor FMTABLE T n
      = some (∑ i in Finset.range 8,
          FMTABLE (cround (T * 20)) (n + i) * (((cround (T * 20) : Int) : α) / 20 - T) ^ i
            / (Nat.factorial i : α))
    ∧ (∀ i < 8, readFMTABLE FMTABLE (cround (T * 20)) (n + i)
        = some (FMTABLE (cround (T * 20)) (n + i)))
    ∧ |((cround (T * 20) : Int) : α) - T * 20| ≤ 1 / 2 := by
  have h0 : 0 ≤ cround (T * 20) := cround_nonneg (T * 20) (by positivity)
  refine ⟨fmtaylor_inside FMTABLE T n hT hrow hn, ?_, abs_cround_sub_le (T * 20)
    (by positivity)⟩
  intro i hi
  exact readFMTABLE_inside FMTABLE _ _ h0 (by omega) (by omega)

/-! ### The direct series -/

theorem specSeriesTerm_pos (lib : LibM α) (T : α) (m : Nat) (hT : 0 < T)
    (he : 0 < lib.exp T) : ∀ k, 0 < specSeriesTerm lib T m k := by
  intro k
  induction k with
  | zero =>
    unfold specSeriesTerm
    have : (0 : α) < (m : α) + 0.5 := by
      have : (0 : α) ≤ (m : α) := Nat.cast_nonneg m
      norm_num
      linarith
    positivity
  | succ k ih =>
    unfold specSeriesTerm
    have : (0 : α) < (m : α) + 0.5 + ((k + 1 : Nat) : α) := by
      have h1 : (0 : α) ≤ (m : α) := Nat.cast_nonneg m
      have h2 : (0 : α) ≤ ((k + 1 : Nat) : α) := Nat.cast_nonneg _
      norm_num at h2 ⊢
      linarith
    positivity

theorem specSeriesSum_pos (lib : LibM α) (T : α) (m : Nat) (hT : 0 < T)
    (he : 0 < lib.exp T) : ∀ K, 0 < specSeriesSum lib T m K := by
  intro K
  induction K with
  | zero => exact specSeriesTerm_pos lib T m hT he 0
  | succ K ih =>
    unfold specSeriesSum
    exact add_pos ih (specSeriesTerm_pos lib T m hT he (K + 1))

/-- One iteration of the loop of `fm` from the state reached after `j` iterations:
`sum = t_0 + ... + t_j`, `delt = t_j`, `ap = m + 0.5 + 1.0 + j`. -/
theorem fmLoop_step (lib : LibM α) (T : α) (m : Nat) (fuel j : Nat) :
    fmLoop T (fuel + 1) (specSeriesSum lib T m j) (specSeriesTerm lib T m j)
        ((m : α) + 0.5 + 1.0 + (j : α))
      = if |specSeriesTerm lib T m (j + 1)| / specSeriesSum lib T m j < 1e-15 then
          some (specSeriesSum lib T m j)
        else fmLoop T fuel (specSeriesSum lib T m (j + 1)) (specSeriesTerm lib T m (j + 1))
          ((m : α) + 0.5 + 1.0 + ((j + 1 : Nat) : α)) := by
  have hterm : specSeriesTerm lib T m j * (T / ((m : α) + 0.5 + 1.0 + (j : α)))
      = specSeriesTerm lib T m (j + 1) := by
    rw [specSeriesTerm, mul_div_assoc]
    congr 2
    push_cast
    norm_num
    ring
  have hap : (m : α) + 0.5 + 1.0 + (j : α) + 1.0
      = (m : α) + 0.5 + 1.0 + ((j + 1 : Nat) : α) := by
    push_cast
    norm_num
    ring
  rw [fmLoop]
  simp only [hterm, hap]
  rfl

/-- The loop of `fm` returns the partial sum at the least index where the stopping test
succeeds, as soon as it is granted more iterations than that index. -/
theorem fmLoop_least (lib : LibM α) (T : α) (m : Nat) (K : Nat)
    (hK : |specSeriesTerm lib T m (K + 1)| / specSeriesSum lib T m K < 1e-15)
    (hmin : ∀ j < K, ¬ |specSeriesTerm lib T m (j + 1)| / specSeriesSum lib T m j < 1e-15) :
    ∀ (d j fuel : Nat), j + d = K → d < fuel →
      fmLoop T fuel (specSeriesSum lib T m j) (specSeriesTerm lib T m j)
          ((m : α) + 0.5 + 1.0 + (j : α))
        = some (specSeriesSum lib T m K) := by
  intro d
  induction d with
  | zero =>
    intro j fuel hj hf
    obtain ⟨f, rfl⟩ : ∃ f, fuel = f + 1 := ⟨fuel - 1, by omega⟩
    have hj' : j = K := by omega
    subst hj'
    rw [fmLoop_step, if_pos hK]
  | succ d ih =>
    intro j fuel hj hf
    obtain ⟨f, rfl⟩ : ∃ f, fuel = f + 1 := ⟨fuel - 1, by omega⟩
    rw [fmLoop_step, if_neg (hmin j (by omega))]
    exact ih (j + 1) f (by omega) (by omega)

/-- In the series branch `fm` runs its loop from the state `sum = delt = t_0`. -/
theorem fm_direct_branch (lib : LibM α) (fuel : Nat) (T : α) (m : Nat) (tmax : Int)
    (hT : 0 < T) (htm : TMAX[m]? = some tmax) (hmax : T ≤ (tmax : α)) :
    fm lib fuel T m
      = fmLoop T fuel (specSeriesSum lib T m 0) (specSeriesTerm lib T m 0)
          ((m : α) + 0.5 + 1.0 + ((0 : Nat) : α)) := by
  unfold fm
  simp only []
  rw [if_neg (not_le.mpr hT), htm]
  simp only []
  rw [if_neg (not_lt.mpr hmax)]
  have h0 : (1.0 : α) / ((m : α) + 0.5) / (2 * lib.exp T) = specSeriesTerm lib T m 0 := by
    rw [specSeriesTerm, div_div]
    norm_num
    ring
  rw [h0]
  simp [specSeriesSum]

/-! ### Consecutive orders -/

/-- The terms of the series of the order `m + 1` are those of the order `m` scaled by
`(m + 0.5) / (m + 0.5 + (k + 1))`. -/
theorem specSeriesTerm_succ_order (lib : LibM α) (T : α) (m : Nat)
    (he : 0 < lib.exp T) : ∀ k : Nat,
    specSeriesTerm lib T (m + 1) k
      = specSeriesTerm lib T m k * (((m : α) + 0.5) / ((m : α) + 0.5 + ((k + 1 : Nat) : α))) := by
  have hm : (0 : α) ≤ (m : α) := Nat.cast_nonneg m
  have hm5 : (0 : α) < (m : α) + 0.5 := by norm_num; linarith
  intro k
  induction k with
  | zero =>
    unfold specSeriesTerm
    have h1 : (0 : α) < (m : α) + 0.5 + ((0 + 1 : Nat) : α) := by push_cast; linarith
    have h2 : (((m + 1 : Nat) : α) + 0.5) = (m : α) + 0.5 + ((0 + 1 : Nat) : α) := by
      push_cast; ring
    rw [h2]
    field_simp
    ring
  | succ k ih =>
    have hk : (0 : α) ≤ (k : α) := Nat.cast_nonneg k
    have h1 : (0 : α) < (m : α) + 0.5 + ((k + 1 : Nat) : α) := by push_cast; linarith
    have h2 : (0 : α) < (m : α) + 0.5 + ((k + 1 + 1 : Nat) : α) := by push_cast; linarith
    have h3 : (((m + 1 : Nat) : α) + 0.5 + ((k + 1 : Nat) : α))
        = (m : α) + 0.5 + ((k + 1 + 1 : Nat) : α) := by
      push_cast; ring
    rw [specSeriesTerm, ih, h3, specSeriesTerm]
    field_simp
    ring

/-- The scaling factor between consecutive orders is positive, below `1` and
non-increasing in the index. -/
theorem orderRatio_bounds (m k : Nat) :
    (0 : α) < ((m : α) + 0.5) / ((m : α) + 0.5 + ((k + 1 : Nat) : α)) ∧
    ((m : α) + 0.5) / ((m : α) + 0.5 + ((k + 1 : Nat) : α)) < 1 ∧
    ((m : α) + 0.5) / ((m : α) + 0.5 + ((k + 1 + 1 : Nat) : α))
      ≤ ((m : α) + 0.5) / ((m : α) + 0.5 + ((k + 1 : Nat) : α)) := by
  have hm : (0 : α) ≤ (m : α) := Nat.cast_nonneg m
  have hk : (0 : α) ≤ (k : α) := Nat.cast_nonneg k
  have hm5 : (0 : α) < (m : α) + 0.5 := by norm_num; linarith
  have h1 : (0 : α) < (m : α) + 0.5 + ((k + 1 : Nat) : α) := by push_cast; linarith
  refine ⟨div_pos hm5 h1, ?_, ?_⟩
  · rw [div_lt_one h1]
    push_cast
    linarith
  · apply div_le_div_of_nonneg_left (le_of_lt hm5) h1
    push_cast
    linarith

/-- Each partial sum of the order `m + 1` is below the partial sum of the order `m`. -/
theorem specSeriesSum_succ_order_lt (lib : LibM α) (T : α) (m : Nat) (hT : 0 < T)
    (he : 0 < lib.exp T) : ∀ K : Nat,
    specSeriesSum lib T (m + 1) K < specSeriesSum lib T m K := by
  have hterm : ∀ k, specSeriesTerm lib T (m + 1) k < specSeriesTerm lib T m k := by
    intro k
    rw [specSeriesTerm_succ_order lib T m he k]
    have hp := specSeriesTerm_pos lib T m hT he k
    have hb := (@orderRatio_bounds α _ m k).2.1
    nlinarith
  intro K
  induction K with
  | zero => exact hterm 0
  | succ K ih =>
    rw [specSeriesSum, specSeriesSum]
    exact add_lt_add ih (hterm (K + 1))

/-- Each partial sum of the order `m + 1` is at least the partial sum of the order `m`
scaled by the factor of its last term. -/
theorem specSeriesSum_succ_order_ge (lib : LibM α) (T : α) (m : Nat) (hT : 0 < T)
    (he : 0 < lib.exp T) : ∀ K : Nat,
    ((m : α) + 0.5) / ((m : α) + 0.5 + ((K + 1 : Nat) : α)) * specSeriesSum lib T m K
      ≤ specSeriesSum lib T (m + 1) K := by
  intro K
  induction K with
  | zero =>
    rw [specSeriesSum, specSeriesSum, specSeriesTerm_succ_order lib T m he 0, mul_comm]
  | succ K ih =>
    rw [specSeriesSum, specSeriesSum, specSeriesTerm_succ_order lib T m he (K + 1)]
    have hS := specSeriesSum_pos lib T m hT he K
    have hb := (@orderRatio_bounds α _ m K).2.2
    have hmono := mul_le_mul_of_nonneg_right hb (le_of_lt hS)
    rw [mul_add]
    linarith [mul_comm (specSeriesTerm lib T m (K + 1))
      (((m : α) + 0.5) / ((m : α) + 0.5 + ((K + 1 + 1 : Nat) : α)))]

/-- When the stopping test of the loop of `fm` succeeds at an index for the order `m`,
it succeeds at that index for the order `m + 1`. -/
theorem stop_succ_order (lib : LibM α) (T : α) (m : Nat) (hT : 0 < T)
    (he : 0 < lib.exp T) (j : Nat)
    (h : |specSeriesTerm lib T m (j + 1)| / specSeriesSum lib T m j < 1e-15) :
    |specSeriesTerm lib T (m + 1) (j + 1)| / specSeriesSum lib T (m + 1) j < 1e-15 := by
  have ht := specSeriesTerm_pos lib T m hT he (j + 1)
  have ht' := specSeriesTerm_pos lib T (m + 1) hT he (j + 1)
  have hS := specSeriesSum_pos lib T m hT he j
  have hS' := specSeriesSum_pos lib T (m + 1) hT he j
  have hge := specSeriesSum_succ_order_ge lib T m hT he j
  obtain ⟨hpos, _, hmono⟩ := @orderRatio_bounds α _ m j
  rw [abs_of_pos ht] at h
  rw [abs_of_pos ht']
  refine lt_of_le_of_lt ?_ h
  rw [div_le_div_iff₀ hS' hS, specSeriesTerm_succ_order lib T m he (j + 1)]
  calc specSeriesTerm lib T m (j + 1)
          * (((m : α) + 0.5) / ((m : α) + 0.5 + ((j + 1 + 1 : Nat) : α)))
          * specSeriesSum lib T m j
      ≤ specSeriesTerm lib T m (j + 1)
          * (((m : α) + 0.5) / ((m : α) + 0.5 + ((j + 1 : Nat) : α)))
          * specSeriesSum lib T m j := by
        apply mul_le_mul_of_nonneg_right _ (le_of_lt hS)
        exact mul_le_mul_of_nonneg_left hmono (le_of_lt ht)
    _ = specSeriesTerm lib T m (j + 1)
          * ((((m : α) + 0.5) / ((m : α) + 0.5 + ((j + 1 : Nat) : α)))
            * specSeriesSum lib T m j) := by ring
    _ ≤ specSeriesTerm lib T m (j + 1) * specSeriesSum lib T (m + 1) j :=
        mul_le_mul_of_nonneg_left hge (le_of_lt ht)

/-- The partial sums of the series are non-decreasing in the number of terms. -/
theorem specSeriesSum_mono (lib : LibM α) (T : α) (m : Nat) (hT : 0 < T)
    (he : 0 < lib.exp T) (K : Nat) :
    ∀ d : Nat, specSeriesSum lib T m K ≤ specSeriesSum lib T m (K + d) := by
  intro d
  induction d with
  | zero => exact le_refl _
  | succ d ih =>
    rw [← Nat.add_assoc, specSeriesSum]
    have := specSeriesTerm_pos lib T m hT he (K + d + 1)
    linarith

/-- In the asymptotic branch `fm` returns the value of `fmasymptotic`. -/
theorem fm_asymptotic_branch (lib : LibM α) (fuel : Nat) (T : α) (m : Nat) (tmax : Int)
    (hT : 0 < T) (htm : TMAX[m]? = some tmax) (hmax : (tmax : α) < T) :
    fm lib fuel T m = some (fmasymptotic lib T m) := by
  unfold fm
  simp only []
  rw [if_neg (not_le.mpr hT), htm]
  simp only []
  rw [if_pos hmax]

/-- With more iterations than the least index at which the stopping test succeeds, the
series branch of `fm` returns the partial sum up to that index. -/
theorem fm_of_least (lib : LibM α) (T : α) (m : Nat) (tmax : Int)
    (hT : 0 < T) (htm : TMAX[m]? = some tmax) (hmax : T ≤ (tmax : α)) (K : Nat)
    (hK : |specSeriesTerm lib T m (K + 1)| / specSeriesSum lib T m K < 1e-15)
    (hmin : ∀ j < K, ¬ |specSeriesTerm lib T m (j + 1)| / specSeriesSum lib T m j < 1e-15)
    (fuel : Nat) (hfuel : K < fuel) :
    fm lib fuel T m = some (specSeriesSum lib T m K) := by
  rw [fm_direct_branch lib fuel T m tmax hT htm hmax]
  exact fmLoop_least lib T m K hK hmin K 0 fuel (by omega) hfuel

/-- Each term of the series of the order `m + 1` is at most the term `T^j/j!`,
`j = m + 1 + k`, of the exponential series, scaled by `m! / (2 e^T T^(m+1))`. -/
theorem specSeriesTerm_succ_le (lib : LibM α) (T : α) (m : Nat) (hT : 0 < T)
    (he : 0 < lib.exp T) : ∀ k : Nat,
    specSeriesTerm lib T (m + 1) k
      ≤ (Nat.factorial m : α) / (2 * lib.exp T * T ^ (m + 1))
          * (T ^ (m + 1 + k) / (Nat.factorial (m + 1 + k) : α)) := by
  have hm : (0 : α) ≤ (m : α) := Nat.cast_nonneg m
  have hfm : (0 : α) < (Nat.factorial m : α) := by exact_mod_cast Nat.factorial_pos m
  intro k
  induction k with
  | zero =>
    have hrhs : (Nat.factorial m : α) / (2 * lib.exp T * T ^ (m + 1))
          * (T ^ (m + 1 + 0) / (Nat.factorial (m + 1 + 0) : α))
        = 1 / ((((m + 1 : Nat) : α)) * 2 * lib.exp T) := by
      rw [Nat.add_zero, Nat.factorial_succ]
      push_cast
      field_simp
      ring
    rw [hrhs, specSeriesTerm]
    apply one_div_le_one_div_of_le
    · push_cast; positivity
    · have : (((m + 1 : Nat) : α)) ≤ ((m + 1 : Nat) : α) + 0.5 := by norm_num
      have h2e : (0 : α) < 2 * lib.exp T := by positivity
      nlinarith
  | succ k ih =>
    have hk : (0 : α) ≤ (k : α) := Nat.cast_nonneg k
    have hd2 : (0 : α) < ((m + 1 + k + 1 : Nat) : α) := by push_cast; linarith
    have hd : ((m + 1 + k + 1 : Nat) : α) ≤ ((m + 1 : Nat) : α) + 0.5 + ((k + 1 : Nat) : α) := by
      push_cast
      norm_num
      linarith
    have hrhs : (Nat.factorial m : α) / (2 * lib.exp T * T ^ (m + 1))
          * (T ^ (m + 1 + (k + 1)) / (Nat.factorial (m + 1 + (k + 1)) : α))
        = (Nat.factorial m : α) / (2 * lib.exp T * T ^ (m + 1))
            * (T ^ (m + 1 + k) / (Nat.factorial (m + 1 + k) : α)) * T
            / ((m + 1 + k + 1 : Nat) : α) := by
      have hf : (0 : α) < (Nat.factorial (m + 1 + k) : α) := by
        exact_mod_cast Nat.factorial_pos _
      rw [← Nat.add_assoc, Nat.factorial_succ, pow_succ]
      push_cast
      field_simp
      ring
    rw [hrhs, specSeriesTerm]
    have hB : (0 : α) ≤ (Nat.factorial m : α) / (2 * lib.exp T * T ^ (m + 1))
        * (T ^ (m + 1 + k) / (Nat.factorial (m + 1 + k) : α)) * T := by positivity
    exact div_le_div₀ hB (mul_le_mul_of_nonneg_right ih (le_of_lt hT)) hd2 hd

/-- Each partial sum of the series of the order `m + 1` is at most `m! / (2 T^(m+1))`,
when `exp` bounds the partial sums of the exponential series. -/
theorem specSeriesSum_succ_le (lib : LibM α) (T : α) (m : Nat) (hT : 0 < T)
    (he : 0 < lib.exp T)
    (hexp : ∀ n : Nat, ∑ i in Finset.range n, T ^ i / (Nat.factorial i : α) ≤ lib.exp T)
    (K : Nat) :
    specSeriesSum lib T (m + 1) K ≤ (Nat.factorial m : α) / (2 * T ^ (m + 1)) := by
  have hC : (0 : α) ≤ (Nat.factorial m : α) / (2 * lib.exp T * T ^ (m + 1)) := by positivity
  have hsum : ∀ K : Nat, specSeriesSum lib T (m + 1) K
      ≤ (Nat.factorial m : α) / (2 * lib.exp T * T ^ (m + 1))
        * ∑ i in Finset.range (m + 1 + K + 1), T ^ i / (Nat.factorial i : α) := by
    intro K
    induction K with
    | zero =>
      rw [specSeriesSum, Finset.sum_range_succ, mul_add]
      have h0 : (0 : α) ≤ ∑ i in Finset.range (m + 1 + 0), T ^ i / (Nat.factorial i : α) :=
        Finset.sum_nonneg (fun i _ => by positivity)
      have := specSeriesTerm_succ_le lib T m hT he 0
      have := mul_nonneg hC h0
      linarith
    | succ K ih =>
      have ih' : specSeriesSum lib T (m + 1) K
          ≤ (Nat.factorial m : α) / (2 * lib.exp T * T ^ (m + 1))
            * ∑ i in Finset.range (m + 1 + (K + 1)), T ^ i / (Nat.factorial i : α) := ih
      rw [specSeriesSum, Finset.sum_range_succ, mul_add]
      have := specSeriesTerm_succ_le lib T m hT he (K + 1)
      linarith
  refine le_trans (hsum K) ?_
  refine le_trans (mul_le_mul_of_nonneg_left (hexp _) hC) ?_
  apply le_of_eq
  field_simp
  ring

/-! ### The loop of `fm` in integer arithmetic -/

/-- The state of the loop of `fm` before the first iteration. -/
theorem seriesState_zero (lib : LibM α) (t m : Nat) :
    SeriesState lib t m 0 1 (2 * m + 1) 1 := by
  have h : specSeriesTerm lib (t : α) m 0
      = ((1 : Nat) : α) / (((2 * m + 1 : Nat) : α) * lib.exp (t : α)) := by
    have e : ((m : α) + 0.5) * 2 = 2 * (m : α) + 1 := by
      norm_num
      ring
    rw [specSeriesTerm, e]
    push_cast
    rfl
  exact ⟨h, h, by omega, by omega⟩

/-- One iteration of the loop of `fm` in integer arithmetic. -/
theorem seriesState_succ (lib : LibM α) (t m j N P pw : Nat) (he : 0 < lib.exp (t : α))
    (h : SeriesState lib t m j N P pw) :
    SeriesState lib t m (j + 1) (N * (2 * m + 3 + 2 * j) + pw * (2 * t))
      (P * (2 * m + 3 + 2 * j)) (pw * (2 * t)) := by
  obtain ⟨hS, hT, hN, hP⟩ := h
  have hPr : (0 : α) < (P : α) := by exact_mod_cast hP
  have hd : (0 : α) < ((2 * m + 3 + 2 * j : Nat) : α) := by exact_mod_cast (by omega : 0 < 2 * m + 3 + 2 * j)
  have hden : (m : α) + 0.5 + ((j + 1 : Nat) : α) = ((2 * m + 3 + 2 * j : Nat) : α) / 2 := by
    push_cast
    norm_num
    ring
  have hterm : specSeriesTerm lib (t : α) m (j + 1)
      = ((pw * (2 * t) : Nat) : α) / (((P * (2 * m + 3 + 2 * j) : Nat) : α) * lib.exp (t : α)) := by
    rw [specSeriesTerm, hT, hden]
    push_cast
    field_simp
    ring
  refine ⟨?_, hterm, by positivity, by positivity⟩
  rw [specSeriesSum, hS, hterm]
  push_cast
  field_simp
  ring

/-- The stopping test of the loop of `fm` in integer arithmetic. -/
theorem seriesState_stop_iff (lib : LibM α) (t m j N P pw : Nat) (he : 0 < lib.exp (t : α))
    (h : SeriesState lib t m j N P pw) :
    |specSeriesTerm lib (t : α) m (j + 1)| / specSeriesSum lib (t : α) m j < 1e-15
      ↔ pw * (2 * t) * 10 ^ 15 < N * (2 * m + 3 + 2 * j) := by
  have h' := seriesState_succ lib t m j N P pw he h
  obtain ⟨hS, _, hN, hP⟩ := h
  obtain ⟨_, hT', _, _⟩ := h'
  have hPr : (0 : α) < (P : α) := by exact_mod_cast hP
  have hNr : (0 : α) < (N : α) := by exact_mod_cast hN
  have hd : (0 : α) < ((2 * m + 3 + 2 * j : Nat) : α) := by exact_mod_cast (by omega : 0 < 2 * m + 3 + 2 * j)
  have hnn : (0 : α) ≤ ((pw * (2 * t) : Nat) : α)
      / (((P * (2 * m + 3 + 2 * j) : Nat) : α) * lib.exp (t : α)) := by positivity
  rw [hT', hS, abs_of_nonneg hnn]
  have hq : ((pw * (2 * t) : Nat) : α)
        / (((P * (2 * m + 3 + 2 * j) : Nat) : α) * lib.exp (t : α))
        / ((N : α) / ((P : α) * lib.exp (t : α)))
      = ((pw * (2 * t) : Nat) : α) / ((N * (2 * m + 3 + 2 * j) : Nat) : α) := by
    push_cast
    field_simp
    ring
  have hNd : (0 : α) < ((N * (2 * m + 3 + 2 * j) : Nat) : α) := by push_cast; positivity
  rw [hq, div_lt_iff₀ hNd]
  have e15 : (1e-15 : α) = 1 / ((10 ^ 15 : Nat) : α) := by norm_num
  rw [e15, one_div, inv_mul_eq_div, lt_div_iff₀ (by positivity)]
  exact_mod_cast Iff.rfl

/-- When the integer loop returns `(N, P)`, the loop of `fm` stops at a least index `K`,
below the bound on the iterations, with the partial sum `N / (P e^t)`. -/
theorem stopNat_spec (lib : LibM α) (t m : Nat) (he : 0 < lib.exp (t : α)) (N' P' : Nat) :
    ∀ (fuel j N P pw : Nat), SeriesState lib t m j N P pw →
      stopNat t m fuel j N P pw = some (N', P') →
      ∃ K : Nat, j ≤ K ∧ K < j + fuel ∧
        |specSeriesTerm lib (t : α) m (K + 1)| / specSeriesSum lib (t : α) m K < 1e-15 ∧
        (∀ i, j ≤ i → i < K →
          ¬ |specSeriesTerm lib (t : α) m (i + 1)| / specSeriesSum lib (t : α) m i < 1e-15) ∧
        specSeriesSum lib (t : α) m K = (N' : α) / ((P' : α) * lib.exp (t : α)) ∧
        0 < N' ∧ 0 < P' := by
  intro fuel
  induction fuel with
  | zero =>
    intro j N P pw _ h
    simp [stopNat] at h
  | succ fuel ih =>
    intro j N P pw hst h
    rw [stopNat] at h
    have hiff := seriesState_stop_iff lib t m j N P pw he hst
    split at h
    · rename_i hc
      obtain ⟨rfl, rfl⟩ := Prod.mk.inj (Option.some.inj h)
      exact ⟨j, le_refl j, by omega, hiff.mpr hc, fun i h1 h2 => absurd h2 (by omega),
        hst.1, hst.2.2.1, hst.2.2.2⟩
    · rename_i hc
      obtain ⟨K, hjK, hKf, hK, hmin, hsum, hN, hP⟩ :=
        ih (j + 1) _ _ _ (seriesState_succ lib t m j N P pw he hst) h
      refine ⟨K, by omega, by omega, hK, ?_, hsum, hN, hP⟩
      intro i h1 h2
      rcases Nat.eq_or_lt_of_le h1 with heq | hlt
      · subst heq
        exact fun hcrit => hc (hiff.mp hcrit)
      · exact hmin i (by omega) h2

end

theorem fm_neg_witness :
    ((-1 : ℝ) < 0) ∧
    fm (⟨Real.exp, Real.log, Real.sqrt, Real.rpow⟩ : LibM ℝ) 5 (-1) 3
      = some (0.5 / (((3 : Nat) : ℝ) + 0.5)) :=
  ⟨by norm_num, fm_neg _ 5 (-1) 3 (by norm_num)⟩

/-- C10 (as stated) fails: for `T = -1` and `m = 0` the call `fm(T, m)` returns the
value `0.5/0.5 = 1` (before the series loop is reached) instead of failing. -/
theorem fm_neg_returns :
    ((-1 : ℝ) < 0) ∧ (0 : Nat) ≤ 39 ∧
    fm (⟨Real.exp, Real.log, Real.sqrt, Real.rpow⟩ : LibM ℝ) 0 (-1) 0 = some 1 := by
  refine ⟨by norm_num, by decide, ?_⟩
  rw [fm_of_nonpos _ 0 (-1) 0 (by norm_num)]
  norm_num

theorem fmrecursive_recurrence_witness :
    ((0 : ℝ) ≤ 1 ∧ (2 : Nat) ≤ 39 ∧ ((1 : ℝ) ≤ ((TMAX.getD 2 0 : Int) : ℝ) → 2 ≤ 32)) ∧
    ∃ (tmax : Int) (out : Nat → ℝ) (seed : ℝ), TMAX[2]? = some tmax ∧
      fmrecursive (⟨Real.exp, Real.log, Real.sqrt, Real.rpow⟩ : LibM ℝ)
        (fun (t : Int) (j : Nat) => ((t : ℝ) + (j : ℝ))) 1 2 (fun _ => 0) = some out ∧
      (∀ i : Nat, 1 ≤ i → i ≤ 2 →
        out (i - 1) = (2 * 1 * out i + Real.exp (-1)) / (2 * (i : ℝ) - 1)) ∧
      out 2 = seed ∧
      (if (1 : ℝ) > (tmax : ℝ) then
          seed = fmasymptotic (⟨Real.exp, Real.log, Real.sqrt, Real.rpow⟩ : LibM ℝ) 1 2
        else fmtaylor (fun (t : Int) (j : Nat) => ((t : ℝ) + (j : ℝ))) 1 2 = some seed) :=
  ⟨⟨zero_le_one, by decide, fun _ => by decide⟩,
    fmrecursive_recurrence _ (fun (t : Int) (j : Nat) => ((t : ℝ) + (j : ℝ))) 1 2
      (fun _ => 0) zero_le_one (by decide) (fun _ => by decide)⟩

/-- The call `fmtaylor(T, n)` is undefined for every order `n ≥ 33`: the last of its
eight reads is `FMTABLE[tidx][n + 7]` with `n + 7 ≥ 40`. -/
theorem fmtaylor_column {α : Type} [LinearOrderedField α] [FloorRing α]
    (FMTABLE : Int → Nat → α) (T : α) (n : Nat) (hn : 33 ≤ n) :
    fmtaylor FMTABLE T n = none := by
  unfold fmtaylor
  cases int32 (cround (T * 20.0)) with
  | none => rfl
  | some tidx =>
    simp only []
    exact fmtaylorLoop_outside FMTABLE tidx n _ TAYLOR_N 0 _ _ (by decide)
      (by simp only [TAYLOR_N]; omega)

/-- The call `fmtaylor(T, n)` is undefined when the row `round(20T)` lies beyond the last
row of the table. -/
theorem fmtaylor_row {α : Type} [LinearOrderedField α] [FloorRing α]
    (FMTABLE : Int → Nat → α) (T : α) (n : Nat) (hrow : 2281 ≤ cround (T * 20)) :
    fmtaylor FMTABLE T n = none := by
  have h20 : (20.0 : α) = 20 := by norm_num
  unfold fmtaylor
  rw [h20]
  cases hc : int32 (cround (T * 20)) with
  | none => rfl
  | some tidx =>
    have ht : tidx = cround (T * 20) := by
      unfold int32 at hc
      split at hc
      · exact (Option.some.inj hc).symm
      · cases hc
    simp only []
    exact fmtaylorLoop_row FMTABLE tidx n _ (by omega) 7 0 _ _

/-- C5 as stated fails: for `T = 0` and the seed order `n = 33 ≤ 39`, the seed is taken
from `fmtaylor(0, 33)` (`0 ≤ TMAX[33] = 102`), whose last read `FMTABLE[0][40]` lies
outside of the 40 columns of the table: the call does not return a value. -/
theorem fmrecursive_undefined :
    (0 : ℝ) ≤ 0 ∧ (33 : Nat) ≤ 39 ∧ TMAX[33]? = some 102 ∧ ¬ ((0 : ℝ) > ((102 : Int) : ℝ)) ∧
    readFMTABLE (fun (t : Int) (j : Nat) => ((t : ℝ) + (j : ℝ))) 0 (33 + 7) = none ∧
    fmrecursive (⟨Real.exp, Real.log, Real.sqrt, Real.rpow⟩ : LibM ℝ)
      (fun (t : Int) (j : Nat) => ((t : ℝ) + (j : ℝ))) 0 33 (fun _ => 0) = none := by
  refine ⟨le_refl _, by decide, rfl, by norm_num, readFMTABLE_column _ _ _ (by decide), ?_⟩
  unfold fmrecursive
  rw [show TMAX[33]? = some 102 from rfl]
  simp only []
  rw [if_neg (by norm_num), fmtaylor_column _ _ 33 (le_refl _)]

/-- The value of `fmasymptotic` with the real `exp`, `log` and `sqrt`, in closed form. -/
theorem fmasymptotic_eq (T : ℝ) (m : Nat) (hT : 0 < T) :
    fmasymptotic (⟨Real.exp, Real.log, Real.sqrt, Real.rpow⟩ : LibM ℝ) T m
      = (∏ k in Finset.range m, ((2 * k + 1 : Nat) : ℝ)) / (2 * T) ^ m
          * Real.sqrt (3.1415926535897932384626433832795 / T) / 2 := by
  have h2T : 0 < 2 * T := by positivity
  have hloop := fmasymptoticLoop_sum (⟨Real.exp, Real.log, Real.sqrt, Real.rpow⟩ : LibM ℝ)
    m (m - 1) 1 (-(m : ℝ) * Real.log (2 * T)) rfl
  have hexp : Real.exp (-(m : ℝ) * Real.log (2 * T)
        + ∑ k in Finset.Ico 1 m, Real.log (((2 * k + 1 : Nat) : ℝ)))
      = (∏ k in Finset.range m, ((2 * k + 1 : Nat) : ℝ)) / (2 * T) ^ m := by
    rw [Real.exp_add, Real.exp_sum]
    have hprod : ∏ k in Finset.Ico 1 m, Real.exp (Real.log (((2 * k + 1 : Nat) : ℝ)))
        = ∏ k in Finset.range m, ((2 * k + 1 : Nat) : ℝ) := by
      have hstep : ∀ k ∈ Finset.Ico 1 m,
          Real.exp (Real.log (((2 * k + 1 : Nat) : ℝ))) = ((2 * k + 1 : Nat) : ℝ) := by
        intro k _
        exact Real.exp_log (by positivity)
      rw [Finset.prod_congr rfl hstep]
      rcases Nat.eq_zero_or_pos m with h0 | hpos
      · subst h0; simp
      · rw [Finset.range_eq_Ico, Finset.prod_eq_prod_Ico_succ_bot hpos]
        simp
    have hpow : Real.exp (-(m : ℝ) * Real.log (2 * T)) = ((2 * T) ^ m)⁻¹ := by
      rw [neg_mul, Real.exp_neg, mul_comm, Real.exp_mul, Real.exp_log h2T, Real.rpow_natCast]
    rw [hprod, hpow]
    field_simp
  unfold fmasymptotic
  simp only []
  have e1 : (2 * 1 + 1 : Nat) = 3 := rfl
  rw [e1] at hloop
  rw [hloop, hexp]

/-- The constant `PI` of `fmasymptotic` agrees with `π` to `20` decimal places. -/
theorem PI_near_pi : |(3.1415926535897932384626433832795 : ℝ) - Real.pi| < 1e-20 := by
  have h1 := Real.pi_gt_d20
  have h2 := Real.pi_lt_d20
  rw [abs_lt]
  constructor <;> norm_num at h1 h2 ⊢ <;> linarith

/-- C16: the asymptotic closed form over the reals.  For every `T > 0` and every order
`m` (in particular `0 ≤ m ≤ 39`), with the real `exp`, `log` and `sqrt`,
`fmasymptotic(T, m) = (2m-1)!! / (2T)^m * sqrt(PI/T) / 2`, where `(2m-1)!!` is the
product of the odd integers `1, 3, ..., 2m-1` (equal to `1` for `m = 0`); starting the
accumulation of the logarithms at `i = 3` instead of `i = 1` changes nothing.  Here `PI`
is the value that the source gives to pi, the decimal
`3.1415926535897932384626433832795`, which agrees with `π` to `20` decimal places. -/
theorem fmasymptotic_closed_form (T : ℝ) (m : Nat) (hT : 0 < T) :
    fmasymptotic (⟨Real.exp, Real.log, Real.sqrt, Real.rpow⟩ : LibM ℝ) T m
      = (∏ k in Finset.range m, ((2 * k + 1 : Nat) : ℝ)) / (2 * T) ^ m
          * Real.sqrt (3.1415926535897932384626433832795 / T) / 2 ∧
    |(3.1415926535897932384626433832795 : ℝ) - Real.pi| < 1e-20 :=
  ⟨fmasymptotic_eq T m hT, PI_near_pi⟩

theorem specSeriesSum_ge_first (lib : LibM ℝ) (T : ℝ) (m : Nat) (hT : 0 < T)
    (he : 0 < lib.exp T) : ∀ K, specSeriesTerm lib T m 0 ≤ specSeriesSum lib T m K := by
  intro K
  induction K with
  | zero => exact le_refl _
  | succ K ih =>
    unfold specSeriesSum
    have := specSeriesTerm_pos lib T m hT he (K + 1)
    linarith

/-- From the index `2T` on, each term of the series is at most half of the previous
one. -/
theorem specSeriesTerm_half (lib : LibM ℝ) (T : ℝ) (m : Nat) (hT : 0 < T)
    (he : 0 < lib.exp T) (k : Nat) (hk : 2 * T ≤ (k : ℝ)) :
    specSeriesTerm lib T m (k + 1) ≤ specSeriesTerm lib T m k / 2 := by
  have hpos := specSeriesTerm_pos lib T m hT he k
  have hden : (0 : ℝ) < (m : ℝ) + 0.5 + ((k + 1 : Nat) : ℝ) := by
    have h1 : (0 : ℝ) ≤ (m : ℝ) := Nat.cast_nonneg m
    push_cast
    norm_num
    linarith
  rw [specSeriesTerm, div_le_div_iff₀ hden (by norm_num : (0 : ℝ) < 2)]
  have h1 : (0 : ℝ) ≤ (m : ℝ) := Nat.cast_nonneg m
  have h2 : T * 2 ≤ (m : ℝ) + 0.5 + ((k + 1 : Nat) : ℝ) := by
    push_cast
    norm_num
    linarith
  calc specSeriesTerm lib T m k * T * 2 = specSeriesTerm lib T m k * (T * 2) := by ring
    _ ≤ specSeriesTerm lib T m k * ((m : ℝ) + 0.5 + ((k + 1 : Nat) : ℝ)) :=
        mul_le_mul_of_nonneg_left h2 (le_of_lt hpos)

theorem specSeriesTerm_geometric (lib : LibM ℝ) (T : ℝ) (m : Nat) (hT : 0 < T)
    (he : 0 < lib.exp T) (N : Nat) (hN : 2 * T ≤ (N : ℝ)) :
    ∀ n : Nat, specSeriesTerm lib T m (N + n) ≤ specSeriesTerm lib T m N * (1 / 2) ^ n := by
  intro n
  induction n with
  | zero => simp
  | succ n ih =>
    have hk : 2 * T ≤ ((N + n : Nat) : ℝ) := by
      push_cast
      have : (0 : ℝ) ≤ (n : ℝ) := Nat.cast_nonneg n
      linarith
    have h := specSeriesTerm_half lib T m hT he (N + n) hk
    rw [show N + (n + 1) = N + n + 1 by ring, pow_succ]
    linarith

/-- The stopping test of the loop of `fm` succeeds at some index. -/
theorem exists_stop (lib : LibM ℝ) (T : ℝ) (m : Nat) (hT : 0 < T) (he : 0 < lib.exp T) :
    ∃ K : Nat, |specSeriesTerm lib T m (K + 1)| / specSeriesSum lib T m K < 1e-15 := by
  have h0 := specSeriesTerm_pos lib T m hT he 0
  set N : Nat := Nat.ceil (2 * T) with hNdef
  have hN : 2 * T ≤ (N : ℝ) := Nat.le_ceil (2 * T)
  have hNpos := specSeriesTerm_pos lib T m hT he N
  have heps : (0 : ℝ) < 1e-15 * specSeriesTerm lib T m 0 / specSeriesTerm lib T m N := by
    positivity
  obtain ⟨n, hn⟩ := exists_pow_lt_of_lt_one heps (by norm_num : (1 / 2 : ℝ) < 1)
  refine ⟨N + n, ?_⟩
  have hK1 := specSeriesTerm_pos lib T m hT he (N + n + 1)
  have hS := specSeriesSum_pos lib T m hT he (N + n)
  have hge := specSeriesSum_ge_first lib T m hT he (N + n)
  have hgeo := specSeriesTerm_geometric lib T m hT he N hN n
  have hhalf := specSeriesTerm_half lib T m hT he (N + n)
    (by push_cast; have : (0 : ℝ) ≤ (n : ℝ) := Nat.cast_nonneg n; linarith)
  have hKpos := specSeriesTerm_pos lib T m hT he (N + n)
  rw [abs_of_pos hK1, div_lt_iff₀ hS]
  have h1 : specSeriesTerm lib T m N * (1 / 2) ^ n < 1e-15 * specSeriesTerm lib T m 0 := by
    rw [lt_div_iff₀ hNpos] at hn
    linarith
  have h2 : (1e-15 : ℝ) * specSeriesTerm lib T m 0
      ≤ 1e-15 * specSeriesSum lib T m (N + n) :=
    mul_le_mul_of_nonneg_left hge (by norm_num)
  linarith

/-- C18: the direct series over the reals.  For every order `m ≤ 39` and every `T` with
`0 < T ≤ TMAX[m]`, with the real `exp`, the loop of `fm` terminates: there is a least
index `K` with `|t_{K+1}| / (t_0 + ... + t_K) < 1e-15`, and with every iteration bound
above `K` the call `fm(T, m)` returns the partial sum `t_0 + ... + t_K`, where
`t_0 = 1/((m+0.5) * 2 * e^T)` and `t_k = t_{k-1} * T / (m+0.5+k)`; the result is
strictly positive. -/
theorem fm_series (T : ℝ) (m : Nat) (hm : m ≤ 39) (hT : 0 < T)
    (hmax : T ≤ ((TMAX.getD m 0 : Int) : ℝ)) :
    ∃ K : Nat,
      |specSeriesTerm (⟨Real.exp, Real.log, Real.sqrt, Real.rpow⟩ : LibM ℝ) T m (K + 1)|
          / specSeriesSum (⟨Real.exp, Real.log, Real.sqrt, Real.rpow⟩ : LibM ℝ) T m K
        < 1e-15 ∧
      (∀ j < K,
        ¬ |specSeriesTerm (⟨Real.exp, Real.log, Real.sqrt, Real.rpow⟩ : LibM ℝ) T m (j + 1)|
            / specSeriesSum (⟨Real.exp, Real.log, Real.sqrt, Real.rpow⟩ : LibM ℝ) T m j
          < 1e-15) ∧
      (∀ fuel : Nat, K < fuel →
        fm (⟨Real.exp, Real.log, Real.sqrt, Real.rpow⟩ : LibM ℝ) fuel T m
          = some (specSeriesSum (⟨Real.exp, Real.log, Real.sqrt, Real.rpow⟩ : LibM ℝ) T m K)) ∧
      0 < specSeriesSum (⟨Real.exp, Real.log, Real.sqrt, Real.rpow⟩ : LibM ℝ) T m K := by
  classical
  have he : 0 < (⟨Real.exp, Real.log, Real.sqrt, Real.rpow⟩ : LibM ℝ).exp T := Real.exp_pos T
  have hex := exists_stop (⟨Real.exp, Real.log, Real.sqrt, Real.rpow⟩ : LibM ℝ) T m hT he
  have hlen : m < TMAX.length := by
    have : TMAX.length = 40 := rfl
    omega
  have htm : TMAX[m]? = some (TMAX.getD m 0) := by
    rw [List.getD_eq_getElem?_getD, List.getElem?_eq_getElem hlen]
    rfl
  refine ⟨Nat.find hex, Nat.find_spec hex, fun j hj => Nat.find_min hex hj, ?_,
    specSeriesSum_pos _ T m hT he _⟩
  intro fuel hfuel
  rw [fm_direct_branch _ fuel T m _ hT htm hmax]
  exact fmLoop_least _ T m (Nat.find hex) (Nat.find_spec hex)
    (fun j hj => Nat.find_min hex hj) (Nat.find hex) 0 fuel (by omega) hfuel

/-! ### Monotonicity in the order -/

/-- A bound of Wallis type: `(m! 2^m)^2 ≤ (4m+1) ((2m-1)!!)^2`. -/
theorem sq_factorial_le (m : Nat) :
    ((Nat.factorial m : ℝ) * 2 ^ m) ^ 2
      ≤ (4 * (m : ℝ) + 1) * (∏ k in Finset.range m, ((2 * k + 1 : Nat) : ℝ)) ^ 2 := by
  induction m with
  | zero => simp
  | succ m ih =>
    have hm : (0 : ℝ) ≤ (m : ℝ) := Nat.cast_nonneg m
    have hD : (0 : ℝ) ≤ (∏ k in Finset.range m, ((2 * k + 1 : Nat) : ℝ)) ^ 2 := sq_nonneg _
    have key : (4 * (m : ℝ) + 1) * (2 * (m : ℝ) + 2) ^ 2
        ≤ (4 * (m : ℝ) + 5) * (2 * (m : ℝ) + 1) ^ 2 := by nlinarith
    rw [Nat.factorial_succ, Finset.prod_range_succ, pow_succ]
    push_cast at ih hD ⊢
    calc (((m : ℝ) + 1) * (Nat.factorial m : ℝ) * (2 ^ m * 2)) ^ 2
        = ((Nat.factorial m : ℝ) * 2 ^ m) ^ 2 * (2 * (m : ℝ) + 2) ^ 2 := by ring
      _ ≤ (4 * (m : ℝ) + 1) * (∏ k in Finset.range m, (2 * (k : ℝ) + 1)) ^ 2
            * (2 * (m : ℝ) + 2) ^ 2 :=
          mul_le_mul_of_nonneg_right ih (sq_nonneg _)
      _ = (4 * (m : ℝ) + 1) * (2 * (m : ℝ) + 2) ^ 2
            * (∏ k in Finset.range m, (2 * (k : ℝ) + 1)) ^ 2 := by ring
      _ ≤ (4 * (m : ℝ) + 5) * (2 * (m : ℝ) + 1) ^ 2
            * (∏ k in Finset.range m, (2 * (k : ℝ) + 1)) ^ 2 :=
          mul_le_mul_of_nonneg_right key hD
      _ = (4 * ((m : ℝ) + 1) + 1)
            * ((∏ k in Finset.range m, (2 * (k : ℝ) + 1)) * (2 * (m : ℝ) + 1)) ^ 2 := by
          ring

/-- The product of the odd numbers `1, 3, ..., 2m-1` is positive. -/
theorem oddProduct_pos (m : Nat) : (0 : ℝ) < ∏ k in Finset.range m, ((2 * k + 1 : Nat) : ℝ) :=
  Finset.prod_pos (fun k _ => by positivity)

/-- The asymptotic value decreases with the order when `2m + 1 < 2T`. -/
theorem fmasymptotic_succ_lt (T : ℝ) (m : Nat) (hT : 0 < T) (h : 2 * (m : ℝ) + 1 < 2 * T) :
    fmasymptotic (⟨Real.exp, Real.log, Real.sqrt, Real.rpow⟩ : LibM ℝ) T (m + 1)
      < fmasymptotic (⟨Real.exp, Real.log, Real.sqrt, Real.rpow⟩ : LibM ℝ) T m := by
  rw [fmasymptotic_eq T (m + 1) hT, fmasymptotic_eq T m hT]
  have hD := oddProduct_pos m
  have hs : 0 < Real.sqrt (3.1415926535897932384626433832795 / T) :=
    Real.sqrt_pos.mpr (by positivity)
  have hA : 0 < (∏ k in Finset.range m, ((2 * k + 1 : Nat) : ℝ)) / (2 * T) ^ m
      * Real.sqrt (3.1415926535897932384626433832795 / T) / 2 := by positivity
  have hstep : (∏ k in Finset.range (m + 1), ((2 * k + 1 : Nat) : ℝ)) / (2 * T) ^ (m + 1)
        * Real.sqrt (3.1415926535897932384626433832795 / T) / 2
      = (∏ k in Finset.range m, ((2 * k + 1 : Nat) : ℝ)) / (2 * T) ^ m
        * Real.sqrt (3.1415926535897932384626433832795 / T) / 2
        * ((2 * (m : ℝ) + 1) / (2 * T)) := by
    rw [Finset.prod_range_succ, pow_succ]
    push_cast
    field_simp
    ring
  rw [hstep]
  have hr : (2 * (m : ℝ) + 1) / (2 * T) < 1 := by
    rw [div_lt_one (by positivity)]
    exact h
  nlinarith

/-- The bound `m! / (2 T^(m+1))` of the series of the order `m + 1` is below the
asymptotic value of the order `m` when `4m + 1 < 3 T`. -/
theorem bound_lt_fmasymptotic (T : ℝ) (m : Nat) (hT : 0 < T) (h : 4 * (m : ℝ) + 1 < 3 * T) :
    (Nat.factorial m : ℝ) / (2 * T ^ (m + 1))
      < fmasymptotic (⟨Real.exp, Real.log, Real.sqrt, Real.rpow⟩ : LibM ℝ) T m := by
  rw [fmasymptotic_eq T m hT]
  have hD := oddProduct_pos m
  have hq : (0 : ℝ) ≤ 3.1415926535897932384626433832795 / T := by positivity
  have hs0 : 0 ≤ Real.sqrt (3.1415926535897932384626433832795 / T) := Real.sqrt_nonneg _
  have hs2 : Real.sqrt (3.1415926535897932384626433832795 / T) ^ 2
      = 3.1415926535897932384626433832795 / T := Real.sq_sqrt hq
  have hW := sq_factorial_le m
  have hy0 : 0 ≤ (∏ k in Finset.range m, ((2 * k + 1 : Nat) : ℝ)) * T
      * Real.sqrt (3.1415926535897932384626433832795 / T) := by positivity
  have hy2 : ((∏ k in Finset.range m, ((2 * k + 1 : Nat) : ℝ)) * T
      * Real.sqrt (3.1415926535897932384626433832795 / T)) ^ 2
      = (3.1415926535897932384626433832795 * T)
        * (∏ k in Finset.range m, ((2 * k + 1 : Nat) : ℝ)) ^ 2 := by
    rw [mul_pow, mul_pow, hs2]
    field_simp
    ring
  have hlt : ((Nat.factorial m : ℝ) * 2 ^ m) ^ 2
      < ((∏ k in Finset.range m, ((2 * k + 1 : Nat) : ℝ)) * T
        * Real.sqrt (3.1415926535897932384626433832795 / T)) ^ 2 := by
    rw [hy2]
    refine lt_of_le_of_lt hW ?_
    apply mul_lt_mul_of_pos_right _ (by positivity)
    have : (3 : ℝ) * T ≤ 3.1415926535897932384626433832795 * T :=
      mul_le_mul_of_nonneg_right (by norm_num) (le_of_lt hT)
    linarith
  have hxy : (Nat.factorial m : ℝ) * 2 ^ m
      < (∏ k in Finset.range m, ((2 * k + 1 : Nat) : ℝ)) * T
        * Real.sqrt (3.1415926535897932384626433832795 / T) :=
    lt_of_pow_lt_pow_left₀ 2 hy0 hlt
  have hdiff : (∏ k in Finset.range m, ((2 * k + 1 : Nat) : ℝ)) / (2 * T) ^ m
        * Real.sqrt (3.1415926535897932384626433832795 / T) / 2
        - (Nat.factorial m : ℝ) / (2 * T ^ (m + 1))
      = ((∏ k in Finset.range m, ((2 * k + 1 : Nat) : ℝ)) * T
          * Real.sqrt (3.1415926535897932384626433832795 / T)
          - (Nat.factorial m : ℝ) * 2 ^ m) / (2 ^ (m + 1) * T ^ (m + 1)) := by
    rw [mul_pow, pow_succ, pow_succ]
    field_simp
    ring
  have hpos : 0 < ((∏ k in Finset.range m, ((2 * k + 1 : Nat) : ℝ)) * T
          * Real.sqrt (3.1415926535897932384626433832795 / T)
          - (Nat.factorial m : ℝ) * 2 ^ m) / (2 ^ (m + 1) * T ^ (m + 1)) :=
    div_pos (by linarith) (by positivity)
  linarith

/-- The thresholds `TMAX` grow with the order, and they exceed the bounds on `m` that
the comparison of consecutive orders relies on. -/
theorem TMAX_succ : ∀ m < 39, TMAX.getD m 0 ≤ TMAX.getD (m + 1) 0 ∧
    4 * (m : Int) + 1 ≤ 3 * TMAX.getD m 0 ∧ 2 * (m : Int) + 1 ≤ 2 * TMAX.getD (m + 1) 0 ∧
    0 ≤ TMAX.getD m 0 := by
  decide

/-- The entry `TMAX[m]` for an order `m ≤ 39`. -/
theorem TMAX_getElem (m : Nat) (hm : m ≤ 39) : TMAX[m]? = some (TMAX.getD m 0) := by
  have hlen : m < TMAX.length := by
    have : TMAX.length = 40 := rfl
    omega
  rw [List.getD_eq_getElem?_getD, List.getElem?_eq_getElem hlen]
  rfl

/-- The stopping test of the loop of `fm` succeeds at a least index. -/
theorem exists_least_stop (lib : LibM ℝ) (T : ℝ) (m : Nat) (hT : 0 < T)
    (he : 0 < lib.exp T) :
    ∃ K : Nat, |specSeriesTerm lib T m (K + 1)| / specSeriesSum lib T m K < 1e-15 ∧
      ∀ j < K, ¬ |specSeriesTerm lib T m (j + 1)| / specSeriesSum lib T m j < 1e-15 := by
  classical
  have hex := exists_stop lib T m hT he
  exact ⟨Nat.find hex, Nat.find_spec hex, fun j hj => Nat.find_min hex hj⟩

/-- C13 (amended): monotonicity in the order, over the reals.  For every `T > 0` and
every order `m` in `[0, 38]`, in exact arithmetic with the real `exp`, `log` and `sqrt`
(no rounding and no underflow), both calls `fm(T, m+1)` and
`fm(T, m)` return as soon as the loop of `fm` is granted enough iterations, and
`fm(T, m+1) < fm(T, m)`: when both calls take the series branch (`T ≤ TMAX[m]`), when
both take the asymptotic branch (`T > TMAX[m+1]`), and when the order `m + 1` takes the
series branch and the order `m` the asymptotic branch (`TMAX[m] < T ≤ TMAX[m+1]`). -/
theorem fm_succ_lt (T : ℝ) (m : Nat) (hm : m ≤ 38) (hT : 0 < T) :
    ∃ N : Nat, ∀ fuel : Nat, N ≤ fuel → ∃ a b : ℝ,
      fm (⟨Real.exp, Real.log, Real.sqrt, Real.rpow⟩ : LibM ℝ) fuel T (m + 1) = some a ∧
      fm (⟨Real.exp, Real.log, Real.sqrt, Real.rpow⟩ : LibM ℝ) fuel T m = some b ∧
      a < b := by
  have he : 0 < (⟨Real.exp, Real.log, Real.sqrt, Real.rpow⟩ : LibM ℝ).exp T := Real.exp_pos T
  obtain ⟨hmono, h4, h2, h0⟩ := TMAX_succ m (by omega)
  have htm := TMAX_getElem m (by omega)
  have htm1 := TMAX_getElem (m + 1) (by omega)
  have hmonoR : ((TMAX.getD m 0 : Int) : ℝ) ≤ ((TMAX.getD (m + 1) 0 : Int) : ℝ) := by
    exact_mod_cast hmono
  obtain ⟨K1, hK1, hmin1⟩ :=
    exists_least_stop (⟨Real.exp, Real.log, Real.sqrt, Real.rpow⟩ : LibM ℝ) T (m + 1) hT he
  rcases le_or_lt T ((TMAX.getD (m + 1) 0 : Int) : ℝ) with hle1 | hgt1
  · rcases le_or_lt T ((TMAX.getD m 0 : Int) : ℝ) with hle | hgt
    · obtain ⟨K, hK, hmin⟩ :=
        exists_least_stop (⟨Real.exp, Real.log, Real.sqrt, Real.rpow⟩ : LibM ℝ) T m hT he
      have hKK : K1 ≤ K := by
        by_contra hcon
        exact hmin1 K (by omega) (stop_succ_order _ T m hT he K hK)
      refine ⟨K + 1, fun fuel hfuel => ⟨_, _,
        fm_of_least _ T (m + 1) _ hT htm1 hle1 K1 hK1 hmin1 fuel (by omega),
        fm_of_least _ T m _ hT htm hle K hK hmin fuel (by omega), ?_⟩⟩
      obtain ⟨d, rfl⟩ : ∃ d, K = K1 + d := ⟨K - K1, by omega⟩
      exact lt_of_lt_of_le (specSeriesSum_succ_order_lt _ T m hT he K1)
        (specSeriesSum_mono _ T m hT he K1 d)
    · refine ⟨K1 + 1, fun fuel hfuel => ⟨_, _,
        fm_of_least _ T (m + 1) _ hT htm1 hle1 K1 hK1 hmin1 fuel (by omega),
        fm_asymptotic_branch _ fuel T m _ hT htm hgt, ?_⟩⟩
      have hbound := specSeriesSum_succ_le (⟨Real.exp, Real.log, Real.sqrt, Real.rpow⟩ : LibM ℝ)
        T m hT he (fun n => Real.sum_le_exp_of_nonneg (le_of_lt hT) n) K1
      have h4R : 4 * (m : ℝ) + 1 ≤ 3 * ((TMAX.getD m 0 : Int) : ℝ) := by exact_mod_cast h4
      exact lt_of_le_of_lt hbound (bound_lt_fmasymptotic T m hT (by linarith))
  · have hgt : ((TMAX.getD m 0 : Int) : ℝ) < T := lt_of_le_of_lt hmonoR hgt1
    refine ⟨0, fun fuel _ => ⟨_, _,
      fm_asymptotic_branch _ fuel T (m + 1) _ hT htm1 hgt1,
      fm_asymptotic_branch _ fuel T m _ hT htm hgt, ?_⟩⟩
    have h2R : 2 * (m : ℝ) + 1 ≤ 2 * ((TMAX.getD (m + 1) 0 : Int) : ℝ) := by exact_mod_cast h2
    exact fmasymptotic_succ_lt T m hT (by linarith)

theorem fm_succ_lt_witness :
    ((0 : Nat) ≤ 38 ∧ (0 : ℝ) < 35) ∧
    ∃ N : Nat, ∀ fuel : Nat, N ≤ fuel → ∃ a b : ℝ,
      fm (⟨Real.exp, Real.log, Real.sqrt, Real.rpow⟩ : LibM ℝ) fuel 35 (0 + 1) = some a ∧
      fm (⟨Real.exp, Real.log, Real.sqrt, Real.rpow⟩ : LibM ℝ) fuel 35 0 = some b ∧
      a < b :=
  ⟨⟨by decide, by norm_num⟩, fm_succ_lt 35 0 (by decide) (by norm_num)⟩

/-- The logarithm of `2 * 10^100` is at least `100`. -/
theorem log_large : (100 : ℝ) ≤ Real.log (2 * 1e100) := by
  rw [Real.le_log_iff_exp_le (by norm_num)]
  have h3 : Real.exp 1 ≤ 3 := by
    have := Real.exp_one_lt_d9
    linarith
  have h : Real.exp 100 = Real.exp 1 ^ 100 := by
    rw [← Real.exp_nat_mul]
    norm_num
  rw [h]
  calc Real.exp 1 ^ 100 ≤ (3 : ℝ) ^ 100 := pow_le_pow_left₀ (le_of_lt (Real.exp_pos 1)) h3 100
    _ ≤ 2 * 1e100 := by norm_num

/-- For `T = 10^100` and an order `m` in `[38, 39]`, the argument that `fmasymptotic` passes
to `exp` lies below `-746`. -/
theorem fmasymptotic_argument (lib : LibM ℝ) (hlog : lib.log = Real.log) (m : Nat)
    (h1 : 38 ≤ m) (h2 : m ≤ 39) :
    fmasymptoticLoop lib m 3 (-(m : ℝ) * lib.log (2 * 1e100)) < -746 := by
  have hloop := fmasymptoticLoop_sum lib m (m - 1) 1 (-(m : ℝ) * lib.log (2 * 1e100)) rfl
  rw [show 2 * 1 + 1 = 3 from rfl] at hloop
  rw [hloop, hlog]
  have hterm : ∀ k ∈ Finset.Ico 1 m, Real.log (((2 * k + 1 : Nat) : ℝ)) ≤ 76 := by
    intro k hk
    have hk2 : k < m := (Finset.mem_Ico.mp hk).2
    have hpos : (0 : ℝ) < ((2 * k + 1 : Nat) : ℝ) := by positivity
    have hle := Real.log_le_sub_one_of_pos hpos
    have hk3 : ((2 * k + 1 : Nat) : ℝ) ≤ 77 := by
      have : 2 * k + 1 ≤ 77 := by omega
      exact_mod_cast this
    linarith
  have hsum := Finset.sum_le_card_nsmul (Finset.Ico 1 m)
    (fun k => Real.log (((2 * k + 1 : Nat) : ℝ))) 76 hterm
  rw [Nat.card_Ico, nsmul_eq_mul] at hsum
  have hcard : ((m - 1 : Nat) : ℝ) ≤ 38 := by
    have : m - 1 ≤ 38 := by omega
    exact_mod_cast this
  have hm : (38 : ℝ) ≤ (m : ℝ) := by exact_mod_cast h1
  have hl := log_large
  nlinarith

/-- C13 as stated fails when `exp` underflows, as the binary64 `exp` does below `-745.14`:
with a library whose `exp` returns `0` for arguments below `-746` and the real `exp`
otherwise, for `T = 10^100` both `fm(T, 39)` and `fm(T, 38)` take the asymptotic branch and
return `0`, so that `fm(T, 39) < fm(T, 38)` does not hold. -/
theorem fm_succ_underflow :
    (0 : ℝ) < 1e100 ∧ (38 : Nat) ≤ 38 ∧ ∀ fuel : Nat,
      fm (⟨fun x => if x < -746 then 0 else Real.exp x, Real.log, Real.sqrt, Real.rpow⟩ :
          LibM ℝ) fuel 1e100 (38 + 1) = some 0 ∧
      fm (⟨fun x => if x < -746 then 0 else Real.exp x, Real.log, Real.sqrt, Real.rpow⟩ :
          LibM ℝ) fuel 1e100 38 = some 0 ∧
      ¬ ((0 : ℝ) < 0) := by
  have hT : (0 : ℝ) < 1e100 := by norm_num
  have hval : ∀ m : Nat, 38 ≤ m → m ≤ 39 →
      fmasymptotic (⟨fun x => if x < -746 then 0 else Real.exp x, Real.log, Real.sqrt,
        Real.rpow⟩ : LibM ℝ) 1e100 m = 0 := by
    intro m h1 h2
    have harg := fmasymptotic_argument (⟨fun x => if x < -746 then 0 else Real.exp x,
      Real.log, Real.sqrt, Real.rpow⟩ : LibM ℝ) rfl m h1 h2
    unfold fmasymptotic
    simp only []
    rw [if_pos harg]
    norm_num
  have hbr : ∀ (fuel m : Nat), 38 ≤ m → m ≤ 39 →
      fm (⟨fun x => if x < -746 then 0 else Real.exp x, Real.log, Real.sqrt, Real.rpow⟩ :
          LibM ℝ) fuel 1e100 m = some 0 := by
    intro fuel m h1 h2
    have h114 := TMAX_le_114 m (by omega)
    have hmax : ((TMAX.getD m 0 : Int) : ℝ) < 1e100 := by
      have : ((TMAX.getD m 0 : Int) : ℝ) ≤ 114 := by exact_mod_cast h114.2
      have : (114 : ℝ) < 1e100 := by norm_num
      linarith
    rw [fm_asymptotic_branch _ fuel 1e100 m _ hT (TMAX_getElem m h2) hmax, hval m h1 h2]
  exact ⟨hT, le_refl _, fun fuel =>
    ⟨hbr fuel 39 (by decide) (by decide), hbr fuel 38 (by decide) (by decide), lt_irrefl 0⟩⟩

/-! ### The boundary between the two branches -/

set_option maxRecDepth 1000000 in
/-- The comparison in integer arithmetic succeeds for every order, within `200`
iterations. -/
theorem boundaryCheck_all : ∀ m < 40, boundaryCheck 200 m = true := by decide

/-- From the comparison of the squares to the comparison of the values. -/
theorem between_of_sq (c s q E R e el eu d1 d2 : ℝ) (k : Nat) (hc : 0 < c) (hs : 0 ≤ s)
    (hsq : s ^ 2 = q) (hR : 0 < R) (he : 0 < e) (hE : E = e ^ k) (hel0 : 0 ≤ el)
    (hel : el ≤ e) (heu : e ≤ eu) (hd1 : 0 < d1) (hd2 : 0 < d2)
    (hlow : (d1 * c) ^ 2 * q * eu ^ (2 * k) < R ^ 2)
    (hup : R ^ 2 < (d2 * c) ^ 2 * q * el ^ (2 * k)) :
    d1 * (c * s) < R / E ∧ R / E < d2 * (c * s) := by
  have hEpos : 0 < E := by rw [hE]; positivity
  have hq : 0 ≤ q := by rw [← hsq]; positivity
  have hE2 : E ^ 2 = e ^ (2 * k) := by rw [hE, ← pow_mul, mul_comm]
  have h1 : e ^ (2 * k) ≤ eu ^ (2 * k) := pow_le_pow_left₀ (le_of_lt he) heu _
  have h2 : el ^ (2 * k) ≤ e ^ (2 * k) := pow_le_pow_left₀ hel0 hel _
  constructor
  · rw [lt_div_iff₀ hEpos]
    apply lt_of_pow_lt_pow_left₀ 2 (le_of_lt hR)
    have hx : (d1 * (c * s) * E) ^ 2 = (d1 * c) ^ 2 * q * e ^ (2 * k) := by
      rw [← hsq, ← hE2]; ring
    rw [hx]
    refine lt_of_le_of_lt ?_ hlow
    exact mul_le_mul_of_nonneg_left h1 (by positivity)
  · rw [div_lt_iff₀ hEpos]
    apply lt_of_pow_lt_pow_left₀ 2 (by positivity)
    have hx : (d2 * (c * s) * E) ^ 2 = (d2 * c) ^ 2 * q * e ^ (2 * k) := by
      rw [← hsq, ← hE2]; ring
    rw [hx]
    refine lt_of_lt_of_le hup ?_
    exact mul_le_mul_of_nonneg_left h2 (by positivity)

/-- Bounds of `e` to `19` decimal places. -/
theorem exp_one_bounds :
    (E_LOW : ℝ) / (E_DEN : ℝ) ≤ Real.exp 1 ∧ Real.exp 1 ≤ (E_HIGH : ℝ) / (E_DEN : ℝ) := by
  have h := abs_sub_le_iff.mp Real.exp_one_near_20
  unfold E_LOW E_HIGH E_DEN
  constructor
  · have := h.2
    norm_num at this ⊢
    linarith
  · have := h.1
    norm_num at this ⊢
    linarith

/-- The value of `oddProduct` as a product over the odd numbers. -/
theorem oddProduct_eq (m : Nat) :
    (oddProduct m : ℝ) = ∏ k in Finset.range m, ((2 * k + 1 : Nat) : ℝ) := by
  induction m with
  | zero => simp [oddProduct]
  | succ m ih => rw [oddProduct, Finset.prod_range_succ, ← ih]; push_cast; ring

/-- The comparison of the squares, from the comparison in integer arithmetic. -/
theorem sq_bounds_of_nat (t m N P : Nat) (ht : 0 < t) (hP : 0 < P)
    (hlow : lowerNat t m * P ^ 2 < N ^ 2 * scaleNat t m)
    (hup : N ^ 2 * scaleNat t m < upperNat t m * P ^ 2) :
    (((TOL_LOW : ℝ) / (TOL_DEN : ℝ)) * ((oddProduct m : ℝ) / (2 * (t : ℝ)) ^ m / 2)) ^ 2
        * ((PI_NUM : ℝ) / (PI_DEN : ℝ) / (t : ℝ)) * ((E_HIGH : ℝ) / (E_DEN : ℝ)) ^ (2 * t)
      < ((N : ℝ) / (P : ℝ)) ^ 2 ∧
    ((N : ℝ) / (P : ℝ)) ^ 2
      < (((TOL_HIGH : ℝ) / (TOL_DEN : ℝ)) * ((oddProduct m : ℝ) / (2 * (t : ℝ)) ^ m / 2)) ^ 2
        * ((PI_NUM : ℝ) / (PI_DEN : ℝ) / (t : ℝ)) * ((E_LOW : ℝ) / (E_DEN : ℝ)) ^ (2 * t) := by
  have htr : (0 : ℝ) < (t : ℝ) := by exact_mod_cast ht
  have hPr : (0 : ℝ) < (P : ℝ) := by exact_mod_cast hP
  have hTD : (0 : ℝ) < (TOL_DEN : ℝ) := by unfold TOL_DEN; positivity
  have hPD : (0 : ℝ) < (PI_DEN : ℝ) := by unfold PI_DEN; positivity
  have hED : (0 : ℝ) < (E_DEN : ℝ) := by unfold E_DEN; positivity
  have hS : (0 : ℝ) < (scaleNat t m : ℝ) := by
    unfold scaleNat
    push_cast
    positivity
  have hlowR : (lowerNat t m : ℝ) * (P : ℝ) ^ 2 < (N : ℝ) ^ 2 * (scaleNat t m : ℝ) := by
    exact_mod_cast hlow
  have hupR : (N : ℝ) ^ 2 * (scaleNat t m : ℝ) < (upperNat t m : ℝ) * (P : ℝ) ^ 2 := by
    exact_mod_cast hup
  have e1 : (((TOL_LOW : ℝ) / (TOL_DEN : ℝ)) * ((oddProduct m : ℝ) / (2 * (t : ℝ)) ^ m / 2)) ^ 2
        * ((PI_NUM : ℝ) / (PI_DEN : ℝ) / (t : ℝ)) * ((E_HIGH : ℝ) / (E_DEN : ℝ)) ^ (2 * t)
      = (lowerNat t m : ℝ) / (scaleNat t m : ℝ) := by
    unfold lowerNat scaleNat
    push_cast
    field_simp
    ring
  have e2 : (((TOL_HIGH : ℝ) / (TOL_DEN : ℝ)) * ((oddProduct m : ℝ) / (2 * (t : ℝ)) ^ m / 2)) ^ 2
        * ((PI_NUM : ℝ) / (PI_DEN : ℝ) / (t : ℝ)) * ((E_LOW : ℝ) / (E_DEN : ℝ)) ^ (2 * t)
      = (upperNat t m : ℝ) / (scaleNat t m : ℝ) := by
    unfold upperNat scaleNat
    push_cast
    field_simp
    ring
  rw [e1, e2, div_pow]
  constructor
  · rw [div_lt_div_iff₀ hS (by positivity)]
    exact hlowR
  · rw [div_lt_div_iff₀ (by positivity) hS]
    exact hupR

/-- The thresholds `TMAX` are positive. -/
theorem TMAX_pos : ∀ m < 40, 0 < TMAX.getD m 0 := by decide

/-- The comparison at the boundary, from the comparison in integer arithmetic. -/
theorem boundary_of_check (m : Nat) (hm : m ≤ 39) (bound : Nat)
    (hchk : boundaryCheck bound m = true) :
    ∀ fuel : Nat, bound ≤ fuel → ∃ v : ℝ,
      fm (⟨Real.exp, Real.log, Real.sqrt, Real.rpow⟩ : LibM ℝ) fuel
        ((TMAX.getD m 0 : Int) : ℝ) m = some v ∧
      |v - fmasymptotic (⟨Real.exp, Real.log, Real.sqrt, Real.rpow⟩ : LibM ℝ)
          ((TMAX.getD m 0 : Int) : ℝ) m|
        < 1e-12 * fmasymptotic (⟨Real.exp, Real.log, Real.sqrt, Real.rpow⟩ : LibM ℝ)
          ((TMAX.getD m 0 : Int) : ℝ) m ∧
      |v - fmasymptotic (⟨Real.exp, Real.log, Real.sqrt, Real.rpow⟩ : LibM ℝ)
          ((TMAX.getD m 0 : Int) : ℝ) m| < 1e-12 * v := by
  intro fuel hfuel
  have hpos := TMAX_pos m (by omega)
  have hcastZ : (((TMAX.getD m 0).toNat : Nat) : Int) = TMAX.getD m 0 :=
    Int.toNat_of_nonneg (le_of_lt hpos)
  have hcast : ((TMAX.getD m 0 : Int) : ℝ) = (((TMAX.getD m 0).toNat : Nat) : ℝ) := by
    rw [← Int.cast_natCast, hcastZ]
  have ht : 0 < (TMAX.getD m 0).toNat := by omega
  unfold boundaryCheck at hchk
  generalize (TMAX.getD m 0).toNat = t at hchk hcast ht
  have htr : (0 : ℝ) < (t : ℝ) := by exact_mod_cast ht
  have he : 0 < (⟨Real.exp, Real.log, Real.sqrt, Real.rpow⟩ : LibM ℝ).exp (t : ℝ) :=
    Real.exp_pos _
  split at hchk
  · exact absurd hchk (by decide)
  · rename_i N P hstop
    simp only [Bool.and_eq_true, decide_eq_true_eq] at hchk
    obtain ⟨K, _, hKf, hK, hmin, hsum, hN, hP⟩ :=
      stopNat_spec (⟨Real.exp, Real.log, Real.sqrt, Real.rpow⟩ : LibM ℝ) t m he N P bound 0 1
        (2 * m + 1) 1 (seriesState_zero _ t m) hstop
    have hfm := fm_of_least (⟨Real.exp, Real.log, Real.sqrt, Real.rpow⟩ : LibM ℝ) (t : ℝ) m
      (TMAX.getD m 0) htr (TMAX_getElem m hm) (le_of_eq hcast.symm) K hK
      (fun j hj => hmin j (Nat.zero_le j) hj) fuel (by omega)
    rw [hcast, hfm, hsum, fmasymptotic_eq (t : ℝ) m htr, ← oddProduct_eq]
    refine ⟨_, rfl, ?_⟩
    have hNr : (0 : ℝ) < (N : ℝ) := by exact_mod_cast hN
    have hPr : (0 : ℝ) < (P : ℝ) := by exact_mod_cast hP
    have hD : (0 : ℝ) < (oddProduct m : ℝ) := by rw [oddProduct_eq]; exact oddProduct_pos m
    have hpi : (3.1415926535897932384626433832795 : ℝ) = (PI_NUM : ℝ) / (PI_DEN : ℝ) := by
      unfold PI_NUM PI_DEN
      norm_num
    have hq : (0 : ℝ) < 3.1415926535897932384626433832795 / (t : ℝ) := by positivity
    have hs : 0 < Real.sqrt (3.1415926535897932384626433832795 / (t : ℝ)) :=
      Real.sqrt_pos.mpr hq
    have hsq : Real.sqrt (3.1415926535897932384626433832795 / (t : ℝ)) ^ 2
        = (PI_NUM : ℝ) / (PI_DEN : ℝ) / (t : ℝ) := by
      rw [Real.sq_sqrt (le_of_lt hq), hpi]
    have hE : Real.exp (t : ℝ) = Real.exp 1 ^ t := by
      rw [← Real.exp_nat_mul, mul_one]
    have hsqb := sq_bounds_of_nat t m N P ht hP hchk.1 hchk.2
    have hbetween := between_of_sq ((oddProduct m : ℝ) / (2 * (t : ℝ)) ^ m / 2)
      (Real.sqrt (3.1415926535897932384626433832795 / (t : ℝ)))
      ((PI_NUM : ℝ) / (PI_DEN : ℝ) / (t : ℝ)) (Real.exp (t : ℝ)) ((N : ℝ) / (P : ℝ))
      (Real.exp 1) ((E_LOW : ℝ) / (E_DEN : ℝ)) ((E_HIGH : ℝ) / (E_DEN : ℝ))
      ((TOL_LOW : ℝ) / (TOL_DEN : ℝ)) ((TOL_HIGH : ℝ) / (TOL_DEN : ℝ)) t
      (by positivity) (le_of_lt hs) hsq (by positivity) (Real.exp_pos 1) hE
      (by unfold E_LOW E_DEN; positivity) exp_one_bounds.1 exp_one_bounds.2
      (by unfold TOL_LOW TOL_DEN; positivity) (by unfold TOL_HIGH TOL_DEN; positivity)
      hsqb.1 hsqb.2
    have hv : (N : ℝ) / ((P : ℝ) * Real.exp (t : ℝ)) = (N : ℝ) / (P : ℝ) / Real.exp (t : ℝ) := by
      rw [div_div]
    have hA : (oddProduct m : ℝ) / (2 * (t : ℝ)) ^ m
          * Real.sqrt (3.1415926535897932384626433832795 / (t : ℝ)) / 2
        = (oddProduct m : ℝ) / (2 * (t : ℝ)) ^ m / 2
          * Real.sqrt (3.1415926535897932384626433832795 / (t : ℝ)) := by ring
    have hApos : 0 < (oddProduct m : ℝ) / (2 * (t : ℝ)) ^ m / 2
          * Real.sqrt (3.1415926535897932384626433832795 / (t : ℝ)) := by positivity
    have hd1 : (TOL_LOW : ℝ) / (TOL_DEN : ℝ) = 1 - 1e-13 := by
      unfold TOL_LOW TOL_DEN; norm_num
    have hd2 : (TOL_HIGH : ℝ) / (TOL_DEN : ℝ) = 1 + 1e-13 := by
      unfold TOL_HIGH TOL_DEN; norm_num
    show |(N : ℝ) / ((P : ℝ) * Real.exp (t : ℝ)) - _| < _ ∧ _
    rw [hv, hA]
    rw [hd1, hd2] at hbetween
    obtain ⟨hlo, hhi⟩ := hbetween
    generalize (N : ℝ) / (P : ℝ) / Real.exp (t : ℝ) = v at hlo hhi ⊢
    generalize (oddProduct m : ℝ) / (2 * (t : ℝ)) ^ m / 2
      * Real.sqrt (3.1415926535897932384626433832795 / (t : ℝ)) = a at hlo hhi hApos ⊢
    constructor
    · rw [abs_lt]
      constructor <;> norm_num at hlo hhi ⊢ <;> linarith
    · rw [abs_lt]
      constructor <;> norm_num at hlo hhi ⊢ <;> linarith


/-- C14: boundary consistency, over the reals.  For every order `m` in `[0, 39]`, with
the real `exp`, `log` and `sqrt`, the call `fm(TMAX[m], m)` takes the series branch and
returns as soon as its loop is granted `200` iterations, and the returned value `v` and
the asymptotic value `a = fmasymptotic(TMAX[m], m)` differ by less than `1e-12` in
relative terms: `|v - a| < 1e-12 * a` and `|v - a| < 1e-12 * v`. -/
theorem fm_boundary (m : Nat) (hm : m ≤ 39) :
    ∀ fuel : Nat, 200 ≤ fuel → ∃ v : ℝ,
      fm (⟨Real.exp, Real.log, Real.sqrt, Real.rpow⟩ : LibM ℝ) fuel
        ((TMAX.getD m 0 : Int) : ℝ) m = some v ∧
      |v - fmasymptotic (⟨Real.exp, Real.log, Real.sqrt, Real.rpow⟩ : LibM ℝ)
          ((TMAX.getD m 0 : Int) : ℝ) m|
        < 1e-12 * fmasymptotic (⟨Real.exp, Real.log, Real.sqrt, Real.rpow⟩ : LibM ℝ)
          ((TMAX.getD m 0 : Int) : ℝ) m ∧
      |v - fmasymptotic (⟨Real.exp, Real.log, Real.sqrt, Real.rpow⟩ : LibM ℝ)
          ((TMAX.getD m 0 : Int) : ℝ) m| < 1e-12 * v :=
  boundary_of_check m hm 200 (boundaryCheck_all m (by omega))

theorem fm_boundary_witness :
    (0 : Nat) ≤ 39 ∧
    ∀ fuel : Nat, 200 ≤ fuel → ∃ v : ℝ,
      fm (⟨Real.exp, Real.log, Real.sqrt, Real.rpow⟩ : LibM ℝ) fuel
        ((TMAX.getD 0 0 : Int) : ℝ) 0 = some v ∧
      |v - fmasymptotic (⟨Real.exp, Real.log, Real.sqrt, Real.rpow⟩ : LibM ℝ)
          ((TMAX.getD 0 0 : Int) : ℝ) 0|
        < 1e-12 * fmasymptotic (⟨Real.exp, Real.log, Real.sqrt, Real.rpow⟩ : LibM ℝ)
          ((TMAX.getD 0 0 : Int) : ℝ) 0 ∧
      |v - fmasymptotic (⟨Real.exp, Real.log, Real.sqrt, Real.rpow⟩ : LibM ℝ)
          ((TMAX.getD 0 0 : Int) : ℝ) 0| < 1e-12 * v :=
  ⟨by decide, fm_boundary 0 (by decide)⟩

/-! ### The table written by `calcfmtable` -/

section
variable {α : Type} [LinearOrderedField α]

/-- Each term of the series is at most the first term times the term `T^k/k!` of the
exponential series. -/
theorem specSeriesTerm_le_first (lib : LibM α) (T : α) (m : Nat) (hT : 0 < T)
    (he : 0 < lib.exp T) : ∀ k : Nat,
    specSeriesTerm lib T m k
      ≤ specSeriesTerm lib T m 0 * (T ^ k / (Nat.factorial k : α)) := by
  have h0 := specSeriesTerm_pos lib T m hT he 0
  intro k
  induction k with
  | zero => simp
  | succ k ih =>
    have hm : (0 : α) ≤ (m : α) := Nat.cast_nonneg m
    have hk1 : (0 : α) < ((k + 1 : Nat) : α) := by exact_mod_cast Nat.succ_pos k
    have hd : ((k + 1 : Nat) : α) ≤ (m : α) + 0.5 + ((k + 1 : Nat) : α) := by
      norm_num
      linarith
    have hf : (0 : α) < (Nat.factorial k : α) := by exact_mod_cast Nat.factorial_pos k
    have hrhs : specSeriesTerm lib T m 0 * (T ^ (k + 1) / (Nat.factorial (k + 1) : α))
        = specSeriesTerm lib T m 0 * (T ^ k / (Nat.factorial k : α)) * T
          / ((k + 1 : Nat) : α) := by
      rw [Nat.factorial_succ, pow_succ]
      push_cast
      field_simp
      ring
    rw [hrhs, specSeriesTerm]
    have hB : (0 : α) ≤ specSeriesTerm lib T m 0 * (T ^ k / (Nat.factorial k : α)) * T := by
      positivity
    exact div_le_div₀ hB (mul_le_mul_of_nonneg_right ih (le_of_lt hT)) hk1 hd

set_option maxRecDepth 100000 in
/-- The factorial of `400` exceeds `114^400 * 10^15`. -/
theorem factorial_bound : 114 ^ 200 * 114 ^ 200 * 10 ^ 15 < Nat.factorial 400 := by decide

/-- For `0 < T ≤ 114` the stopping test of the loop of `fm` succeeds at the index
`399`. -/
theorem stop_at_399 (lib : LibM α) (T : α) (m : Nat) (hT : 0 < T) (hT114 : T ≤ 114)
    (he : 0 < lib.exp T) :
    |specSeriesTerm lib T m (399 + 1)| / specSeriesSum lib T m 399 < 1e-15 := by
  have h0 := specSeriesTerm_pos lib T m hT he 0
  have ht := specSeriesTerm_pos lib T m hT he (399 + 1)
  have hS := specSeriesSum_pos lib T m hT he 399
  have hge : specSeriesTerm lib T m 0 ≤ specSeriesSum lib T m 399 :=
    specSeriesSum_mono lib T m hT he 0 399
  have hle := specSeriesTerm_le_first lib T m hT he (399 + 1)
  have hpow : T ^ (399 + 1) ≤ (114 : α) ^ (399 + 1) := pow_le_pow_left₀ (le_of_lt hT) hT114 _
  have hf : (0 : α) < (Nat.factorial (399 + 1) : α) := by
    exact_mod_cast Nat.factorial_pos _
  have hnum : (114 : α) ^ (399 + 1) * 10 ^ 15 < (Nat.factorial (399 + 1) : α) := by
    have h := factorial_bound
    have e : (114 : α) ^ (399 + 1) = 114 ^ 200 * 114 ^ 200 := by rw [← pow_add]
    rw [e]
    exact_mod_cast h
  have hq : T ^ (399 + 1) / (Nat.factorial (399 + 1) : α) < 1e-15 := by
    rw [div_lt_iff₀ hf]
    have e15 : (1e-15 : α) = 1 / 10 ^ 15 := by norm_num
    rw [e15, one_div, inv_mul_eq_div, lt_div_iff₀ (by positivity)]
    calc T ^ (399 + 1) * 10 ^ 15 ≤ (114 : α) ^ (399 + 1) * 10 ^ 15 :=
          mul_le_mul_of_nonneg_right hpow (by positivity)
      _ < (Nat.factorial (399 + 1) : α) := hnum
  rw [abs_of_pos ht, div_lt_iff₀ hS]
  calc specSeriesTerm lib T m (399 + 1)
      ≤ specSeriesTerm lib T m 0 * (T ^ (399 + 1) / (Nat.factorial (399 + 1) : α)) := hle
    _ < specSeriesTerm lib T m 0 * 1e-15 := mul_lt_mul_of_pos_left hq h0
    _ = 1e-15 * specSeriesTerm lib T m 0 := mul_comm _ _
    _ ≤ 1e-15 * specSeriesSum lib T m 399 := mul_le_mul_of_nonneg_left hge (by norm_num)

/-- For `0 < T ≤ 114` the loop of `fm` stops at a least index, which is at most `399`. -/
theorem exists_least_stop_le (lib : LibM α) (T : α) (m : Nat) (hT : 0 < T)
    (hT114 : T ≤ 114) (he : 0 < lib.exp T) :
    ∃ K : Nat, K ≤ 399 ∧
      |specSeriesTerm lib T m (K + 1)| / specSeriesSum lib T m K < 1e-15 ∧
      ∀ j < K, ¬ |specSeriesTerm lib T m (j + 1)| / specSeriesSum lib T m j < 1e-15 := by
  classical
  have hex : ∃ K : Nat,
      |specSeriesTerm lib T m (K + 1)| / specSeriesSum lib T m K < 1e-15 :=
    ⟨399, stop_at_399 lib T m hT hT114 he⟩
  exact ⟨Nat.find hex, Nat.find_min' hex (stop_at_399 lib T m hT hT114 he),
    Nat.find_spec hex, fun j hj => Nat.find_min hex hj⟩

/-- At every grid point of the table the call of `fm` returns when its loop is granted
`400` iterations. -/
theorem fm_grid_returns (lib : LibM α) (hexp : ∀ T : α, 0 < lib.exp T) (fuel : Nat)
    (hfuel : 400 ≤ fuel) (t : Int) (m : Nat) (hm : m < 40) (h0 : 0 ≤ t)
    (ht : t ≤ TMAX.getD m 0 * 20) :
    ∃ v : α, fm lib fuel ((t : α) / 20.0) m = some v := by
  have h20 : (20.0 : α) = 20 := by norm_num
  rcases eq_or_lt_of_le h0 with hz | hpos
  · refine ⟨_, fm_of_nonpos lib fuel _ m ?_⟩
    rw [← hz]
    simp
  · have htr : (0 : α) < (t : α) := by exact_mod_cast hpos
    have hT : (0 : α) < (t : α) / 20.0 := by rw [h20]; positivity
    have hmax : (t : α) / 20.0 ≤ ((TMAX.getD m 0 : Int) : α) := by
      rw [h20, div_le_iff₀ (by norm_num)]
      exact_mod_cast ht
    have h114 : ((TMAX.getD m 0 : Int) : α) ≤ 114 := by
      exact_mod_cast (TMAX_le_114 m hm).2
    obtain ⟨K, hK399, hK, hmin⟩ :=
      exists_least_stop_le lib ((t : α) / 20.0) m hT (le_trans hmax h114) (hexp _)
    exact ⟨_, fm_of_least lib _ m _ hT (TMAX_getElem m (by omega)) hmax K hK hmin fuel
      (by omega)⟩

/-- The inner loop of `calcfmtable` returns when each of its calls of `fm` returns, and
each cell `(t, m)` with `Tidx ≤ t < Tidx + k` then holds the value of
`fm(((double)t) / 20.0, m)`. -/
theorem calcfmtableColumn_spec (lib : LibM α) (fuel m : Nat) (k : Nat) :
    ∀ (Tidx : Int) (F : Int → Nat → α),
      (∀ t : Int, Tidx ≤ t → t < Tidx + k → ∃ v, fm lib fuel ((t : α) / 20.0) m = some v) →
      ∃ F', calcfmtableColumn lib fuel m k Tidx F = some F' ∧
        ∀ t : Int, Tidx ≤ t → t < Tidx + k →
          fm lib fuel ((t : α) / 20.0) m = some (F' t m) := by
  induction k with
  | zero =>
    intro Tidx F _
    exact ⟨F, rfl, fun t h1 h2 => absurd h2 (by push_cast; omega)⟩
  | succ k ih =>
    intro Tidx F hfm
    obtain ⟨v, hv⟩ := hfm Tidx (le_refl _) (by push_cast; omega)
    obtain ⟨F', hF', hval⟩ := ih (Tidx + 1)
      (fun t j => if t = Tidx ∧ j = m then v else F t j)
      (fun t h1 h2 => hfm t (by omega) (by push_cast at h2 ⊢; omega))
    refine ⟨F', ?_, ?_⟩
    · rw [calcfmtableColumn, hv]
      exact hF'
    · intro t h1 h2
      rcases eq_or_lt_of_le h1 with heq | hlt
      · subst heq
        have hframe := calcfmtableColumn_frame lib fuel m k (Tidx + 1) _ F' hF' Tidx m
          (by omega)
        rw [hframe, if_pos ⟨rfl, rfl⟩]
        exact hv
      · exact hval t (by omega) (by push_cast at h2 ⊢; omega)

/-- The outer loop of `calcfmtable`, entered at the column `m`, leaves the columns below
`m` as they are. -/
theorem calcfmtableLoop_below (lib : LibM α) (fuel : Nat) (k : Nat) :
    ∀ (m : Nat) (F F' : Int → Nat → α), calcfmtableLoop lib fuel k m F = some F' →
      ∀ (t : Int) (j : Nat), j < m → F' t j = F t j := by
  induction k with
  | zero =>
    intro m F F' h t j _
    rw [calcfmtableLoop] at h
    rw [← Option.some.inj h]
  | succ k ih =>
    intro m F F' h t j hj
    rw [calcfmtableLoop] at h
    cases htm : TMAX[m]? with
    | none => rw [htm] at h; cases h
    | some tmax =>
      rw [htm] at h
      simp only [] at h
      cases hc : calcfmtableColumn lib fuel m (tmax * 20 + 1).toNat 0 F with
      | none => rw [hc] at h; cases h
      | some F1 =>
        rw [hc] at h
        simp only [] at h
        rw [ih (m + 1) F1 F' h t j (by omega)]
        exact calcfmtableColumn_frame lib fuel m _ 0 F F1 hc t j (by omega)

/-- The outer loop of `calcfmtable` returns when each of its calls of `fm` returns, and
each cell of the columns `m, ..., m + k - 1` then holds the value of `fm`. -/
theorem calcfmtableLoop_spec (lib : LibM α) (fuel : Nat) (k : Nat) :
    ∀ (m : Nat) (F : Int → Nat → α), m + k ≤ 40 →
      (∀ (t : Int) (j : Nat), (t, j) ∈ calcfmtableCells →
        ∃ v, fm lib fuel ((t : α) / 20.0) j = some v) →
      ∃ F', calcfmtableLoop lib fuel k m F = some F' ∧
        ∀ (t : Int) (j : Nat), (t, j) ∈ calcfmtableCells → m ≤ j → j < m + k →
          fm lib fuel ((t : α) / 20.0) j = some (F' t j) := by
  induction k with
  | zero =>
    intro m F _ _
    exact ⟨F, rfl, fun t j _ h1 h2 => absurd h2 (by omega)⟩
  | succ k ih =>
    intro m F hmk hfm
    have htm := TMAX_getElem m (by omega)
    have hpos := (TMAX_le_114 m (by omega)).1
    obtain ⟨F1, hF1, hval1⟩ := calcfmtableColumn_spec lib fuel m
      (TMAX.getD m 0 * 20 + 1).toNat 0 F
      (fun t h1 h2 => hfm t m ((mem_calcfmtableCells t m).mpr ⟨by omega, h1, by omega⟩))
    obtain ⟨F', hF', hval⟩ := ih (m + 1) F1 (by omega) hfm
    refine ⟨F', ?_, ?_⟩
    · rw [calcfmtableLoop, htm]
      simp only []
      rw [hF1]
      exact hF'
    · intro t j hmem h1 h2
      rcases eq_or_lt_of_le h1 with heq | hlt
      · subst heq
        obtain ⟨_, h0, ht⟩ := (mem_calcfmtableCells t m).mp hmem
        rw [calcfmtableLoop_below lib fuel k (m + 1) F1 F' hF' t m (by omega)]
        exact hval1 t h0 (by omega)
      · exact hval t j hmem (by omega) (by omega)

/-- The table `TMAX` is non-decreasing. -/
theorem TMAX_mono : ∀ j < 40, ∀ i < 40, i ≤ j → TMAX.getD i 0 ≤ TMAX.getD j 0 := by
  decide

/-- C22: table bounds.  `TMAX` is non-decreasing in `m`.  Every cell `(Tidx, m)` that
`calcfmtable` assigns, `m` in `[0, 39]` and `Tidx` in `0..20*TMAX[m]`, has a row index
below the row count `2281` and a column index below `40`; the largest assigned row
index is `20*TMAX[39] = 2280`.  When `exp` is positive and the loop of `fm` is granted
at least `400` iterations, `calcfmtable` returns, every assigned cell
`FMTABLE[Tidx][m]` holds the value of `fm(((double)Tidx) / 20.0, m)`, and every other
cell keeps its content. -/
theorem calcfmtable_bounds (lib : LibM α) (hexp : ∀ T : α, 0 < lib.exp T) (fuel : Nat)
    (hfuel : 400 ≤ fuel) (F : Int → Nat → α) :
    (∀ i j : Nat, i ≤ j → j ≤ 39 → TMAX.getD i 0 ≤ TMAX.getD j 0) ∧
    (∀ c ∈ calcfmtableCells,
      0 ≤ c.1 ∧ c.1 ≤ 20 * TMAX.getD c.2 0 ∧ c.1 ≤ 2280 ∧ c.1 < (FMTABLE_ROWS : Int) ∧
        c.2 < FMTABLE_COLS) ∧
    20 * TMAX.getD 39 0 = 2280 ∧ ((2280 : Int), 39) ∈ calcfmtableCells ∧
    ∃ F', calcfmtable lib fuel F = some F' ∧
      (∀ c ∈ calcfmtableCells, fm lib fuel ((c.1 : α) / 20.0) c.2 = some (F' c.1 c.2)) ∧
      ∀ (t : Int) (j : Nat), (t, j) ∉ calcfmtableCells → F' t j = F t j := by
  refine ⟨fun i j hij hj => TMAX_mono j (by omega) i (by omega) hij, ?_, by decide, ?_, ?_⟩
  · rintro ⟨t, j⟩ hc
    obtain ⟨hj, h0, ht⟩ := (mem_calcfmtableCells t j).mp hc
    have h114 := (TMAX_le_114 j hj).2
    have hrows : (FMTABLE_ROWS : Int) = 2281 := rfl
    have hcols : FMTABLE_COLS = 40 := rfl
    simp only []
    refine ⟨h0, by omega, by omega, by omega, by omega⟩
  · rw [mem_calcfmtableCells]
    exact ⟨by decide, by decide, by decide⟩
  · obtain ⟨F', hF', hval⟩ := calcfmtableLoop_spec lib fuel 40 0 F (by omega)
      (fun t j hmem => by
        obtain ⟨hj, h0, ht⟩ := (mem_calcfmtableCells t j).mp hmem
        exact fm_grid_returns lib hexp fuel hfuel t j hj h0 ht)
    refine ⟨F', hF', ?_, calcfmtable_frame lib fuel F F' hF'⟩
    rintro ⟨t, j⟩ hc
    obtain ⟨hj, _, _⟩ := (mem_calcfmtableCells t j).mp hc
    exact hval t j hc (Nat.zero_le j) (by omega)

end

theorem calcfmtable_bounds_witness :
    ((∀ T : ℝ, 0 < (⟨Real.exp, Real.log, Real.sqrt, Real.rpow⟩ : LibM ℝ).exp T) ∧
      400 ≤ 400) ∧
    ((∀ i j : Nat, i ≤ j → j ≤ 39 → TMAX.getD i 0 ≤ TMAX.getD j 0) ∧
    (∀ c ∈ calcfmtableCells,
      0 ≤ c.1 ∧ c.1 ≤ 20 * TMAX.getD c.2 0 ∧ c.1 ≤ 2280 ∧ c.1 < (FMTABLE_ROWS : Int) ∧
        c.2 < FMTABLE_COLS) ∧
    20 * TMAX.getD 39 0 = 2280 ∧ ((2280 : Int), 39) ∈ calcfmtableCells ∧
    ∃ F', calcfmtable (⟨Real.exp, Real.log, Real.sqrt, Real.rpow⟩ : LibM ℝ) 400
        (fun _ _ => 0) = some F' ∧
      (∀ c ∈ calcfmtableCells,
        fm (⟨Real.exp, Real.log, Real.sqrt, Real.rpow⟩ : LibM ℝ) 400 ((c.1 : ℝ) / 20.0) c.2
          = some (F' c.1 c.2)) ∧
      ∀ (t : Int) (j : Nat), (t, j) ∉ calcfmtableCells → F' t j = (fun _ _ => (0 : ℝ)) t j) :=
  ⟨⟨fun T => Real.exp_pos T, le_refl _⟩,
    calcfmtable_bounds (⟨Real.exp, Real.log, Real.sqrt, Real.rpow⟩ : LibM ℝ)
      (fun T => Real.exp_pos T) 400 (le_refl _) (fun _ _ => 0)⟩

/-- The point `T = 3/100` lies off the grid of the table: its row is `1` and the
expansion variable is `1/20 - 3/100 = 1/50`. -/
theorem cround_example :
    cround ((3 / 100 : ℚ) * 20) = 1 ∧ ((1 : Int) : ℚ) / 20 - 3 / 100 = 1 / 50 := by
  constructor
  · unfold cround
    rw [if_pos (by norm_num)]
    rw [Int.floor_eq_iff]
    constructor <;> norm_num
  · norm_num

theorem fmtaylor_formula_witness :
    ((0 : ℚ) ≤ 3 / 100 ∧ cround ((3 / 100 : ℚ) * 20) ≤ 2280 ∧ (3 : Nat) ≤ 32) ∧
    (fmtaylor (fun (t : Int) (j : Nat) => ((t : ℚ) + (j : ℚ))) (3 / 100) 3
      = some (∑ i in Finset.range 8,
          (fun (t : Int) (j : Nat) => ((t : ℚ) + (j : ℚ))) (cround ((3 / 100 : ℚ) * 20)) (3 + i)
            * (((cround ((3 / 100 : ℚ) * 20) : Int) : ℚ) / 20 - 3 / 100) ^ i
            / (Nat.factorial i : ℚ))
    ∧ (∀ i < 8, readFMTABLE (fun (t : Int) (j : Nat) => ((t : ℚ) + (j : ℚ)))
          (cround ((3 / 100 : ℚ) * 20)) (3 + i)
        = some ((fun (t : Int) (j : Nat) => ((t : ℚ) + (j : ℚ)))
            (cround ((3 / 100 : ℚ) * 20)) (3 + i)))
    ∧ |((cround ((3 / 100 : ℚ) * 20) : Int) : ℚ) - 3 / 100 * 20| ≤ 1 / 2) :=
  ⟨⟨by norm_num, by rw [cround_example.1]; decide, by decide⟩,
    fmtaylor_formula _ (3 / 100) 3 (by norm_num) (by rw [cround_example.1]; decide)
      (by decide)⟩

/-- The binary64 number nearest to `0.075` is `5404319552844595 / 2^56`.  For this `T`
the product `T * 20.0` rounds to `1.5`, so that `round` gives the row `2`, the quotient
`2 / 20.0` rounds to `7205759403792794 / 2^56`, and the difference `Tr - T` is
`1801439850948199 / 2^56`, which is larger than `1/40`. -/
theorem fmtaylorPoint64_example :
    binary64 (-4) (75 / 1000) = 5404319552844595 / 2 ^ 56 ∧
    binary64 0 (5404319552844595 / 2 ^ 56 * 20) = 3 / 2 ∧
    binary64 (-4) (2 / 20) = 7205759403792794 / 2 ^ 56 ∧
    binary64 (-6) (7205759403792794 / 2 ^ 56 - 5404319552844595 / 2 ^ 56)
      = 1801439850948199 / 2 ^ 56 ∧
    fmtaylorPoint64 0 (-4) (-6) (5404319552844595 / 2 ^ 56)
      = (2, 1801439850948199 / 2 ^ 56) := by
  have r1 : roundTiesEven (75 / 1000 / 2 ^ ((-4 : Int) - 52)) = 5404319552844595 := by
    have hf : Int.floor ((75 / 1000 / 2 ^ ((-4 : Int) - 52) : ℚ)) = 5404319552844595 := by
      rw [Int.floor_eq_iff]; constructor <;> norm_num
    unfold roundTiesEven
    rw [hf, if_pos (by norm_num)]
  have r2 : roundTiesEven (5404319552844595 / 2 ^ 56 * 20 / 2 ^ ((0 : Int) - 52))
      = 6755399441055744 := by
    have hf : Int.floor ((5404319552844595 / 2 ^ 56 * 20 / 2 ^ ((0 : Int) - 52) : ℚ))
        = 6755399441055743 := by
      rw [Int.floor_eq_iff]; constructor <;> norm_num
    unfold roundTiesEven
    rw [hf, if_neg (by norm_num), if_pos (by norm_num)]
    norm_num
  have r3 : roundTiesEven (2 / 20 / 2 ^ ((-4 : Int) - 52)) = 7205759403792794 := by
    have hf : Int.floor ((2 / 20 / 2 ^ ((-4 : Int) - 52) : ℚ)) = 7205759403792793 := by
      rw [Int.floor_eq_iff]; constructor <;> norm_num
    unfold roundTiesEven
    rw [hf, if_neg (by norm_num), if_pos (by norm_num)]
    norm_num
  have r4 : roundTiesEven
      ((7205759403792794 / 2 ^ 56 - 5404319552844595 / 2 ^ 56) / 2 ^ ((-6 : Int) - 52))
      = 7205759403792796 := by
    have hf : Int.floor (((7205759403792794 / 2 ^ 56 - 5404319552844595 / 2 ^ 56)
        / 2 ^ ((-6 : Int) - 52) : ℚ)) = 7205759403792796 := by
      rw [Int.floor_eq_iff]; constructor <;> norm_num
    unfold roundTiesEven
    rw [hf, if_pos (by norm_num)]
  have b1 : binary64 (-4) (75 / 1000) = 5404319552844595 / 2 ^ 56 := by
    unfold binary64; rw [r1]; norm_num
  have b2 : binary64 0 (5404319552844595 / 2 ^ 56 * 20) = 3 / 2 := by
    unfold binary64; rw [r2]; norm_num
  have b3 : binary64 (-4) (2 / 20) = 7205759403792794 / 2 ^ 56 := by
    unfold binary64; rw [r3]; norm_num
  have b4 : binary64 (-6) (7205759403792794 / 2 ^ 56 - 5404319552844595 / 2 ^ 56)
      = 1801439850948199 / 2 ^ 56 := by
    unfold binary64; rw [r4]; norm_num
  have c1 : cround (3 / 2 : ℚ) = 2 := by
    unfold cround
    rw [if_pos (by norm_num), Int.floor_eq_iff]
    constructor <;> norm_num
  refine ⟨b1, b2, b3, b4, ?_⟩
  unfold fmtaylorPoint64
  simp only [b2, c1]
  rw [show (((2 : Int) : ℚ) / 20) = 2 / 20 by norm_num, b3, b4]

/-- C17 as stated fails.  For the order `n = 33` the call `fmtaylor(0, 33)` reads
`FMTABLE[0][40]` outside of the table, for `T = 115` it reads the row `2300` outside of
the table, and for `T = 107374183` the rounded product `2147483660` is not representable
in an `int`: in these cases no value is returned.  With binary64 arithmetic, for
`T = 5404319552844595 / 2^56` (the number denoted by `0.075`) the expansion point is the
row `2` and `Tr - T = 1801439850948199 / 2^56` is larger than `1/40`, while the row stays
within `1/2` of the rounded product `1.5`. -/
theorem fmtaylor_fails :
    fmtaylor (fun (t : Int) (j : Nat) => ((t : ℚ) + (j : ℚ))) 0 33 = none ∧
    fmtaylor (fun (t : Int) (j : Nat) => ((t : ℚ) + (j : ℚ))) 115 0 = none ∧
    fmtaylor (fun (t : Int) (j : Nat) => ((t : ℚ) + (j : ℚ))) 107374183 0 = none ∧
    (0 : ℚ) ≤ 5404319552844595 / 2 ^ 56 ∧
    fmtaylorPoint64 0 (-4) (-6) (5404319552844595 / 2 ^ 56)
      = (2, 1801439850948199 / 2 ^ 56) ∧
    (1 / 40 : ℚ) < |1801439850948199 / 2 ^ 56| ∧
    |((2 : Int) : ℚ) - binary64 0 (5404319552844595 / 2 ^ 56 * 20)| ≤ 1 / 2 := by
  have c1 : cround ((115 : ℚ) * 20) = 2300 := by
    unfold cround
    rw [if_pos (by norm_num), Int.floor_eq_iff]
    constructor <;> norm_num
  have c2 : cround ((107374183 : ℚ) * 20) = 2147483660 := by
    unfold cround
    rw [if_pos (by norm_num), Int.floor_eq_iff]
    constructor <;> norm_num
  refine ⟨fmtaylor_column _ _ 33 (le_refl _), fmtaylor_row _ _ _ (by rw [c1]; decide),
    fmtaylor_row _ _ _ (by rw [c2]; decide), by positivity, fmtaylorPoint64_example.2.2.2.2,
    ?_, ?_⟩
  · rw [abs_of_pos (by positivity)]
    norm_num
  · rw [fmtaylorPoint64_example.2.1]
    rw [abs_le]
    constructor <;> norm_num

theorem fmasymptotic_closed_form_witness :
    (0 : ℝ) < 50 ∧
    (fmasymptotic (⟨Real.exp, Real.log, Real.sqrt, Real.rpow⟩ : LibM ℝ) 50 2
      = (∏ k in Finset.range 2, ((2 * k + 1 : Nat) : ℝ)) / (2 * 50) ^ 2
          * Real.sqrt (3.1415926535897932384626433832795 / 50) / 2 ∧
    |(3.1415926535897932384626433832795 : ℝ) - Real.pi| < 1e-20) :=
  ⟨by norm_num, fmasymptotic_closed_form 50 2 (by norm_num)⟩

theorem fmtaylor_cells_covered_witness :
    (0 ≤ 32 ∧ (0 : ℚ) ≤ 1 ∧ (1 : ℚ) ≤ ((TMAX.getD 0 0 : Int) : ℚ)) ∧
    ∀ c ∈ fmtaylorCells (1 : ℚ) 0,
      (0 ≤ c.1 ∧ c.1 < (FMTABLE_ROWS : Int) ∧ c.2 < FMTABLE_COLS) ∧
      c ∈ calcfmtableCells ∧ c.2 ≤ 39 ∧ c.1 ≤ 20 * TMAX.getD c.2 0 :=
  ⟨⟨by decide, by norm_num, by norm_num [TMAX]⟩,
    fmtaylor_cells_covered 1 0 (by decide) (by norm_num) (by norm_num [TMAX])⟩

/-- C15 (as stated) fails: for the order `n = 33` and `T = 0` (so `0 ≤ T ≤ TMAX[33]`),
the cell read by `fmtaylor(0, 33)` at `i = 7` is `FMTABLE[0][40]`: its column `40` is not
below the `40` columns of the table, it is not a cell assigned by `calcfmtable`, and
`n + i = 40` is not `≤ 39`. -/
theorem fmtaylor_cells_uncovered :
    (33 ≤ 39 ∧ (0 : ℚ) ≤ 0 ∧ (0 : ℚ) ≤ ((TMAX.getD 33 0 : Int) : ℚ)) ∧
    ((0 : Int), 40) ∈ fmtaylorCells (0 : ℚ) 33 ∧
    ¬ (40 < FMTABLE_COLS) ∧ ((0 : Int), 40) ∉ calcfmtableCells ∧ ¬ (40 ≤ 39) := by
  refine ⟨⟨by decide, le_refl _, by norm_num [TMAX]⟩, ?_, by decide, ?_, by decide⟩
  · unfold fmtaylorCells
    have h : cround ((0 : ℚ) * 20.0) = 0 := by
      unfold cround
      norm_num
    simp only [h]
    exact List.mem_map.mpr ⟨7, by decide, rfl⟩
  · rw [mem_calcfmtableCells]
    omega

theorem fm_series_witness :
    (0 ≤ 39 ∧ (0 : ℝ) < 1 ∧ (1 : ℝ) ≤ ((TMAX.getD 0 0 : Int) : ℝ)) ∧
    ∃ K : Nat,
      |specSeriesTerm (⟨Real.exp, Real.log, Real.sqrt, Real.rpow⟩ : LibM ℝ) 1 0 (K + 1)|
          / specSeriesSum (⟨Real.exp, Real.log, Real.sqrt, Real.rpow⟩ : LibM ℝ) 1 0 K
        < 1e-15 ∧
      (∀ j < K,
        ¬ |specSeriesTerm (⟨Real.exp, Real.log, Real.sqrt, Real.rpow⟩ : LibM ℝ) 1 0 (j + 1)|
            / specSeriesSum (⟨Real.exp, Real.log, Real.sqrt, Real.rpow⟩ : LibM ℝ) 1 0 j
          < 1e-15) ∧
      (∀ fuel : Nat, K < fuel →
        fm (⟨Real.exp, Real.log, Real.sqrt, Real.rpow⟩ : LibM ℝ) fuel 1 0
          = some (specSeriesSum (⟨Real.exp, Real.log, Real.sqrt, Real.rpow⟩ : LibM ℝ) 1 0 K)) ∧
      0 < specSeriesSum (⟨Real.exp, Real.log, Real.sqrt, Real.rpow⟩ : LibM ℝ) 1 0 K :=
  ⟨⟨by decide, one_pos, by norm_num [TMAX]⟩,
    fm_series 1 0 (by decide) one_pos (by norm_num [TMAX])⟩

end Fmgamma

/-! ## Theorems: the jellium model -/

namespace Jellium

theorem sectorSize_nonneg {α : Type} (J : State α) (virt : Bool) (hocc : 0 ≤ J.nocc)
    (hnorb : J.nocc ≤ J.norb) : 0 ≤ sectorSize J virt := by
  unfold sectorSize
  split <;> omega

theorem sectorSize_shift {α : Type} (J : State α) (virt : Bool) (hocc : 0 ≤ J.nocc)
    (hnorb : J.nocc ≤ J.norb) (x : Int) (h0 : 0 ≤ x) (hx : x < sectorSize J virt) :
    0 ≤ (if virt then x + J.nocc else x) ∧ (if virt then x + J.nocc else x) < J.norb := by
  unfold sectorSize at hx
  cases virt
  · simp only [Bool.false_eq_true, if_false] at hx ⊢
    omega
  · simp only [if_true] at hx ⊢
    omega

/-- The key of an entry of a block decomposes into the four positions inside the
sectors, and `orbitalIndices` returns these positions shifted by `nocc` in the virtual
sectors. -/
theorem orbitalIndices_of_valid {α : Type} (J : State α) (pvirt qvirt rvirt svirt : Bool) (k : Int)
    (hocc : 0 ≤ J.nocc) (hnorb : J.nocc ≤ J.norb) (hint : J.norb ≤ INT_MAX) (h0 : 0 ≤ k)
    (hk : k < sectorSize J pvirt * sectorSize J qvirt * sectorSize J rvirt
      * sectorSize J svirt) :
    ∃ p q r s : Int,
      (0 ≤ p ∧ p < sectorSize J pvirt) ∧ (0 ≤ q ∧ q < sectorSize J qvirt) ∧
      (0 ≤ r ∧ r < sectorSize J rvirt) ∧ (0 ≤ s ∧ s < sectorSize J svirt) ∧
      k = p + sectorSize J pvirt * (q + sectorSize J qvirt * (r + sectorSize J rvirt * s)) ∧
      orbitalIndices J pvirt qvirt rvirt svirt k
        = some (if pvirt then p + J.nocc else p, if qvirt then q + J.nocc else q,
            if rvirt then r + J.nocc else r, if svirt then s + J.nocc else s) := by
  have hp0 := sectorSize_nonneg J pvirt hocc hnorb
  have hq0 := sectorSize_nonneg J qvirt hocc hnorb
  have hr0 := sectorSize_nonneg J rvirt hocc hnorb
  have hs0 := sectorSize_nonneg J svirt hocc hnorb
  have hsle : sectorSize J svirt ≤ J.norb := by
    unfold sectorSize; split <;> omega
  unfold orbitalIndices
  simp only []
  generalize sectorSize J pvirt = np at *
  generalize sectorSize J qvirt = nq at *
  generalize sectorSize J rvirt = nr at *
  generalize sectorSize J svirt = ns at *
  have hprod : 0 < np * nq * nr * ns := by omega
  have hnp : 0 < np := by
    rcases eq_or_lt_of_le hp0 with h | h
    · rw [← h] at hprod; simp at hprod
    · exact h
  have hnq : 0 < nq := by
    rcases eq_or_lt_of_le hq0 with h | h
    · rw [← h] at hprod; simp at hprod
    · exact h
  have hnr : 0 < nr := by
    rcases eq_or_lt_of_le hr0 with h | h
    · rw [← h] at hprod; simp at hprod
    · exact h
  have k1nn : 0 ≤ k / np := Int.ediv_nonneg h0 hp0
  have k2nn : 0 ≤ k / np / nq := Int.ediv_nonneg k1nn hq0
  have k3nn : 0 ≤ k / np / nq / nr := Int.ediv_nonneg k2nn hr0
  have k1lt : k / np < nq * nr * ns :=
    Int.ediv_lt_of_lt_mul hnp (by rw [show nq * nr * ns * np = np * nq * nr * ns by ring]; exact hk)
  have k2lt : k / np / nq < nr * ns :=
    Int.ediv_lt_of_lt_mul hnq (by rw [show nr * ns * nq = nq * nr * ns by ring]; exact k1lt)
  have k3lt : k / np / nq / nr < ns :=
    Int.ediv_lt_of_lt_mul hnr (by rw [show ns * nr = nr * ns by ring]; exact k2lt)
  have e1 := Int.emod_add_ediv k np
  have e2 := Int.emod_add_ediv (k / np) nq
  have e3 := Int.emod_add_ediv (k / np / nq) nr
  have hA : INT_MAX = 2147483647 := rfl
  have hnarrow : narrow32 (k / np / nq / nr) = k / np / nq / nr := by
    unfold narrow32
    omega
  have hne : ¬ (np = 0 ∨ nq = 0 ∨ nr = 0) := by omega
  refine ⟨k % np, k / np % nq, k / np / nq % nr, k / np / nq / nr,
    ⟨Int.emod_nonneg _ (by omega), Int.emod_lt_of_pos _ hnp⟩,
    ⟨Int.emod_nonneg _ (by omega), Int.emod_lt_of_pos _ hnq⟩,
    ⟨Int.emod_nonneg _ (by omega), Int.emod_lt_of_pos _ hnr⟩,
    ⟨k3nn, k3lt⟩, ?_, ?_⟩
  · rw [e3, e2, e1]
  · rw [if_neg hne]
    rw [Int.tmod_eq_emod h0 hp0, Int.tdiv_eq_ediv h0 hp0, Int.tmod_eq_emod k1nn hq0,
      Int.tdiv_eq_ediv k1nn hq0, Int.tmod_eq_emod k2nn hr0, Int.tdiv_eq_ediv k2nn hr0,
      hnarrow]

/-! ### The integer lattice -/

theorem mem_axis (r : Nat) (x : Int) : x ∈ axis r ↔ -(r : Int) ≤ x ∧ x ≤ (r : Int) := by
  unfold axis
  rw [List.mem_map]
  constructor
  · rintro ⟨i, hi, rfl⟩
    have := List.mem_range.mp hi
    constructor <;> omega
  · rintro ⟨h1, h2⟩
    exact ⟨(x + r).toNat, List.mem_range.mpr (by omega), by omega⟩

theorem nodup_axis (r : Nat) : (axis r).Nodup := by
  unfold axis
  refine List.Nodup.map ?_ (List.nodup_range _)
  intro a b h
  simp only at h
  omega

/-- A component of an integer vector shorter than `r` lies between `-r` and `r`. -/
theorem abs_le_of_sq_lt (r : Nat) (x n : Int) (hx : x * x ≤ n) (hn : n < (r : Int) * r) :
    -(r : Int) ≤ x ∧ x ≤ (r : Int) := by
  have hr : (0 : Int) ≤ (r : Int) := Int.natCast_nonneg r
  constructor
  · by_contra h
    have h1 : x < -(r : Int) := not_le.mp h
    nlinarith
  · by_contra h
    have h1 : (r : Int) < x := not_le.mp h
    nlinarith

/-- The vectors selected for the radius `r` are the integer vectors of squared length
below `r*r`. -/
theorem mem_latticeInt (r : Nat) (v : Int × Int × Int) :
    v ∈ latticeInt r ↔ normSq v < (r : Int) * r := by
  obtain ⟨x, y, z⟩ := v
  unfold latticeInt normSq
  simp only [List.mem_flatMap, mem_axis]
  constructor
  · rintro ⟨a, _, b, _, c, _, h⟩
    split at h
    · rename_i hlt
      rw [List.mem_singleton] at h
      obtain ⟨rfl, rfl, rfl⟩ : x = a ∧ y = b ∧ z = c := by simpa using h
      exact hlt
    · simp at h
  · intro h
    have hx := abs_le_of_sq_lt r x _ (by nlinarith [mul_self_nonneg y, mul_self_nonneg z]) h
    have hy := abs_le_of_sq_lt r y _ (by nlinarith [mul_self_nonneg x, mul_self_nonneg z]) h
    have hz := abs_le_of_sq_lt r z _ (by nlinarith [mul_self_nonneg x, mul_self_nonneg y]) h
    refine ⟨x, hx, y, hy, z, hz, ?_⟩
    rw [if_pos h]
    exact List.mem_singleton.mpr rfl

/-- The vectors selected for a radius are pairwise distinct. -/
theorem nodup_latticeInt (r : Nat) : (latticeInt r).Nodup := by
  unfold latticeInt
  rw [List.nodup_flatMap]
  refine ⟨fun x _ => ?_, ?_⟩
  · rw [List.nodup_flatMap]
    refine ⟨fun y _ => ?_, ?_⟩
    · rw [List.nodup_flatMap]
      refine ⟨fun z _ => ?_, ?_⟩
      · split
        · exact List.nodup_singleton _
        · exact List.nodup_nil
      · refine List.Nodup.pairwise_of_forall_ne (nodup_axis r) ?_
        intro a _ b _ hab
        intro v hva hvb
        beta_reduce at hva hvb
        split at hva <;> split at hvb <;> simp_all
    · refine List.Nodup.pairwise_of_forall_ne (nodup_axis r) ?_
      intro a _ b _ hab
      intro v hva hvb
      simp only [List.mem_flatMap] at hva hvb
      obtain ⟨z1, _, h1⟩ := hva
      obtain ⟨z2, _, h2⟩ := hvb
      split at h1 <;> split at h2 <;> simp_all
  · refine List.Nodup.pairwise_of_forall_ne (nodup_axis r) ?_
    intro a _ b _ hab
    intro v hva hvb
    simp only [List.mem_flatMap] at hva hvb
    obtain ⟨y1, _, z1, _, h1⟩ := hva
    obtain ⟨y2, _, z2, _, h2⟩ := hvb
    split at h1 <;> split at h2 <;> simp_all

theorem normSq_neg (v : Int × Int × Int) : normSq (-v) = normSq v := by
  obtain ⟨x, y, z⟩ := v
  simp only [normSq, Prod.neg_mk]
  ring

/-- A rearrangement of an image list is the image of a rearrangement. -/
theorem perm_map_inv {β γ : Type} (g : β → γ) :
    ∀ (c : List γ) (l : List β), List.Perm c (l.map g) →
      ∃ l' : List β, List.Perm l' l ∧ c = l'.map g := by
  intro c l h
  generalize hb : l.map g = b at h
  induction h generalizing l with
  | nil =>
    refine ⟨[], ?_, rfl⟩
    have : l = [] := List.map_eq_nil_iff.mp hb
    rw [this]
  | cons x _ ih =>
    obtain ⟨y, l0, rfl, rfl, rfl⟩ := List.map_eq_cons_iff.mp hb
    obtain ⟨l', hp, rfl⟩ := ih l0 rfl
    exact ⟨y :: l', hp.cons y, rfl⟩
  | swap x y t =>
    obtain ⟨a, l0, rfl, rfl, h0⟩ := List.map_eq_cons_iff.mp hb
    obtain ⟨b', l1, rfl, rfl, rfl⟩ := List.map_eq_cons_iff.mp h0
    exact ⟨b' :: a :: l1, List.Perm.swap _ _ _, rfl⟩
  | trans _ _ ih1 ih2 =>
    obtain ⟨l2, hp2, rfl⟩ := ih2 l hb
    obtain ⟨l1, hp1, rfl⟩ := ih1 l2 rfl
    exact ⟨l1, hp1.trans hp2, rfl⟩

section
variable {α : Type} [LinearOrderedField α]

theorem sqrt_zero (lib : LibM α) (h : IsSqrt lib) : lib.sqrt 0 = 0 := by
  have h0 := (h 0 (le_refl 0)).2
  exact mul_self_eq_zero.mp h0

theorem sqrt_one (lib : LibM α) (h : IsSqrt lib) : lib.sqrt 1 = 1 := by
  obtain ⟨h0, h1⟩ := h 1 zero_le_one
  have := (mul_self_eq_one_iff.mp h1)
  rcases this with h2 | h2
  · exact h2
  · rw [h2] at h0
    linarith

/-- On non-negative integers, `sqrt(n) < r` amounts to `n < r*r`. -/
theorem sqrt_lt_iff (lib : LibM α) (h : IsSqrt lib) (n r : Int) (hn : 0 ≤ n) (hr : 0 ≤ r) :
    lib.sqrt (n : α) < (r : α) ↔ n < r * r := by
  obtain ⟨h0, h1⟩ := h (n : α) (by exact_mod_cast hn)
  have hr' : (0 : α) ≤ (r : α) := by exact_mod_cast hr
  rw [mul_self_lt_mul_self_iff h0 hr', h1]
  exact_mod_cast Iff.rfl

/-- On non-negative integers, `sqrt` is monotone. -/
theorem sqrt_le_sqrt (lib : LibM α) (h : IsSqrt lib) (a b : Int) (ha : 0 ≤ a) (hb : 0 ≤ b)
    (hab : a ≤ b) : lib.sqrt (a : α) ≤ lib.sqrt (b : α) := by
  obtain ⟨a0, a1⟩ := h (a : α) (by exact_mod_cast ha)
  obtain ⟨b0, b1⟩ := h (b : α) (by exact_mod_cast hb)
  rw [mul_self_le_mul_self_iff a0 b0, a1, b1]
  exact_mod_cast hab

theorem normSq_nonneg (v : Int × Int × Int) : 0 ≤ normSq v := by
  unfold normSq
  nlinarith [mul_self_nonneg v.1, mul_self_nonneg v.2.1, mul_self_nonneg v.2.2]

/-- With an exact `sqrt` the candidates of the radius `r` are the integer vectors of
`latticeInt r`, each with the square root of its squared length. -/
theorem lattice_eq (lib : LibM α) (h : IsSqrt lib) (r : Nat) :
    lattice lib r
      = (latticeInt r).map (fun v => (lib.sqrt ((normSq v : Int) : α), (toVec v : vec3 α))) := by
  unfold lattice latticeInt
  simp only [List.map_flatMap]
  refine List.flatMap_congr ?_
  intro x _
  refine List.flatMap_congr ?_
  intro y _
  refine List.flatMap_congr ?_
  intro z _
  have hn : 0 ≤ x * x + y * y + z * z := normSq_nonneg (x, y, z)
  have hiff := sqrt_lt_iff lib h (x * x + y * y + z * z) (r : Int) hn (by omega)
  by_cases hlt : x * x + y * y + z * z < (r : Int) * (r : Int)
  · rw [if_pos (hiff.mpr hlt), if_pos hlt]
    rfl
  · rw [if_neg (fun hc => hlt (hiff.mp hc)), if_neg hlt]
    rfl

theorem latticeInt_zero : latticeInt 0 = [] := by decide

theorem latticeInt_one : latticeInt 1 = [(0, 0, 0)] := by decide

/-- The search loop started at radius `0` skips every radius with fewer than `norb`
candidates. -/
theorem search_skip (lib : LibM α) (norb : Int) (fuel r : Nat)
    (h : ((lattice lib r).length : Int) < norb) :
    search lib norb (fuel + 1) r = search lib norb fuel (r + 1) := by
  rw [search]
  simp only [ge_iff_le]
  rw [if_neg (by omega)]

/-- The search loop stops at the first radius with at least `norb` candidates. -/
theorem search_stop (lib : LibM α) (norb : Int) (fuel r : Nat)
    (h : norb ≤ ((lattice lib r).length : Int)) :
    search lib norb (fuel + 1) r = .ok (lattice lib r) := by
  rw [search]
  simp only [ge_iff_le]
  rw [if_pos h]

/-- For `num_orbitals = 1` the search stops at the radius `1` with the single vector
`(0, 0, 0)`. -/
theorem search_one (lib : LibM α) (h : IsSqrt lib) (fuel : Nat) :
    search lib 1 (fuel + 2) 0 = .ok [(lib.sqrt ((0 : Int) : α), (toVec (0, 0, 0) : vec3 α))] := by
  have h0 : lattice lib 0 = [] := by rw [lattice_eq lib h, latticeInt_zero]; rfl
  have h1 : lattice lib 1 = [(lib.sqrt ((0 : Int) : α), (toVec (0, 0, 0) : vec3 α))] := by
    rw [lattice_eq lib h, latticeInt_one]; rfl
  rw [search_skip lib 1 (fuel + 1) 0 (by rw [h0]; simp),
    search_stop lib 1 fuel 1 (by rw [h1]; simp), h1]

/-- For every `Util` that sorts, the sorted lengths `glen` of candidates given by integer
vectors are the square roots of the sorted squared lengths. -/
theorem cosort_keys (lib : LibM α) (U : Util α) (hs : IsSqrt lib) (hU : Sorts U)
    (vs : List (Int × Int × Int)) :
    (U.cosort (vs.map (fun v => (lib.sqrt ((normSq v : Int) : α), (toVec v : vec3 α))))).map
        Prod.fst
      = ((vs.map normSq).insertionSort (· ≤ ·)).map (fun n => lib.sqrt ((n : Int) : α)) := by
  obtain ⟨hperm, hsorted⟩ :=
    hU (vs.map (fun v => (lib.sqrt ((normSq v : Int) : α), (toVec v : vec3 α))))
  have hmem : ∀ n ∈ (vs.map normSq).insertionSort (· ≤ ·), (0 : Int) ≤ n := by
    intro n hn
    have hn' := (List.perm_insertionSort (· ≤ ·) (vs.map normSq)).subset hn
    obtain ⟨v, _, rfl⟩ := List.mem_map.mp hn'
    exact normSq_nonneg v
  haveI : IsAntisymm α (fun x1 x2 => x1 ≤ x2) := ⟨fun _ _ => le_antisymm⟩
  refine List.eq_of_perm_of_sorted (r := fun x1 x2 => x1 ≤ x2) ?_ ?_ ?_
  · refine (hperm.map Prod.fst).trans ?_
    rw [List.map_map]
    have e : (Prod.fst ∘ fun v : Int × Int × Int =>
          (lib.sqrt ((normSq v : Int) : α), (toVec v : vec3 α)))
        = (fun n : Int => lib.sqrt ((n : Int) : α)) ∘ normSq := rfl
    rw [e, ← List.map_map]
    exact ((List.perm_insertionSort (· ≤ ·) (vs.map normSq)).map _).symm
  · exact List.pairwise_map.mpr hsorted
  · refine List.pairwise_map.mpr ?_
    refine List.Pairwise.imp_of_mem ?_ (List.sorted_insertionSort (· ≤ ·) (vs.map normSq))
    intro a b ha hb hab
    exact sqrt_le_sqrt lib hs a b (hmem a ha) (hmem b hb) hab

theorem latticeInt_two_length : (latticeInt 2).length = 27 := by decide

theorem latticeInt_two_sorted :
    ((latticeInt 2).map normSq).insertionSort (· ≤ ·)
      = [0, 1, 1, 1, 1, 1, 1, 2, 2, 2, 2, 2, 2, 2, 2, 2, 2, 2, 2, 3, 3, 3, 3, 3, 3, 3, 3] := by
  decide

/-- For `num_orbitals = 2` the search stops at the radius `2`, with `27` candidates. -/
theorem search_two (lib : LibM α) (h : IsSqrt lib) (fuel : Nat) :
    search lib 2 (fuel + 3) 0
      = .ok ((latticeInt 2).map
          (fun v => (lib.sqrt ((normSq v : Int) : α), (toVec v : vec3 α)))) := by
  have h0 : (lattice lib 0).length = 0 := by rw [lattice_eq lib h, latticeInt_zero]; rfl
  have h1 : (lattice lib 1).length = 1 := by rw [lattice_eq lib h, latticeInt_one]; rfl
  have h2 : (lattice lib 2).length = 27 := by
    rw [lattice_eq lib h, List.length_map, latticeInt_two_length]
  rw [search_skip lib 2 (fuel + 2) 0 (by rw [h0]; simp),
    search_skip lib 2 (fuel + 1) 1 (by rw [h1]; simp),
    search_stop lib 2 fuel 2 (by rw [h2]; simp), lattice_eq lib h]

/-- The basis construction for two orbitals returns the `27` sorted candidates of the
radius `2`. -/
theorem basis_two (lib : LibM α) (U : Util α) (hs : IsSqrt lib) (fuel : Nat) :
    basis lib U (fuel + 3) 2
      = .ok (U.cosort ((latticeInt 2).map
          (fun v => (lib.sqrt ((normSq v : Int) : α), (toVec v : vec3 α))))) := by
  unfold basis
  rw [search_two lib hs fuel]

/-- The cut after two of the `27` sorted candidates falls inside the group of the six
vectors of length `sqrt(1)`; the cut after one of them does not. -/
theorem gap_two (lib : LibM α) (U : Util α) (hs : IsSqrt lib) (hU : Sorts U) :
    gap ((U.cosort ((latticeInt 2).map
      (fun v => (lib.sqrt ((normSq v : Int) : α), (toVec v : vec3 α))))).map Prod.fst) 2
        = .ok false ∧
    gap ((U.cosort ((latticeInt 2).map
      (fun v => (lib.sqrt ((normSq v : Int) : α), (toVec v : vec3 α))))).map Prod.fst) 1
        = .ok true := by
  have hkeys := cosort_keys lib U hs hU (latticeInt 2)
  rw [latticeInt_two_sorted] at hkeys
  rw [hkeys]
  constructor
  · simp [gap, subscript]
    norm_num
  · simp [gap, subscript, sqrt_zero lib hs, sqrt_one lib hs]
    norm_num

/-- The run for two orbitals fails the assertion of line 124. -/
theorem run_two_orbitals (lib : LibM α) (U : Util α) (hs : IsSqrt lib) (hU : Sorts U)
    (fuel : Nat) (nelec : Int) (radius : α) :
    run lib U (fuel + 3) ⟨nelec, 2, radius, 3⟩ = .error (.assertion 124) := by
  have hlen : (U.cosort ((latticeInt 2).map
      (fun v => (lib.sqrt ((normSq v : Int) : α), (toVec v : vec3 α))))).length = 27 := by
    rw [(hU _).1.length_eq, List.length_map, latticeInt_two_length]
  unfold run
  simp only [ne_eq, not_true_eq_false, if_false]
  rw [basis_two lib U hs fuel]
  simp only [bind, Except.bind]
  rw [(gap_two lib U hs hU).1]
  simp [hlen, pure, Except.pure, throw, throwThe, MonadExceptOf.throw]

/-- The basis construction for one orbital returns the vector `(0, 0, 0)`. -/
theorem basis_one (lib : LibM α) (U : Util α) (hs : IsSqrt lib) (hU : Sorts U)
    (fuel : Nat) :
    basis lib U (fuel + 2) 1
      = .ok [(lib.sqrt ((0 : Int) : α), (toVec (0, 0, 0) : vec3 α))] := by
  have hperm := (hU [(lib.sqrt ((0 : Int) : α), (toVec (0, 0, 0) : vec3 α))]).1
  have hc := List.perm_singleton.mp hperm
  unfold basis
  rw [search_one lib hs fuel]
  simp only []
  rw [hc]

/-- The run for one orbital and `nocc = 0` fails the assertion of line 128. -/
theorem run_one_orbital (lib : LibM α) (U : Util α) (hs : IsSqrt lib) (hU : Sorts U)
    (fuel : Nat) (nelec : Int) (radius : α) (h : Int.tdiv nelec 2 = 0) :
    run lib U (fuel + 2) ⟨nelec, 1, radius, 3⟩ = .error (.assertion 128) := by
  unfold run
  simp only [ne_eq, not_true_eq_false, if_false]
  rw [basis_one lib U hs hU fuel]
  simp [h, bind, Except.bind, pure, Except.pure, throw, throwThe, MonadExceptOf.throw]

/-- Whatever the iteration bound, the run for two orbitals does not return. -/
theorem run_two_orbitals_ne_ok (lib : LibM α) (U : Util α) (hs : IsSqrt lib) (hU : Sorts U)
    (fuel : Nat) (nelec : Int) (radius : α) (out : Output α) :
    run lib U fuel ⟨nelec, 2, radius, 3⟩ ≠ .ok out := by
  have h0 : (lattice lib 0).length = 0 := by rw [lattice_eq lib hs, latticeInt_zero]; rfl
  have h1 : (lattice lib 1).length = 1 := by rw [lattice_eq lib hs, latticeInt_one]; rfl
  rcases Nat.lt_or_ge fuel 3 with hlt | hge
  · have hsearch : search lib 2 fuel 0 = .error .fuel := by
      interval_cases fuel
      · rfl
      · rw [search_skip lib 2 0 0 (by rw [h0]; simp)]; rfl
      · rw [search_skip lib 2 1 0 (by rw [h0]; simp),
          search_skip lib 2 0 1 (by rw [h1]; simp)]; rfl
    unfold run basis
    simp only [ne_eq, not_true_eq_false, if_false]
    rw [hsearch]
    simp [bind, Except.bind, pure, Except.pure]
  · obtain ⟨f, rfl⟩ : ∃ f, fuel = f + 3 := ⟨fuel - 3, by omega⟩
    rw [run_two_orbitals lib U hs hU f nelec radius]
    exact fun h => Except.noConfusion h

/-- Whatever the iteration bound, the run for one orbital and `nocc = 0` does not
return. -/
theorem run_one_orbital_ne_ok (lib : LibM α) (U : Util α) (hs : IsSqrt lib) (hU : Sorts U)
    (fuel : Nat) (nelec : Int) (radius : α) (h : Int.tdiv nelec 2 = 0) (out : Output α) :
    run lib U fuel ⟨nelec, 1, radius, 3⟩ ≠ .ok out := by
  have h0 : (lattice lib 0).length = 0 := by rw [lattice_eq lib hs, latticeInt_zero]; rfl
  rcases Nat.lt_or_ge fuel 2 with hlt | hge
  · have hsearch : search lib 1 fuel 0 = .error .fuel := by
      interval_cases fuel
      · rfl
      · rw [search_skip lib 1 0 0 (by rw [h0]; simp)]; rfl
    unfold run basis
    simp only [ne_eq, not_true_eq_false, if_false]
    rw [hsearch]
    simp [bind, Except.bind, pure, Except.pure]
  · obtain ⟨f, rfl⟩ : ∃ f, fuel = f + 2 := ⟨fuel - 2, by omega⟩
    rw [run_one_orbital lib U hs hU f nelec radius h]
    exact fun h => Except.noConfusion h

/-- The square root of the real numbers has the property `IsSqrt`. -/
theorem isSqrt_real : IsSqrt (⟨Real.exp, Real.log, Real.sqrt, Real.rpow⟩ : LibM ℝ) :=
  fun x hx => ⟨Real.sqrt_nonneg x, Real.mul_self_sqrt hx⟩

/-- The insertion sort by length has the property `Sorts`. -/
theorem sorts_referenceUtil : Sorts (referenceUtil : Util α) := by
  intro l
  haveI : IsTotal (α × vec3 α) (fun a b => a.1 ≤ b.1) := ⟨fun a b => le_total a.1 b.1⟩
  haveI : IsTrans (α × vec3 α) (fun a b => a.1 ≤ b.1) := ⟨fun _ _ _ h1 h2 => le_trans h1 h2⟩
  exact ⟨List.perm_insertionSort _ l, List.sorted_insertionSort _ l⟩

/-- C9 (amended): for a single-orbital basis (`num_orbitals = 1`, `dimension = 3`) and an
electron count with `nocc = num_electrons/2 = 0`, the run does not complete: the basis
construction succeeds and the assertion `0 < nocc && nocc <= norb` of line 128 fails,
so no energy is put out. -/
theorem run_nocc_zero (lib : LibM α) (U : Util α) (hs : IsSqrt lib) (hU : Sorts U)
    (fuel : Nat) (nelec : Int) (radius : α) (h : Int.tdiv nelec 2 = 0) :
    (∃ c, basis lib U (fuel + 2) 1 = .ok c ∧ c.length = 1) ∧
    run lib U (fuel + 2) ⟨nelec, 1, radius, 3⟩ = .error (.assertion 128) :=
  ⟨⟨_, basis_one lib U hs hU fuel, rfl⟩, run_one_orbital lib U hs hU fuel nelec radius h⟩

/-- C8 (amended): with `num_electrons = 2`, `num_orbitals = 2`, `dimension = 3` and any
`radius`, the basis construction finds `27` candidates at the lattice radius `2`, and
the first non-degeneracy check fails: the cut after the `2` lowest-length vectors
falls inside the group of equal lengths (`glen[1] = glen[2]`), so the run fails at the
assertion of line 124 and returns no energy.  The cut after `nocc = 1` does not fall
inside a group of equal lengths. -/
theorem run_scenario_two (lib : LibM α) (U : Util α) (hs : IsSqrt lib) (hU : Sorts U)
    (fuel : Nat) (radius : α) :
    (∃ c, basis lib U (fuel + 3) 2 = .ok c ∧ c.length = 27 ∧
      gap (c.map Prod.fst) 2 = .ok false ∧ gap (c.map Prod.fst) 1 = .ok true) ∧
    run lib U (fuel + 3) ⟨2, 2, radius, 3⟩ = .error (.assertion 124) := by
  refine ⟨⟨_, basis_two lib U hs fuel, ?_, (gap_two lib U hs hU).1, (gap_two lib U hs hU).2⟩,
    run_two_orbitals lib U hs hU fuel 2 radius⟩
  rw [(hU _).1.length_eq, List.length_map, latticeInt_two_length]

/-! ### `writeIntegrals` -/

theorem subscript_of_lt {β : Type} (v : List β) (i : Int) (h0 : 0 ≤ i)
    (h : i < (v.length : Int)) : ∃ x, subscript v i = some x := by
  have hlt : i.toNat < v.length := by omega
  refine ⟨v[i.toNat], ?_⟩
  unfold subscript
  rw [if_pos h0, List.getElem?_eq_getElem hlt]

/-- The value assigned by lines 57-74 when the four subscripts are in range. -/
theorem integral_of_subscript (U : Util α) (J : State α) (p q r s : Int)
    (gp gq gr gs : vec3 α) (hp : subscript J.gvecs p = some gp)
    (hq : subscript J.gvecs q = some gq) (hr : subscript J.gvecs r = some gr)
    (hs : subscript J.gvecs s = some gs) :
    integral U J p q r s
      = some (if U.norm2 ((gp - gr) - (gs - gq)) < 1e-12 then
          (if p = r then J.PotVm else 1 / (M_PI * J.L * U.norm2 (gp - gr)))
        else 0) := by
  unfold integral
  rw [hp, hq, hr, hs]
  simp only [Option.bind_eq_bind, Option.some_bind]
  split
  · split <;> rfl
  · rfl

/-- The run for one orbital and two electrons returns; its data members are
`norb = 1`, `nocc = 1`, `gvecs = {(0, 0, 0)}` and `PotVm = 2.83729747948149/L`. -/
theorem run_one_occupied (lib : LibM α) (U : Util α) (hs : IsSqrt lib) (hU : Sorts U)
    (fuel : Nat) (radius : α) :
    ∃ out : Output α, run lib U (fuel + 2) ⟨2, 1, radius, 3⟩ = .ok out ∧
      out.state.norb = 1 ∧ out.state.nocc = 1 ∧
      out.state.gvecs = [(toVec (0, 0, 0) : vec3 α)] ∧
      out.state.L = lib.pow (((2 : Int) : α) * (4.0 / 3.0) * M_PI * lib.pow radius 3)
        (1.0 / 3.0) ∧
      out.state.PotVm = 2.83729747948149 / out.state.L := by
  have h2 : Int.tdiv 2 2 = 1 := by decide
  unfold run
  simp only [ne_eq, not_true_eq_false, if_false]
  rw [basis_one lib U hs hU fuel]
  simp [h2, bind, Except.bind, pure, Except.pure, throw, throwThe, MonadExceptOf.throw,
    orbitalEnergy, totalEnergy, List.range_succ, Except.map, List.mapM, List.mapM.loop]

/-- In a state with one occupied orbital, `writeIntegrals` assigns `PotVm` to the only
entry (key `0`, orbital indices `(0, 0, 0, 0)`) of the all-occupied block. -/
theorem writeIntegrals_diagonal (U : Util α) (J : State α) (g : vec3 α) (x : α)
    (hnocc : J.nocc = 1) (hg : J.gvecs = [g])
    (hzero : U.norm2 ((g - g) - (g - g)) < 1e-12) :
    writeIntegrals U J false false false false [(0, x)] = some [(0, J.PotVm)] := by
  have hidx : orbitalIndices J false false false false 0 = some (0, 0, 0, 0) := by
    simp [orbitalIndices, sectorSize, hnocc, narrow32]
  have hsub : subscript J.gvecs 0 = some g := by
    rw [hg]; rfl
  have hval := integral_of_subscript U J 0 0 0 0 g g g g hsub hsub hsub hsub
  rw [if_pos hzero, if_pos rfl] at hval
  rw [writeIntegrals, hidx]
  simp only [Option.bind_eq_bind, Option.some_bind]
  rw [hval]
  rfl

/-! ### Exchange of the particle indices -/

theorem vec3_sub_x {β : Type} [Sub β] (a b : vec3 β) : (a - b).x = a.x - b.x := rfl

theorem vec3_sub_y {β : Type} [Sub β] (a b : vec3 β) : (a - b).y = a.y - b.y := rfl

theorem vec3_sub_z {β : Type} [Sub β] (a b : vec3 β) : (a - b).z = a.z - b.z := rfl

theorem normSq_eq_zero_iff (v : Int × Int × Int) : normSq v = 0 ↔ v = (0, 0, 0) := by
  obtain ⟨x, y, z⟩ := v
  unfold normSq
  constructor
  · intro h
    have hx : x * x = 0 := by nlinarith [mul_self_nonneg x, mul_self_nonneg y, mul_self_nonneg z]
    have hy : y * y = 0 := by nlinarith [mul_self_nonneg x, mul_self_nonneg y, mul_self_nonneg z]
    have hz : z * z = 0 := by nlinarith [mul_self_nonneg x, mul_self_nonneg y, mul_self_nonneg z]
    rw [mul_self_eq_zero.mp hx, mul_self_eq_zero.mp hy, mul_self_eq_zero.mp hz]
  · intro h
    obtain ⟨rfl, rfl, rfl⟩ : x = 0 ∧ y = 0 ∧ z = 0 := by simpa using h
    rfl

/-- A non-negative integer is below the tolerance `1e-12` exactly when it is zero. -/
theorem cast_lt_tolerance_iff (n : Int) (hn : 0 ≤ n) : ((n : α) < 1e-12) ↔ n = 0 := by
  constructor
  · intro h
    by_contra hne
    have h1 : (1 : Int) ≤ n := by omega
    have h2 : (1 : α) ≤ (n : α) := by exact_mod_cast h1
    have h3 : (1e-12 : α) < 1 := by norm_num
    linarith
  · rintro rfl
    norm_num

/-- When `norm2` is the squared length, the test of line 60 on integer vectors is the
momentum conservation `g_p + g_q = g_r + g_s`. -/
theorem conservation_iff (U : Util α)
    (hnorm : ∀ v : vec3 α, U.norm2 v = v.x * v.x + v.y * v.y + v.z * v.z)
    (a b c d : Int × Int × Int) :
    U.norm2 (((toVec a : vec3 α) - toVec c) - (toVec d - toVec b)) < 1e-12
      ↔ a + b = c + d := by
  have hcast : U.norm2 (((toVec a : vec3 α) - toVec c) - (toVec d - toVec b))
      = ((normSq ((a - c) - (d - b)) : Int) : α) := by
    rw [hnorm]
    obtain ⟨a1, a2, a3⟩ := a
    obtain ⟨b1, b2, b3⟩ := b
    obtain ⟨c1, c2, c3⟩ := c
    obtain ⟨d1, d2, d3⟩ := d
    simp only [toVec, normSq, vec3_sub_x, vec3_sub_y, vec3_sub_z, Prod.mk_sub_mk]
    push_cast
    ring
  rw [hcast, cast_lt_tolerance_iff _ (normSq_nonneg _), normSq_eq_zero_iff]
  obtain ⟨a1, a2, a3⟩ := a
  obtain ⟨b1, b2, b3⟩ := b
  obtain ⟨c1, c2, c3⟩ := c
  obtain ⟨d1, d2, d3⟩ := d
  simp only [Prod.mk_sub_mk, Prod.mk_add_mk, Prod.mk.injEq]
  constructor <;> intro h <;> omega

/-- When `norm2` is the squared length, the divisor of line 68 on integer vectors is the
squared length of the integer difference. -/
theorem norm2_sub (U : Util α)
    (hnorm : ∀ v : vec3 α, U.norm2 v = v.x * v.x + v.y * v.y + v.z * v.z)
    (a c : Int × Int × Int) :
    U.norm2 ((toVec a : vec3 α) - toVec c) = ((normSq (a - c) : Int) : α) := by
  rw [hnorm]
  obtain ⟨a1, a2, a3⟩ := a
  obtain ⟨c1, c2, c3⟩ := c
  simp only [toVec, normSq, vec3_sub_x, vec3_sub_y, vec3_sub_z, Prod.mk_sub_mk]
  push_cast
  ring

/-- The value assigned by lines 57-74 for a basis of integer vectors, with `norm2` the
squared length: momentum conservation decides between the kernel and `0`. -/
theorem integral_lattice (U : Util α) (J : State α)
    (hnorm : ∀ v : vec3 α, U.norm2 v = v.x * v.x + v.y * v.y + v.z * v.z)
    (gs : List (Int × Int × Int)) (hg : J.gvecs = gs.map toVec)
    (i j k l : Nat) (hi : i < gs.length) (hj : j < gs.length) (hk : k < gs.length)
    (hl : l < gs.length) :
    integral U J (i : Int) (j : Int) (k : Int) (l : Int)
      = some (if gs[i] + gs[j] = gs[k] + gs[l] then
          (if i = k then J.PotVm
            else 1 / (M_PI * J.L * ((normSq (gs[i] - gs[k]) : Int) : α)))
        else 0) := by
  have hsub : ∀ (n : Nat) (hn : n < gs.length),
      subscript J.gvecs (n : Int) = some (toVec gs[n] : vec3 α) := by
    intro n hn
    unfold subscript
    rw [if_pos (by omega), hg, Int.toNat_ofNat, List.getElem?_map,
      List.getElem?_eq_getElem hn]
    rfl
  rw [integral_of_subscript U J _ _ _ _ _ _ _ _ (hsub i hi) (hsub j hj) (hsub k hk)
    (hsub l hl)]
  have hcons := conservation_iff U hnorm gs[i] gs[j] gs[k] gs[l]
  by_cases hc : gs[i] + gs[j] = gs[k] + gs[l]
  · rw [if_pos (hcons.mpr hc), if_pos hc, norm2_sub U hnorm]
    by_cases hik : i = k
    · rw [if_pos hik, if_pos (by rw [hik])]
    · rw [if_neg hik, if_neg (by exact_mod_cast hik)]
  · rw [if_neg (fun h => hc (hcons.mp h)), if_neg hc]

/-- Exchange of both particles in a basis of pairwise distinct integer vectors: the
value for `(j, i, l, k)` is the value for `(i, j, k, l)`. -/
theorem integral_exchange (U : Util α) (J : State α)
    (hnorm : ∀ v : vec3 α, U.norm2 v = v.x * v.x + v.y * v.y + v.z * v.z)
    (gs : List (Int × Int × Int)) (hg : J.gvecs = gs.map toVec) (hnd : gs.Nodup)
    (i j k l : Nat) (hi : i < gs.length) (hj : j < gs.length) (hk : k < gs.length)
    (hl : l < gs.length) :
    integral U J (j : Int) (i : Int) (l : Int) (k : Int)
      = integral U J (i : Int) (j : Int) (k : Int) (l : Int) := by
  rw [integral_lattice U J hnorm gs hg j i l k hj hi hl hk,
    integral_lattice U J hnorm gs hg i j k l hi hj hk hl]
  by_cases hc : gs[i] + gs[j] = gs[k] + gs[l]
  · have hc' : gs[j] + gs[i] = gs[l] + gs[k] := by
      rw [add_comm gs[j], add_comm gs[l]]; exact hc
    rw [if_pos hc, if_pos hc']
    have hvec : gs[j] - gs[l] = -(gs[i] - gs[k]) := by
      have : gs[j] = gs[k] + gs[l] - gs[i] := by rw [← hc]; abel
      rw [this]; abel
    have hidx : j = l ↔ i = k := by
      rw [← @List.Nodup.getElem_inj_iff _ gs hnd j hj l hl,
        ← @List.Nodup.getElem_inj_iff _ gs hnd i hi k hk]
      constructor
      · intro h
        rw [h] at hc
        exact add_right_cancel hc
      · intro h
        rw [h] at hc
        exact add_left_cancel hc
    by_cases hik : i = k
    · rw [if_pos hik, if_pos (hidx.mpr hik)]
    · rw [if_neg hik, if_neg (fun h => hik (hidx.mp h)), hvec, normSq_neg]
  · have hc' : ¬ gs[j] + gs[i] = gs[l] + gs[k] := by
      intro h
      apply hc
      rw [add_comm gs[i], add_comm gs[k]]; exact h
    rw [if_neg hc, if_neg hc']

/-- C6: the two-electron value rule.  Let the data members satisfy
`0 ≤ nocc ≤ norb = gvecs.size()`, and let `np, nq, nr, ns` be the extents of the block
(`norb - nocc` for a virtual sector, `nocc` for an occupied one).  For every list of
pairs whose keys are keys of the block (`0 ≤ k < np*nq*nr*ns`), `writeIntegrals`
returns and keeps the keys.  Every key is `k = p' + np*(q' + nq*(r' + nr*s'))` for
positions `0 ≤ p' < np`, `0 ≤ q' < nq`, `0 ≤ r' < nr`, `0 ≤ s' < ns` inside the sectors;
with `(p, q, r, s)` these positions shifted by `nocc` in the virtual sectors, the value
written for the key is `PotVm` when `norm2((g_p - g_r) - (g_s - g_q)) < 1e-12` and
`p = r`, is `1/(M_PI * L * norm2(g_p - g_r))` when that test holds and `p ≠ r`, and is
`0` when the test fails. -/
theorem writeIntegrals_values (U : Util α) (J : State α) (pvirt qvirt rvirt svirt : Bool)
    (pairs : List (Int × α)) (hocc : 0 ≤ J.nocc) (hnorb : J.nocc ≤ J.norb)
    (hint : J.norb ≤ INT_MAX) (hlen : (J.gvecs.length : Int) = J.norb)
    (hkeys : ∀ pair ∈ pairs, 0 ≤ pair.1 ∧
      pair.1 < sectorSize J pvirt * sectorSize J qvirt * sectorSize J rvirt
        * sectorSize J svirt) :
    ∃ out, writeIntegrals U J pvirt qvirt rvirt svirt pairs = some out ∧
      out.map Prod.fst = pairs.map Prod.fst ∧
      ∀ pair ∈ out, ∃ (p' q' r' s' : Int) (gp gq gr gs : vec3 α),
        (0 ≤ p' ∧ p' < sectorSize J pvirt) ∧ (0 ≤ q' ∧ q' < sectorSize J qvirt) ∧
        (0 ≤ r' ∧ r' < sectorSize J rvirt) ∧ (0 ≤ s' ∧ s' < sectorSize J svirt) ∧
        pair.1 = p' + sectorSize J pvirt
          * (q' + sectorSize J qvirt * (r' + sectorSize J rvirt * s')) ∧
        subscript J.gvecs (if pvirt then p' + J.nocc else p') = some gp ∧
        subscript J.gvecs (if qvirt then q' + J.nocc else q') = some gq ∧
        subscript J.gvecs (if rvirt then r' + J.nocc else r') = some gr ∧
        subscript J.gvecs (if svirt then s' + J.nocc else s') = some gs ∧
        pair.2 = (if U.norm2 ((gp - gr) - (gs - gq)) < 1e-12 then
            (if (if pvirt then p' + J.nocc else p') = (if rvirt then r' + J.nocc else r')
              then J.PotVm else 1 / (M_PI * J.L * U.norm2 (gp - gr)))
          else 0) := by
  induction pairs with
  | nil => exact ⟨[], rfl, rfl, by simp⟩
  | cons pair rest ih =>
    obtain ⟨more, hmore, hfst, hval⟩ := ih (fun x hx => hkeys x (List.mem_cons_of_mem _ hx))
    obtain ⟨h0, hk⟩ := hkeys pair (List.mem_cons_self _ _)
    obtain ⟨p, q, r, s, hp, hq, hr, hs, hkey, hidx⟩ :=
      orbitalIndices_of_valid J pvirt qvirt rvirt svirt pair.1 hocc hnorb hint h0 hk
    have bp := sectorSize_shift J pvirt hocc hnorb p hp.1 hp.2
    have bq := sectorSize_shift J qvirt hocc hnorb q hq.1 hq.2
    have br := sectorSize_shift J rvirt hocc hnorb r hr.1 hr.2
    have bs := sectorSize_shift J svirt hocc hnorb s hs.1 hs.2
    obtain ⟨gp, hgp⟩ := subscript_of_lt J.gvecs _ bp.1 (by rw [hlen]; exact bp.2)
    obtain ⟨gq, hgq⟩ := subscript_of_lt J.gvecs _ bq.1 (by rw [hlen]; exact bq.2)
    obtain ⟨gr, hgr⟩ := subscript_of_lt J.gvecs _ br.1 (by rw [hlen]; exact br.2)
    obtain ⟨gs, hgs⟩ := subscript_of_lt J.gvecs _ bs.1 (by rw [hlen]; exact bs.2)
    obtain ⟨d, hd, hdval⟩ : ∃ d,
        integral U J (if pvirt then p + J.nocc else p) (if qvirt then q + J.nocc else q)
          (if rvirt then r + J.nocc else r) (if svirt then s + J.nocc else s) = some d ∧
        d = (if U.norm2 ((gp - gr) - (gs - gq)) < 1e-12 then
            (if (if pvirt then p + J.nocc else p) = (if rvirt then r + J.nocc else r) then
              J.PotVm else 1 / (M_PI * J.L * U.norm2 (gp - gr)))
          else 0) :=
      ⟨_, integral_of_subscript U J _ _ _ _ gp gq gr gs hgp hgq hgr hgs, rfl⟩
    refine ⟨(pair.1, d) :: more, ?_, ?_, ?_⟩
    · rw [writeIntegrals, hidx]
      simp only [Option.bind_eq_bind, Option.some_bind]
      rw [hd, hmore]
      rfl
    · simp [hfst]
    · intro x hx
      rcases List.mem_cons.mp hx with rfl | hx
      · exact ⟨p, q, r, s, gp, gq, gr, gs, hp, hq, hr, hs, hkey, hgp, hgq, hgr, hgs, hdval⟩
      · exact hval x hx

/-- C7 (amended): antisymmetry holds for the same-spin blocks, not for the mixed-spin
blocks that `writeIntegrals` fills with the plain value `v(p,q,r,s)`.  Let the basis
consist of pairwise distinct integer vectors and let `norm2` be the squared length.
For all orbital indices `p, q, r, s` of the basis, the three derivations of a same-spin
block from the values `v` (antisymmetrized in both index pairs with the factor `0.5`,
in the first pair only, in the second pair only) are defined and give the same value
`block(p,q,r,s) = v(p,q,r,s) - v(p,q,s,r)`, and this value satisfies
`block(q,p,r,s) = -block(p,q,r,s)` and `block(p,q,s,r) = -block(p,q,r,s)`. -/
theorem integral_antisymmetrised (U : Util α) (J : State α)
    (hnorm : ∀ v : vec3 α, U.norm2 v = v.x * v.x + v.y * v.y + v.z * v.z)
    (gs : List (Int × Int × Int)) (hg : J.gvecs = gs.map toVec) (hnd : gs.Nodup)
    (p q r s : Int) (hp : 0 ≤ p ∧ p < gs.length) (hq : 0 ≤ q ∧ q < gs.length)
    (hr : 0 ≤ r ∧ r < gs.length) (hs : 0 ≤ s ∧ s < gs.length) :
    ∃ a b : α,
      integral U J p q r s = some a ∧ integral U J p q s r = some b ∧
      sameSpinBlock U J p q r s = some (a - b) ∧
      sameSpinBlockPair U J true p q r s = some (a - b) ∧
      sameSpinBlockPair U J false p q r s = some (a - b) ∧
      sameSpinBlock U J q p r s = some (-(a - b)) ∧
      sameSpinBlock U J p q s r = some (-(a - b)) ∧
      sameSpinBlockPair U J true q p r s = some (-(a - b)) ∧
      sameSpinBlockPair U J false p q s r = some (-(a - b)) := by
  obtain ⟨i, rfl⟩ := Int.eq_ofNat_of_zero_le hp.1
  obtain ⟨j, rfl⟩ := Int.eq_ofNat_of_zero_le hq.1
  obtain ⟨k, rfl⟩ := Int.eq_ofNat_of_zero_le hr.1
  obtain ⟨l, rfl⟩ := Int.eq_ofNat_of_zero_le hs.1
  have hi : i < gs.length := by omega
  have hj : j < gs.length := by omega
  have hk : k < gs.length := by omega
  have hl : l < gs.length := by omega
  have ha := integral_lattice U J hnorm gs hg i j k l hi hj hk hl
  have hb := integral_lattice U J hnorm gs hg i j l k hi hj hl hk
  have hc := integral_exchange U J hnorm gs hg hnd i j l k hi hj hl hk
  have hd := integral_exchange U J hnorm gs hg hnd i j k l hi hj hk hl
  rw [hb] at hc
  rw [ha] at hd
  obtain ⟨a, ha, hd⟩ : ∃ a : α, integral U J (i : Int) (j : Int) (k : Int) (l : Int) = some a ∧
      integral U J (j : Int) (i : Int) (l : Int) (k : Int) = some a := ⟨_, ha, hd⟩
  obtain ⟨b, hb, hc⟩ : ∃ b : α, integral U J (i : Int) (j : Int) (l : Int) (k : Int) = some b ∧
      integral U J (j : Int) (i : Int) (k : Int) (l : Int) = some b := ⟨_, hb, hc⟩
  have h5 : (0.5 : α) * (a - b - b + a) = a - b := by norm_num; ring
  have h6 : (0.5 : α) * (b - a - a + b) = -(a - b) := by norm_num; ring
  have h7 : b - a = -(a - b) := by ring
  refine ⟨a, b, ha, hb, ?_, ?_, ?_, ?_, ?_, ?_, ?_⟩
  · simp only [sameSpinBlock, ha, hb, hc, hd, Option.bind_eq_bind, Option.some_bind, pure, h5]
  · simp only [sameSpinBlockPair, ha, hc, if_true, Option.bind_eq_bind, Option.some_bind,
      pure]
  · simp only [sameSpinBlockPair, ha, hb, Bool.false_eq_true, if_false, Option.bind_eq_bind,
      Option.some_bind, pure]
  · simp only [sameSpinBlock, ha, hb, hc, hd, Option.bind_eq_bind, Option.some_bind, pure, h6]
  · simp only [sameSpinBlock, ha, hb, hc, hd, Option.bind_eq_bind, Option.some_bind, pure, h6]
  · simp only [sameSpinBlockPair, ha, hc, if_true, Option.bind_eq_bind, Option.some_bind,
      pure, h7]
  · simp only [sameSpinBlockPair, ha, hb, Bool.false_eq_true, if_false, Option.bind_eq_bind,
      Option.some_bind, pure, h7]

/-- Hermitian conjugation in a basis of integer vectors: the value for `(k, l, i, j)` is
the value for `(i, j, k, l)`. -/
theorem integral_conjugate (U : Util α) (J : State α)
    (hnorm : ∀ v : vec3 α, U.norm2 v = v.x * v.x + v.y * v.y + v.z * v.z)
    (gs : List (Int × Int × Int)) (hg : J.gvecs = gs.map toVec)
    (i j k l : Nat) (hi : i < gs.length) (hj : j < gs.length) (hk : k < gs.length)
    (hl : l < gs.length) :
    integral U J (k : Int) (l : Int) (i : Int) (j : Int)
      = integral U J (i : Int) (j : Int) (k : Int) (l : Int) := by
  rw [integral_lattice U J hnorm gs hg k l i j hk hl hi hj,
    integral_lattice U J hnorm gs hg i j k l hi hj hk hl]
  have hvec : gs[k] - gs[i] = -(gs[i] - gs[k]) := by abel
  by_cases hc : gs[i] + gs[j] = gs[k] + gs[l]
  · rw [if_pos hc, if_pos hc.symm]
    by_cases hik : i = k
    · rw [if_pos hik, if_pos hik.symm]
    · rw [if_neg hik, if_neg (fun h => hik h.symm), hvec, normSq_neg]
  · rw [if_neg hc, if_neg (fun h => hc h.symm)]

/-- C21: symmetries of the raw integral value.  Let the basis consist of pairwise
distinct integer vectors and let `norm2` be the squared length.  For all orbital indices
`p, q, r, s` of the basis the value `v(p,q,r,s)` assigned by lines 57-74 of
`writeIntegrals` exists and satisfies `v(q,p,s,r) = v(p,q,r,s)` (both particles
exchanged) and `v(r,s,p,q) = v(p,q,r,s)` (Hermitian conjugate). -/
theorem integral_symmetries (U : Util α) (J : State α)
    (hnorm : ∀ v : vec3 α, U.norm2 v = v.x * v.x + v.y * v.y + v.z * v.z)
    (gs : List (Int × Int × Int)) (hg : J.gvecs = gs.map toVec) (hnd : gs.Nodup)
    (p q r s : Int) (hp : 0 ≤ p ∧ p < gs.length) (hq : 0 ≤ q ∧ q < gs.length)
    (hr : 0 ≤ r ∧ r < gs.length) (hs : 0 ≤ s ∧ s < gs.length) :
    ∃ v : α, integral U J p q r s = some v ∧ integral U J q p s r = some v ∧
      integral U J r s p q = some v := by
  obtain ⟨i, rfl⟩ := Int.eq_ofNat_of_zero_le hp.1
  obtain ⟨j, rfl⟩ := Int.eq_ofNat_of_zero_le hq.1
  obtain ⟨k, rfl⟩ := Int.eq_ofNat_of_zero_le hr.1
  obtain ⟨l, rfl⟩ := Int.eq_ofNat_of_zero_le hs.1
  have hi : i < gs.length := by omega
  have hj : j < gs.length := by omega
  have hk : k < gs.length := by omega
  have hl : l < gs.length := by omega
  have hv := integral_lattice U J hnorm gs hg i j k l hi hj hk hl
  have hx := integral_exchange U J hnorm gs hg hnd i j k l hi hj hk hl
  have hh := integral_conjugate U J hnorm gs hg i j k l hi hj hk hl
  rw [hv] at hx hh
  exact ⟨_, hv, hx, hh⟩

/-! ### Complete shells -/

/-- The search loop returns the candidates of some radius, at least `norb` of them. -/
theorem search_ok (lib : LibM α) (norb : Int) (fuel : Nat) :
    ∀ (r0 : Nat) (c : List (α × vec3 α)), search lib norb fuel r0 = .ok c →
      ∃ r : Nat, c = lattice lib r ∧ norb ≤ (c.length : Int) := by
  induction fuel with
  | zero => intro r0 c h; cases h
  | succ fuel ih =>
    intro r0 c h
    rw [search] at h
    simp only [ge_iff_le] at h
    split at h
    · rename_i hle
      have hc : lattice lib r0 = c := Except.ok.inj h
      exact ⟨r0, hc.symm, by rw [← hc]; exact hle⟩
    · exact ih (r0 + 1) c h

/-- On non-negative integers a smaller square root means a smaller number. -/
theorem le_of_sqrt_le (lib : LibM α) (h : IsSqrt lib) (a b : Int) (ha : 0 ≤ a) (hb : 0 ≤ b)
    (hab : lib.sqrt (a : α) ≤ lib.sqrt (b : α)) : a ≤ b := by
  obtain ⟨a0, a1⟩ := h (a : α) (by exact_mod_cast ha)
  obtain ⟨b0, b1⟩ := h (b : α) (by exact_mod_cast hb)
  rw [mul_self_le_mul_self_iff a0 b0, a1, b1] at hab
  exact_mod_cast hab

/-- The sorted candidates are a rearrangement of the integer vectors of a radius, in
non-decreasing order of squared length. -/
theorem basis_ok (lib : LibM α) (U : Util α) (hs : IsSqrt lib) (hU : Sorts U) (fuel : Nat)
    (norb : Int) (c : List (α × vec3 α)) (hb : basis lib U fuel norb = .ok c) :
    ∃ (r : Nat) (l : List (Int × Int × Int)), List.Perm l (latticeInt r) ∧
      c = l.map (fun v => (lib.sqrt ((normSq v : Int) : α), (toVec v : vec3 α))) ∧
      List.Pairwise (fun a b => normSq a ≤ normSq b) l ∧ norb ≤ (l.length : Int) := by
  unfold basis at hb
  cases hsearch : search lib norb fuel 0 with
  | error e => rw [hsearch] at hb; cases hb
  | ok c0 =>
    rw [hsearch] at hb
    have hc : U.cosort c0 = c := Except.ok.inj hb
    obtain ⟨r, hc0, hlen⟩ := search_ok lib norb fuel 0 c0 hsearch
    rw [lattice_eq lib hs] at hc0
    obtain ⟨hperm, hsorted⟩ := hU c0
    rw [hc] at hperm hsorted
    rw [hc0] at hperm
    obtain ⟨l, hl, hcl⟩ := perm_map_inv _ c (latticeInt r) hperm
    refine ⟨r, l, hl, hcl, ?_, ?_⟩
    · rw [hcl] at hsorted
      have hp := List.pairwise_map.mp hsorted
      refine hp.imp ?_
      intro a b hab
      exact le_of_sqrt_le lib hs _ _ (normSq_nonneg a) (normSq_nonneg b) hab
    · rw [hc0, List.length_map] at hlen
      rw [hl.length_eq]
      exact hlen

/-- The basis left by `gvecs.resize(norb)` after a passed check of line 124: `norb`
pairwise distinct integer vectors, sorted by length, closed under length. -/
theorem basis_selected (lib : LibM α) (U : Util α) (hs : IsSqrt lib) (hU : Sorts U)
    (fuel : Nat) (norb : Int) (hnorb : 1 ≤ norb) (c : List (α × vec3 α))
    (hb : basis lib U fuel norb = .ok c)
    (hcheck : norb = ((c.map Prod.snd).length : Int) ∨ gap (c.map Prod.fst) norb = .ok true) :
    ∃ vs : List (Int × Int × Int),
      (c.map Prod.snd).take norb.toNat = vs.map toVec ∧
      (vs.length : Int) = norb ∧ vs.Nodup ∧
      List.Sorted (fun a b => normSq a ≤ normSq b) vs ∧
      ∀ w v : Int × Int × Int, v ∈ vs → normSq w ≤ normSq v → w ∈ vs := by
  obtain ⟨r, l, hperm, hc, hsorted, hlen⟩ := basis_ok lib U hs hU fuel norb c hb
  obtain ⟨n, rfl⟩ := Int.eq_ofNat_of_zero_le (by omega : 0 ≤ norb)
  have hn : n ≤ l.length := by omega
  have hnod : l.Nodup := (hperm.nodup_iff).mpr (nodup_latticeInt r)
  refine ⟨l.take n, ?_, ?_, ?_, ?_, ?_⟩
  · rw [hc, List.map_map, Int.toNat_ofNat, List.map_take]
    rfl
  · rw [List.length_take, Nat.min_eq_left hn]
  · exact hnod.sublist (List.take_sublist n l)
  · exact hsorted.sublist (List.take_sublist n l)
  · intro w v hv hwv
    obtain ⟨j, hj, hjn, rfl⟩ := List.mem_take_iff_getElem.mp hv
    have hvl : l[j] ∈ latticeInt r := hperm.subset (List.getElem_mem _)
    have hwl : w ∈ l := by
      apply hperm.symm.subset
      rw [mem_latticeInt] at hvl ⊢
      omega
    obtain ⟨i, hi, rfl⟩ := List.mem_iff_getElem.mp hwl
    rw [List.mem_take_iff_getElem]
    by_contra hnot
    have hin : n ≤ i := by
      by_contra hlt
      exact hnot ⟨i, by omega, rfl⟩
    have hnl : n < l.length := by omega
    have hgap : gap (c.map Prod.fst) (n : Int) = .ok true := by
      rcases hcheck with h | h
      · rw [hc, List.length_map, List.length_map] at h
        omega
      · exact h
    -- the two lengths compared by the check
    have hfst : c.map Prod.fst = l.map (fun v => lib.sqrt ((normSq v : Int) : α)) := by
      rw [hc, List.map_map]
      rfl
    have hsub1 : subscript (c.map Prod.fst) ((n : Int) - 1)
        = some (lib.sqrt ((normSq (l[n - 1]) : Int) : α)) := by
      unfold subscript
      rw [if_pos (by omega), hfst, List.getElem?_map,
        show ((n : Int) - 1).toNat = n - 1 by omega,
        List.getElem?_eq_getElem (by omega : n - 1 < l.length)]
      rfl
    have hsub2 : subscript (c.map Prod.fst) (n : Int)
        = some (lib.sqrt ((normSq (l[n]) : Int) : α)) := by
      unfold subscript
      rw [if_pos (by omega), hfst, List.getElem?_map, Int.toNat_ofNat,
        List.getElem?_eq_getElem hnl]
      rfl
    unfold gap at hgap
    rw [hsub1, hsub2] at hgap
    simp only [Except.ok.injEq, decide_eq_true_eq] at hgap
    have hpw := List.pairwise_iff_getElem.mp hsorted
    have h1 : normSq l[j] ≤ normSq l[n - 1] := by
      rcases Nat.lt_or_ge j (n - 1) with hlt | hge
      · exact hpw j (n - 1) (by omega) (by omega) hlt
      · have : j = n - 1 := by omega
        subst this
        exact le_refl _
    have h2 : normSq l[n] ≤ normSq l[i] := by
      rcases Nat.lt_or_ge n i with hlt | hge
      · exact hpw n i hnl hi hlt
      · have : i = n := by omega
        subst this
        exact le_refl _
    have h3 : normSq l[n] ≤ normSq l[n - 1] := by omega
    have h4 := sqrt_le_sqrt lib hs _ _ (normSq_nonneg _) (normSq_nonneg _) h3
    have h5 := sqrt_le_sqrt lib hs _ _ (normSq_nonneg l[n - 1]) (normSq_nonneg l[n])
      (hpw (n - 1) n (by omega) hnl (by omega))
    have h6 : lib.sqrt ((normSq l[n - 1] : Int) : α) = lib.sqrt ((normSq l[n] : Int) : α) :=
      le_antisymm h5 h4
    rw [h6, sub_self, abs_zero] at hgap
    norm_num at hgap

/-- C19: complete shells.  Let `sqrt` be the non-negative square root and let `cosort`
sort by length.  Whenever the basis construction returns and passes the truncation
check of line 124 for a given `norb ≥ 1` (`norb == gvecs.size()` or
`std::abs(glen[norb-1] - glen[norb]) > 1e-12`), the basis left by `gvecs.resize(norb)`
consists of exactly `norb` pairwise distinct integer lattice vectors in non-decreasing
length order, and it is closed under length: every integer vector whose length is at
most that of a selected vector is itself selected; in particular it is closed under
negation. -/
theorem basis_complete_shells (lib : LibM α) (U : Util α) (hs : IsSqrt lib) (hU : Sorts U)
    (fuel : Nat) (norb : Int) (hnorb : 1 ≤ norb) (c : List (α × vec3 α))
    (hb : basis lib U fuel norb = .ok c)
    (hcheck : norb = ((c.map Prod.snd).length : Int) ∨ gap (c.map Prod.fst) norb = .ok true) :
    ∃ vs : List (Int × Int × Int),
      (c.map Prod.snd).take norb.toNat = vs.map toVec ∧
      (vs.length : Int) = norb ∧ vs.Nodup ∧
      List.Sorted (fun a b => normSq a ≤ normSq b) vs ∧
      (∀ w v : Int × Int × Int, v ∈ vs → normSq w ≤ normSq v → w ∈ vs) ∧
      ∀ v ∈ vs, -v ∈ vs := by
  obtain ⟨vs, h1, h2, h3, h4, h5⟩ := basis_selected lib U hs hU fuel norb hnorb c hb hcheck
  exact ⟨vs, h1, h2, h3, h4, h5, fun v hv => h5 (-v) v hv (le_of_eq (normSq_neg v))⟩

/-! ### The divisor of the Coulomb kernel -/

/-- What a returning run has computed: the sorted candidates pass the check of line 124,
`0 < nocc ≤ norb`, and the data members are those assigned by lines 125-133. -/
theorem run_ok (lib : LibM α) (U : Util α) (fuel : Nat) (config : Config α)
    (out : Output α) (h : run lib U fuel config = .ok out) :
    ∃ c : List (α × vec3 α), basis lib U fuel config.num_orbitals = .ok c ∧
      (config.num_orbitals = ((c.map Prod.snd).length : Int) ∨
        gap (c.map Prod.fst) config.num_orbitals = .ok true) ∧
      1 ≤ config.num_orbitals ∧
      out.state.gvecs = (c.map Prod.snd).take config.num_orbitals.toNat ∧
      out.state.L = lib.pow ((config.num_electrons : α) * (4.0 / 3.0) * M_PI
        * lib.pow config.radius 3) (1.0 / 3.0) := by
  unfold run at h
  simp only [bind, Except.bind, pure, Except.pure, throw, throwThe, MonadExceptOf.throw] at h
  split at h
  · cases h
  · cases hbasis : basis lib U fuel config.num_orbitals with
    | error e => rw [hbasis] at h; cases h
    | ok c =>
      rw [hbasis] at h
      simp only [] at h
      refine ⟨c, rfl, ?_⟩
      by_cases hsz : config.num_orbitals = ((c.map Prod.snd).length : Int)
      · rw [if_pos hsz] at h
        simp only [Bool.not_true, Bool.false_eq_true, if_false] at h
        split at h
        · cases h
        · rename_i hocc
          have hocc' := not_not.mp hocc
          refine ⟨Or.inl hsz, by omega, ?_⟩
          split at h
          · split at h
            · cases h
            · split at h
              · cases h
              · cases h
                exact ⟨rfl, rfl⟩
          · split at h
            · cases h
            · split at h
              · cases h
              · split at h
                · cases h
                · split at h
                  · cases h
                  · cases h
                    exact ⟨rfl, rfl⟩
      · rw [if_neg hsz] at h
        cases hgap : gap (c.map Prod.fst) config.num_orbitals with
        | error e => rw [hgap] at h; cases h
        | ok b =>
          rw [hgap] at h
          simp only [] at h
          cases b with
          | false => simp at h
          | true =>
            simp only [Bool.not_true, Bool.false_eq_true, if_false] at h
            split at h
            · cases h
            · rename_i hocc
              have hocc' := not_not.mp hocc
              refine ⟨Or.inr rfl, by omega, ?_⟩
              split at h
              · split at h
                · cases h
                · split at h
                  · cases h
                  · cases h
                    exact ⟨rfl, rfl⟩
              · split at h
                · cases h
                · split at h
                  · cases h
                  · split at h
                    · cases h
                    · split at h
                      · cases h
                      · cases h
                        exact ⟨rfl, rfl⟩

/-- C20 (amended): no division by zero in the Coulomb kernel when `pow` does not
underflow.  Let `sqrt` be the non-negative square root, `cosort` sort by length, `norm2`
be the squared length and `pow` be positive on positive bases (so that neither
`pow(radius, 3)` nor `pow(V, 1.0/3.0)` is zero).  When `run` returns for `radius > 0` and
`num_electrons > 0`, the box
length `L` is positive, and for every pair of orbital indices `p ≠ r` the vectors
`gvecs[p]`, `gvecs[r]` are distinct integer vectors, so `norm2(gvecs[p] - gvecs[r])` and
the divisor `M_PI * L * norm2(gvecs[p] - gvecs[r])` are non-zero (this is the divisor of
`writeIntegrals` for `p ≠ r` and of the orbital-energy and total-energy loops for
`i ≠ j`). -/
theorem coulomb_divisor_ne_zero (lib : LibM α) (U : Util α) (hs : IsSqrt lib)
    (hU : Sorts U)
    (hnorm : ∀ v : vec3 α, U.norm2 v = v.x * v.x + v.y * v.y + v.z * v.z)
    (hpow : ∀ x y : α, 0 < x → 0 < lib.pow x y) (fuel : Nat) (config : Config α)
    (hradius : 0 < config.radius) (hnelec : 0 < config.num_electrons) (out : Output α)
    (hrun : run lib U fuel config = .ok out) :
    0 < out.state.L ∧
    ∀ (p r : Nat) (gp gr : vec3 α), out.state.gvecs[p]? = some gp →
      out.state.gvecs[r]? = some gr → p ≠ r →
      U.norm2 (gp - gr) ≠ 0 ∧ M_PI * out.state.L * U.norm2 (gp - gr) ≠ 0 := by
  obtain ⟨c, hbasis, hcheck, hnorb, hg, hL⟩ := run_ok lib U fuel config out hrun
  obtain ⟨vs, hvs, _, hnd, _, _⟩ :=
    basis_selected lib U hs hU fuel config.num_orbitals hnorb c hbasis hcheck
  have hpi : (0 : α) < M_PI := by unfold M_PI; norm_num
  have hLpos : 0 < out.state.L := by
    rw [hL]
    apply hpow
    have h1 : (0 : α) < (config.num_electrons : α) := by exact_mod_cast hnelec
    have h2 := hpow config.radius 3 hradius
    have h3 : (0 : α) < 4.0 / 3.0 := by norm_num
    positivity
  refine ⟨hLpos, ?_⟩
  intro p r gp gr hp hr hpr
  rw [hg, hvs, List.getElem?_map] at hp hr
  obtain ⟨a, ha, rfl⟩ := Option.map_eq_some'.mp hp
  obtain ⟨b, hb, rfl⟩ := Option.map_eq_some'.mp hr
  obtain ⟨hpl, rfl⟩ := List.getElem?_eq_some_iff.mp ha
  obtain ⟨hrl, rfl⟩ := List.getElem?_eq_some_iff.mp hb
  have hne : vs[p] ≠ vs[r] := fun h => hpr ((hnd.getElem_inj_iff).mp h)
  have hnz : normSq (vs[p] - vs[r]) ≠ 0 := by
    intro h0
    rw [normSq_eq_zero_iff] at h0
    exact hne (sub_eq_zero.mp h0)
  have hn2 : U.norm2 ((toVec vs[p] : vec3 α) - toVec vs[r]) ≠ 0 := by
    rw [norm2_sub U hnorm]
    exact_mod_cast hnz
  exact ⟨hn2, mul_ne_zero (mul_ne_zero (ne_of_gt hpi) (ne_of_gt hLpos)) hn2⟩

/-! ### Runs that return -/

/-- A loop over indices whose body returns at every index returns. -/
theorem foldlM_ok {β : Type} (f : β → Nat → Except Failure β) (l : List Nat)
    (hf : ∀ (b : β) (j : Nat), j ∈ l → ∃ b', f b j = .ok b') :
    ∀ init : β, ∃ r, l.foldlM f init = .ok r := by
  induction l with
  | nil => intro init; exact ⟨init, rfl⟩
  | cons j l ih =>
    intro init
    obtain ⟨b', hb'⟩ := hf init j (List.mem_cons_self j l)
    obtain ⟨r, hr⟩ := ih (fun b k hk => hf b k (List.mem_cons_of_mem j hk)) b'
    refine ⟨r, ?_⟩
    rw [List.foldlM_cons, hb']
    exact hr

/-- The orbital energy of an orbital of the basis is computed without a failure when
the occupied orbitals are orbitals of the basis. -/
theorem orbitalEnergy_ok (U : Util α) (gvecs : List (vec3 α)) (nocc : Int) (L PotVm : α)
    (i : Nat) (hi : i < gvecs.length) (hocc : nocc.toNat ≤ gvecs.length) :
    ∃ e, orbitalEnergy U gvecs nocc L PotVm i = .ok e := by
  unfold orbitalEnergy
  rw [List.getElem?_eq_getElem hi]
  apply foldlM_ok
  intro b j hj
  have hjl : j < gvecs.length := lt_of_lt_of_le (List.mem_range.mp hj) hocc
  by_cases hij : i = j
  · exact ⟨_, if_pos hij⟩
  · rw [if_neg hij, List.getElem?_eq_getElem hjl]
    exact ⟨_, rfl⟩

/-- The list of the orbital energies is computed without a failure. -/
theorem mapM_ok {β : Type} (g : Nat → Except Failure β) (l : List Nat)
    (hg : ∀ i ∈ l, ∃ e, g i = .ok e) :
    ∃ E, l.mapM g = .ok E ∧ E.length = l.length := by
  induction l with
  | nil => exact ⟨[], rfl, rfl⟩
  | cons i l ih =>
    obtain ⟨e, he⟩ := hg i (List.mem_cons_self i l)
    obtain ⟨E, hE, hlen⟩ := ih (fun k hk => hg k (List.mem_cons_of_mem i hk))
    refine ⟨e :: E, ?_, by simp [hlen]⟩
    rw [List.mapM_cons, he, hE]
    rfl

/-- The total energy is computed without a failure when the occupied orbitals are
orbitals of the basis and have an orbital energy. -/
theorem totalEnergy_ok (U : Util α) (gvecs : List (vec3 α)) (nocc : Int) (L PotVm : α)
    (E : List α) (hocc : nocc.toNat ≤ gvecs.length) (hE : nocc.toNat ≤ E.length) :
    ∃ e, totalEnergy U gvecs nocc L PotVm E = .ok e := by
  unfold totalEnergy
  apply foldlM_ok
  intro b i hi
  have hil : i < gvecs.length := lt_of_lt_of_le (List.mem_range.mp hi) hocc
  have hiE : i < E.length := lt_of_lt_of_le (List.mem_range.mp hi) hE
  rw [List.getElem?_eq_getElem hil, List.getElem?_eq_getElem hiE]
  apply foldlM_ok
  intro b' j hj
  have hjl : j < gvecs.length := lt_of_lt_of_le (List.mem_range.mp hj) hocc
  by_cases hij : i = j
  · exact ⟨_, if_pos hij⟩
  · rw [if_neg hij, List.getElem?_eq_getElem hjl]
    exact ⟨_, rfl⟩

/-- The run returns when the basis construction returns and the assertions of lines
95, 124, 128 and 129 hold. -/
theorem run_returns (lib : LibM α) (U : Util α) (fuel : Nat) (config : Config α)
    (c : List (α × vec3 α)) (hdim : config.dimension = 3)
    (hb : basis lib U fuel config.num_orbitals = .ok c)
    (hlen : config.num_orbitals ≤ (c.length : Int))
    (h124 : config.num_orbitals = ((c.map Prod.snd).length : Int) ∨
      gap (c.map Prod.fst) config.num_orbitals = .ok true)
    (h128 : 0 < Int.tdiv config.num_electrons 2 ∧
      Int.tdiv config.num_electrons 2 ≤ config.num_orbitals)
    (h129 : Int.tdiv config.num_electrons 2 = config.num_orbitals ∨
      gap (c.map Prod.fst) (Int.tdiv config.num_electrons 2) = .ok true) :
    ∃ out : Output α, run lib U fuel config = .ok out := by
  have hglen : ((c.map Prod.snd).take config.num_orbitals.toNat).length
      = config.num_orbitals.toNat := by
    rw [List.length_take, List.length_map]
    omega
  have hocc : (Int.tdiv config.num_electrons 2).toNat
      ≤ ((c.map Prod.snd).take config.num_orbitals.toNat).length := by
    rw [hglen]; omega
  obtain ⟨E, hE, hElen⟩ := mapM_ok
    (orbitalEnergy U ((c.map Prod.snd).take config.num_orbitals.toNat)
      (Int.tdiv config.num_electrons 2)
      (lib.pow ((config.num_electrons : α) * (4.0 / 3.0) * M_PI * lib.pow config.radius 3)
        (1.0 / 3.0))
      (2.83729747948149 / lib.pow ((config.num_electrons : α) * (4.0 / 3.0) * M_PI
        * lib.pow config.radius 3) (1.0 / 3.0)))
    (List.range config.num_orbitals.toNat)
    (fun i hi => orbitalEnergy_ok U _ _ _ _ i (by rw [hglen]; exact List.mem_range.mp hi) hocc)
  obtain ⟨e, he⟩ := totalEnergy_ok U ((c.map Prod.snd).take config.num_orbitals.toNat)
    (Int.tdiv config.num_electrons 2)
    (lib.pow ((config.num_electrons : α) * (4.0 / 3.0) * M_PI * lib.pow config.radius 3)
        (1.0 / 3.0))
    (2.83729747948149 / lib.pow ((config.num_electrons : α) * (4.0 / 3.0) * M_PI
        * lib.pow config.radius 3) (1.0 / 3.0)) E hocc
    (by rw [hElen, List.length_range]; omega)
  unfold run
  simp only [bind, Except.bind, pure, Except.pure, throw, throwThe, MonadExceptOf.throw,
    hdim, ne_eq, not_true_eq_false, if_false, hb]
  have g1 : ¬ config.num_orbitals = ((c.map Prod.snd).length : Int) →
      gap (c.map Prod.fst) config.num_orbitals = .ok true := fun hn => h124.resolve_left hn
  have g2 : ¬ Int.tdiv config.num_electrons 2 = config.num_orbitals →
      gap (c.map Prod.fst) (Int.tdiv config.num_electrons 2) = .ok true :=
    fun hn => h129.resolve_left hn
  by_cases hc1 : config.num_orbitals = ((c.map Prod.snd).length : Int) <;>
    by_cases hc2 : Int.tdiv config.num_electrons 2 = config.num_orbitals
  all_goals (first | rw [if_pos hc1] | rw [if_neg hc1, g1 hc1])
  all_goals simp only [Bool.not_true, Bool.false_eq_true, if_false, h128, and_self,
    not_true_eq_false]
  all_goals (first | rw [if_pos hc2] | rw [if_neg hc2, g2 hc2])
  all_goals try simp only [Bool.not_true, Bool.false_eq_true, if_false]
  all_goals (rw [hE]; simp only []; rw [he]; exact ⟨_, rfl⟩)

/-- For `2 ≤ num_orbitals ≤ 27` the search stops at the radius `2`, with `27`
candidates. -/
theorem search_radius_two (lib : LibM α) (h : IsSqrt lib) (fuel : Nat) (norb : Int)
    (h2 : 2 ≤ norb) (h27 : norb ≤ 27) :
    search lib norb (fuel + 3) 0
      = .ok ((latticeInt 2).map
          (fun v => (lib.sqrt ((normSq v : Int) : α), (toVec v : vec3 α)))) := by
  have h0 : (lattice lib 0).length = 0 := by rw [lattice_eq lib h, latticeInt_zero]; rfl
  have h1 : (lattice lib 1).length = 1 := by rw [lattice_eq lib h, latticeInt_one]; rfl
  have h2 : (lattice lib 2).length = 27 := by
    rw [lattice_eq lib h, List.length_map, latticeInt_two_length]
  rw [search_skip lib norb (fuel + 2) 0 (by rw [h0]; omega),
    search_skip lib norb (fuel + 1) 1 (by rw [h1]; omega),
    search_stop lib norb fuel 2 (by rw [h2]; omega), lattice_eq lib h]

/-- The basis construction for seven orbitals returns the `27` sorted candidates of the
radius `2`. -/
theorem basis_seven (lib : LibM α) (U : Util α) (hs : IsSqrt lib) (fuel : Nat) :
    basis lib U (fuel + 3) 7
      = .ok (U.cosort ((latticeInt 2).map
          (fun v => (lib.sqrt ((normSq v : Int) : α), (toVec v : vec3 α))))) := by
  unfold basis
  rw [search_radius_two lib hs fuel 7 (by decide) (by decide)]

/-- The cut after seven of the `27` sorted candidates separates the lengths `sqrt(1)`
and `sqrt(2)`. -/
theorem gap_seven (lib : LibM α) (U : Util α) (hs : IsSqrt lib) (hU : Sorts U) :
    gap ((U.cosort ((latticeInt 2).map
      (fun v => (lib.sqrt ((normSq v : Int) : α), (toVec v : vec3 α))))).map Prod.fst) 7
        = .ok true := by
  have hkeys := cosort_keys lib U hs hU (latticeInt 2)
  rw [latticeInt_two_sorted] at hkeys
  rw [hkeys]
  obtain ⟨h0, hsq⟩ := hs 2 (by norm_num)
  have hlt : (1 : α) + 1e-12 < lib.sqrt 2 := by
    by_contra hcon
    have hle : lib.sqrt 2 ≤ 1 + 1e-12 := not_lt.mp hcon
    have : lib.sqrt 2 * lib.sqrt 2 ≤ (1 + 1e-12) * (1 + 1e-12) :=
      mul_le_mul hle hle h0 (by norm_num)
    rw [hsq] at this
    norm_num at this
  have habs : |(1 : α) - lib.sqrt 2| = lib.sqrt 2 - 1 := by
    rw [abs_sub_comm, abs_of_pos]
    linarith [show (0 : α) < 1e-12 by norm_num]
  simp [gap, subscript, sqrt_one lib hs, habs]
  linarith

/-- The run for seven orbitals and two electrons returns. -/
theorem run_seven_orbitals (lib : LibM α) (U : Util α) (hs : IsSqrt lib) (hU : Sorts U)
    (fuel : Nat) (radius : α) :
    ∃ out : Output α, run lib U (fuel + 3) ⟨2, 7, radius, 3⟩ = .ok out ∧
      out.state.gvecs.length = 7 := by
  have hlen : (U.cosort ((latticeInt 2).map
      (fun v => (lib.sqrt ((normSq v : Int) : α), (toVec v : vec3 α))))).length = 27 := by
    rw [(hU _).1.length_eq, List.length_map, latticeInt_two_length]
  obtain ⟨out, hout⟩ := run_returns lib U (fuel + 3) ⟨2, 7, radius, 3⟩ _ rfl
    (basis_seven lib U hs fuel)
    (by rw [hlen]; show (7 : Int) ≤ ((27 : Nat) : Int); decide)
    (Or.inr (gap_seven lib U hs hU))
    (by show 0 < Int.tdiv 2 2 ∧ Int.tdiv 2 2 ≤ (7 : Int); decide)
    (Or.inr (gap_two lib U hs hU).2)
  refine ⟨out, hout, ?_⟩
  obtain ⟨c, hb, _, _, hg, _⟩ := run_ok lib U (fuel + 3) ⟨2, 7, radius, 3⟩ out hout
  have hc := Except.ok.inj ((basis_seven lib U hs fuel).symm.trans hb)
  rw [hg, ← hc, List.length_take, List.length_map, hlen]
  show min (7 : Int).toNat 27 = 7
  decide

end

theorem run_nocc_zero_witness :
    (IsSqrt (⟨Real.exp, Real.log, Real.sqrt, Real.rpow⟩ : LibM ℝ) ∧
      Sorts (referenceUtil : Util ℝ) ∧ Int.tdiv 1 2 = 0) ∧
    ((∃ c, basis (⟨Real.exp, Real.log, Real.sqrt, Real.rpow⟩ : LibM ℝ) referenceUtil (0 + 2) 1
        = .ok c ∧ c.length = 1) ∧
     run (⟨Real.exp, Real.log, Real.sqrt, Real.rpow⟩ : LibM ℝ) referenceUtil (0 + 2)
        ⟨1, 1, 1, 3⟩ = .error (.assertion 128)) :=
  ⟨⟨isSqrt_real, sorts_referenceUtil, by decide⟩,
    run_nocc_zero _ _ isSqrt_real sorts_referenceUtil 0 1 1 (by decide)⟩

/-- C9 (as stated) fails: with `num_orbitals = 1`, `num_electrons = 0` (so `nocc = 0`),
`radius = 1`, `dimension = 3`, the real square root and the sort by length, the run
returns no output at all, whatever the iteration bound; in particular it does not put
out the energy `0`. -/
theorem run_scenario_one_fails :
    Int.tdiv 0 2 = 0 ∧
    ¬ ∃ (fuel : Nat) (out : Output ℝ),
      run (⟨Real.exp, Real.log, Real.sqrt, Real.rpow⟩ : LibM ℝ) referenceUtil fuel
        ⟨0, 1, 1, 3⟩ = .ok out := by
  refine ⟨by decide, ?_⟩
  rintro ⟨fuel, out, h⟩
  exact run_one_orbital_ne_ok _ _ isSqrt_real sorts_referenceUtil fuel 0 1 (by decide) out h

theorem run_scenario_two_witness :
    (IsSqrt (⟨Real.exp, Real.log, Real.sqrt, Real.rpow⟩ : LibM ℝ) ∧
      Sorts (referenceUtil : Util ℝ)) ∧
    ((∃ c, basis (⟨Real.exp, Real.log, Real.sqrt, Real.rpow⟩ : LibM ℝ) referenceUtil (0 + 3) 2
        = .ok c ∧ c.length = 27 ∧
      gap (c.map Prod.fst) 2 = .ok false ∧ gap (c.map Prod.fst) 1 = .ok true) ∧
     run (⟨Real.exp, Real.log, Real.sqrt, Real.rpow⟩ : LibM ℝ) referenceUtil (0 + 3)
        ⟨2, 2, 1, 3⟩ = .error (.assertion 124)) :=
  ⟨⟨isSqrt_real, sorts_referenceUtil⟩,
    run_scenario_two _ _ isSqrt_real sorts_referenceUtil 0 1⟩

/-- C8 (as stated) fails: with `num_electrons = 2`, `num_orbitals = 2`, `radius = 1.0`,
`dimension = 3`, the real square root and the sort by length, the run returns no
output, whatever the iteration bound: it does not pass the first non-degeneracy check
and returns no energy. -/
theorem run_scenario_two_fails :
    ¬ ∃ (fuel : Nat) (out : Output ℝ),
      run (⟨Real.exp, Real.log, Real.sqrt, Real.rpow⟩ : LibM ℝ) referenceUtil fuel
        ⟨2, 2, 1.0, 3⟩ = .ok out := by
  rintro ⟨fuel, out, h⟩
  exact run_two_orbitals_ne_ok _ _ isSqrt_real sorts_referenceUtil fuel 2 1.0 out h

/-- C7 (as stated) fails: in the run with `num_orbitals = 1`, `num_electrons = 2`,
`radius = 1`, `dimension = 3` (real square root and power, `norm2` the squared length),
the all-occupied block filled by `writeIntegrals(false, false, false, false, ...)` has
the single entry `block(0,0,0,0) = PotVm`, which is positive and therefore differs
from `-block(0,0,0,0)`. -/
theorem antisymmetry_fails :
    ∃ out : Output ℝ,
      run (⟨Real.exp, Real.log, Real.sqrt, Real.rpow⟩ : LibM ℝ) referenceUtil 2
        ⟨2, 1, 1, 3⟩ = .ok out ∧
      ∃ d : ℝ,
        writeIntegrals referenceUtil out.state false false false false [(0, 0)]
          = some [(0, d)] ∧ d ≠ -d := by
  obtain ⟨out, hrun, _, hnocc, hg, hL, hP⟩ :=
    run_one_occupied (⟨Real.exp, Real.log, Real.sqrt, Real.rpow⟩ : LibM ℝ) referenceUtil
      isSqrt_real sorts_referenceUtil 0 1
  refine ⟨out, hrun, out.state.PotVm,
    writeIntegrals_diagonal referenceUtil out.state _ 0 hnocc hg ?_, ?_⟩
  · simp [referenceUtil, toVec, vec3.instSub, HSub.hSub, Sub.sub]
    norm_num
  · have hV : (0 : ℝ) < ((2 : Int) : ℝ) * (4.0 / 3.0) * M_PI * Real.rpow 1 3 := by
      have h1 : Real.rpow 1 3 = 1 := Real.one_rpow 3
      rw [h1]
      unfold M_PI
      norm_num
    have hLpos : 0 < out.state.L := by
      rw [hL]
      exact Real.rpow_pos_of_pos hV _
    have hPpos : 0 < out.state.PotVm := by
      rw [hP]
      exact div_pos (by norm_num) hLpos
    intro h
    linarith

theorem writeIntegrals_values_witness :
    ((0 : Int) ≤ exampleState.nocc ∧ exampleState.nocc ≤ exampleState.norb ∧
      exampleState.norb ≤ INT_MAX ∧ (exampleState.gvecs.length : Int) = exampleState.norb ∧
      ∀ pair ∈ [((30 : Int), (0 : Rat)), (0, 0)], 0 ≤ pair.1 ∧
        pair.1 < sectorSize exampleState true * sectorSize exampleState true
          * sectorSize exampleState false * sectorSize exampleState false) ∧
    ∃ out, writeIntegrals referenceUtil exampleState true true false false [(30, 0), (0, 0)]
        = some out ∧
      out.map Prod.fst = [((30 : Int), (0 : Rat)), (0, 0)].map Prod.fst ∧
      ∀ pair ∈ out, ∃ (p' q' r' s' : Int) (gp gq gr gs : vec3 Rat),
        (0 ≤ p' ∧ p' < sectorSize exampleState true) ∧
        (0 ≤ q' ∧ q' < sectorSize exampleState true) ∧
        (0 ≤ r' ∧ r' < sectorSize exampleState false) ∧
        (0 ≤ s' ∧ s' < sectorSize exampleState false) ∧
        pair.1 = p' + sectorSize exampleState true
          * (q' + sectorSize exampleState true * (r' + sectorSize exampleState false * s')) ∧
        subscript exampleState.gvecs (if true then p' + exampleState.nocc else p') = some gp ∧
        subscript exampleState.gvecs (if true then q' + exampleState.nocc else q') = some gq ∧
        subscript exampleState.gvecs (if false then r' + exampleState.nocc else r') = some gr ∧
        subscript exampleState.gvecs (if false then s' + exampleState.nocc else s') = some gs ∧
        pair.2 = (if referenceUtil.norm2 ((gp - gr) - (gs - gq)) < 1e-12 then
            (if (if true then p' + exampleState.nocc else p')
                = (if false then r' + exampleState.nocc else r')
              then exampleState.PotVm
              else 1 / (M_PI * exampleState.L * referenceUtil.norm2 (gp - gr)))
          else 0) :=
  ⟨⟨by decide, by decide, by decide, by decide, by decide⟩,
    writeIntegrals_values referenceUtil exampleState true true false false [(30, 0), (0, 0)]
      (by decide) (by decide) (by decide) (by decide) (by decide)⟩

/-- The orbital indices of the keys of the example. -/
theorem orbitalIndices_example :
    orbitalIndices exampleState true true false false 30 = some (1, 6, 0, 0) ∧
    orbitalIndices exampleState true true false false 0 = some (1, 1, 0, 0) ∧
    orbitalIndices exampleState false false false false 0 = some (0, 0, 0, 0) := by
  refine ⟨by decide, by decide, by decide⟩

/-- The values of the example for three tuples of orbital indices. -/
theorem integral_example :
    integral referenceUtil exampleState 1 6 0 0 = some (1 / (M_PI * 2 * 1)) ∧
    integral referenceUtil exampleState 1 1 0 0 = some 0 ∧
    integral referenceUtil exampleState 0 0 0 0 = some (2.83729747948149 / 2) := by
  have hn : ∀ v : vec3 Rat, referenceUtil.norm2 v = v.x * v.x + v.y * v.y + v.z * v.z :=
    fun _ => rfl
  have hg : exampleState.gvecs = [((0 : Int), (0 : Int), (0 : Int)), (-1, 0, 0), (0, -1, 0),
      (0, 0, -1), (0, 0, 1), (0, 1, 0), (1, 0, 0)].map toVec := rfl
  have h1 := integral_lattice referenceUtil exampleState hn _ hg 1 6 0 0 (by decide)
    (by decide) (by decide) (by decide)
  have h2 := integral_lattice referenceUtil exampleState hn _ hg 1 1 0 0 (by decide)
    (by decide) (by decide) (by decide)
  have h3 := integral_lattice referenceUtil exampleState hn _ hg 0 0 0 0 (by decide)
    (by decide) (by decide) (by decide)
  refine ⟨?_, ?_, ?_⟩
  · rw [show ((1 : Int)) = ((1 : Nat) : Int) from rfl, show ((6 : Int)) = ((6 : Nat) : Int) from rfl,
      show ((0 : Int)) = ((0 : Nat) : Int) from rfl, h1]
    simp [exampleState, normSq]
  · rw [show ((1 : Int)) = ((1 : Nat) : Int) from rfl,
      show ((0 : Int)) = ((0 : Nat) : Int) from rfl, h2]
    simp
  · rw [show ((0 : Int)) = ((0 : Nat) : Int) from rfl, h3]
    simp [exampleState]

/-- The values written in the example: the key `30 = 0 + 6*5` of the block
(virtual, virtual, occupied, occupied) has the orbital indices `(1, 6, 0, 0)`, with
`g_1 + g_6 = g_0 + g_0`, and receives the kernel value `1/(M_PI * L * 1)`; the key `0`
has the orbital indices `(1, 1, 0, 0)` and receives `0`; the key `0` of the
all-occupied block has the orbital indices `(0, 0, 0, 0)` and receives `PotVm`. -/
theorem writeIntegrals_example :
    writeIntegrals referenceUtil exampleState true true false false [(30, 0), (0, 0)]
      = some [(30, 1 / (M_PI * 2 * 1)), (0, 0)] ∧
    writeIntegrals referenceUtil exampleState false false false false [(0, 0)]
      = some [(0, 2.83729747948149 / 2)] := by
  obtain ⟨i1, i2, i3⟩ := orbitalIndices_example
  obtain ⟨v1, v2, v3⟩ := integral_example
  constructor
  · simp only [writeIntegrals, i1, i2, v1, v2, Option.bind_eq_bind, Option.some_bind, pure]
  · simp only [writeIntegrals, i3, v3, Option.bind_eq_bind, Option.some_bind, pure]

theorem integral_antisymmetrised_witness :
    ((∀ v : vec3 Rat, referenceUtil.norm2 v = v.x * v.x + v.y * v.y + v.z * v.z) ∧
      exampleState.gvecs = [((0 : Int), (0 : Int), (0 : Int)), (-1, 0, 0), (0, -1, 0),
        (0, 0, -1), (0, 0, 1), (0, 1, 0), (1, 0, 0)].map toVec ∧
      [((0 : Int), (0 : Int), (0 : Int)), (-1, 0, 0), (0, -1, 0), (0, 0, -1), (0, 0, 1),
        (0, 1, 0), (1, 0, 0)].Nodup) ∧
    ∃ a b : Rat,
      integral referenceUtil exampleState 1 2 1 2 = some a ∧
      integral referenceUtil exampleState 1 2 2 1 = some b ∧
      sameSpinBlock referenceUtil exampleState 1 2 1 2 = some (a - b) ∧
      sameSpinBlockPair referenceUtil exampleState true 1 2 1 2 = some (a - b) ∧
      sameSpinBlockPair referenceUtil exampleState false 1 2 1 2 = some (a - b) ∧
      sameSpinBlock referenceUtil exampleState 2 1 1 2 = some (-(a - b)) ∧
      sameSpinBlock referenceUtil exampleState 1 2 2 1 = some (-(a - b)) ∧
      sameSpinBlockPair referenceUtil exampleState true 2 1 1 2 = some (-(a - b)) ∧
      sameSpinBlockPair referenceUtil exampleState false 1 2 2 1 = some (-(a - b)) :=
  ⟨⟨fun _ => rfl, rfl, by decide⟩,
    integral_antisymmetrised referenceUtil exampleState (fun _ => rfl)
      [(0, 0, 0), (-1, 0, 0), (0, -1, 0), (0, 0, -1), (0, 0, 1), (0, 1, 0), (1, 0, 0)]
      rfl (by decide) 1 2 1 2 (by decide) (by decide) (by decide) (by decide)⟩

/-- In the example the all-virtual tuple `(1, 2, 1, 2)` has `v(1,2,1,2) = PotVm` and
`v(1,2,2,1) = 1/(M_PI * L * 2)`, so the same-spin value `v(1,2,1,2) - v(1,2,2,1)` is
not zero. -/
theorem sameSpinBlock_example :
    integral referenceUtil exampleState 1 2 1 2 = some (2.83729747948149 / 2) ∧
    integral referenceUtil exampleState 1 2 2 1 = some (1 / (M_PI * 2 * 2)) ∧
    (2.83729747948149 / 2 : Rat) - 1 / (M_PI * 2 * 2) ≠ 0 := by
  have hn : ∀ v : vec3 Rat, referenceUtil.norm2 v = v.x * v.x + v.y * v.y + v.z * v.z :=
    fun _ => rfl
  have hg : exampleState.gvecs = [((0 : Int), (0 : Int), (0 : Int)), (-1, 0, 0), (0, -1, 0),
      (0, 0, -1), (0, 0, 1), (0, 1, 0), (1, 0, 0)].map toVec := rfl
  have h1 := integral_lattice referenceUtil exampleState hn _ hg 1 2 1 2 (by decide)
    (by decide) (by decide) (by decide)
  have h2 := integral_lattice referenceUtil exampleState hn _ hg 1 2 2 1 (by decide)
    (by decide) (by decide) (by decide)
  refine ⟨?_, ?_, ?_⟩
  · rw [show ((1 : Int)) = ((1 : Nat) : Int) from rfl,
      show ((2 : Int)) = ((2 : Nat) : Int) from rfl, h1]
    simp [exampleState]
  · rw [show ((1 : Int)) = ((1 : Nat) : Int) from rfl,
      show ((2 : Int)) = ((2 : Nat) : Int) from rfl, h2]
    simp [exampleState, normSq]
  · unfold M_PI
    norm_num

theorem basis_complete_shells_witness :
    (IsSqrt (⟨Real.exp, Real.log, Real.sqrt, Real.rpow⟩ : LibM ℝ) ∧
      Sorts (referenceUtil : Util ℝ) ∧ (1 : Int) ≤ 7 ∧
      basis (⟨Real.exp, Real.log, Real.sqrt, Real.rpow⟩ : LibM ℝ) referenceUtil (0 + 3) 7
        = .ok (referenceUtil.cosort ((latticeInt 2).map
            (fun v => (Real.sqrt ((normSq v : Int) : ℝ), (toVec v : vec3 ℝ))))) ∧
      gap ((referenceUtil.cosort ((latticeInt 2).map
            (fun v => (Real.sqrt ((normSq v : Int) : ℝ), (toVec v : vec3 ℝ))))).map
          Prod.fst) 7 = .ok true) ∧
    ∃ vs : List (Int × Int × Int),
      (((referenceUtil : Util ℝ).cosort ((latticeInt 2).map
            (fun v => (Real.sqrt ((normSq v : Int) : ℝ), (toVec v : vec3 ℝ))))).map
          Prod.snd).take (7 : Int).toNat = vs.map toVec ∧
      (vs.length : Int) = 7 ∧ vs.Nodup ∧
      List.Sorted (fun a b => normSq a ≤ normSq b) vs ∧
      (∀ w v : Int × Int × Int, v ∈ vs → normSq w ≤ normSq v → w ∈ vs) ∧
      ∀ v ∈ vs, -v ∈ vs :=
  ⟨⟨isSqrt_real, sorts_referenceUtil, by decide,
      basis_seven _ _ isSqrt_real 0, gap_seven _ _ isSqrt_real sorts_referenceUtil⟩,
    basis_complete_shells _ _ isSqrt_real sorts_referenceUtil (0 + 3) 7 (by decide) _
      (basis_seven _ _ isSqrt_real 0)
      (Or.inr (gap_seven _ _ isSqrt_real sorts_referenceUtil))⟩

theorem coulomb_divisor_ne_zero_witness :
    (IsSqrt (⟨Real.exp, Real.log, Real.sqrt, Real.rpow⟩ : LibM ℝ) ∧
      Sorts (referenceUtil : Util ℝ) ∧
      (∀ v : vec3 ℝ, (referenceUtil : Util ℝ).norm2 v = v.x * v.x + v.y * v.y + v.z * v.z) ∧
      (∀ x y : ℝ, 0 < x → 0 < Real.rpow x y) ∧ (0 : ℝ) < 1 ∧ (0 : Int) < 2) ∧
    ∃ out : Output ℝ,
      run (⟨Real.exp, Real.log, Real.sqrt, Real.rpow⟩ : LibM ℝ) referenceUtil (0 + 3)
        ⟨2, 7, 1, 3⟩ = .ok out ∧
      out.state.gvecs.length = 7 ∧
      (0 < out.state.L ∧
        ∀ (p r : Nat) (gp gr : vec3 ℝ), out.state.gvecs[p]? = some gp →
          out.state.gvecs[r]? = some gr → p ≠ r →
          (referenceUtil : Util ℝ).norm2 (gp - gr) ≠ 0 ∧
            M_PI * out.state.L * (referenceUtil : Util ℝ).norm2 (gp - gr) ≠ 0) := by
  obtain ⟨out, hrun, hlen⟩ :=
    run_seven_orbitals (⟨Real.exp, Real.log, Real.sqrt, Real.rpow⟩ : LibM ℝ) referenceUtil
      isSqrt_real sorts_referenceUtil 0 1
  exact ⟨⟨isSqrt_real, sorts_referenceUtil, fun _ => rfl,
      fun x y hx => Real.rpow_pos_of_pos hx y, one_pos, by decide⟩,
    out, hrun, hlen,
    coulomb_divisor_ne_zero _ _ isSqrt_real sorts_referenceUtil (fun _ => rfl)
      (fun x y hx => Real.rpow_pos_of_pos hx y) (0 + 3) ⟨2, 7, 1, 3⟩ one_pos (by decide)
      out hrun⟩

/-- C20 as stated fails when `pow` underflows, as the binary64 `pow` does for results
below `2^(-1075)` (about `2.47e-324`): with a library whose `pow` returns `0` when the
exact power is at most `1e-324` and the real power otherwise, for `radius = 1e-108 > 0`
and `num_electrons = 2 > 0` the run with seven orbitals returns with
`V = 2 * (4/3) * M_PI * 0 = 0` and `L = pow(0, 1/3) = 0`, so the divisor
`M_PI * L * norm2(gvecs[p] - gvecs[r])` is zero for every pair of orbital indices. -/
theorem coulomb_divisor_zero :
    (0 : ℝ) < 1e-108 ∧ (0 : Int) < 2 ∧
    Real.rpow 1e-108 3 = 1e-324 ∧
    ∃ out : Output ℝ,
      run (⟨Real.exp, Real.log, Real.sqrt,
          fun x y => if Real.rpow x y ≤ 1e-324 then 0 else Real.rpow x y⟩ : LibM ℝ)
        referenceUtil (0 + 3) ⟨2, 7, 1e-108, 3⟩ = .ok out ∧
      out.state.gvecs.length = 7 ∧
      out.state.L = 0 ∧
      ∀ (p r : Nat) (gp gr : vec3 ℝ), out.state.gvecs[p]? = some gp →
        out.state.gvecs[r]? = some gr → p ≠ r →
        M_PI * out.state.L * (referenceUtil : Util ℝ).norm2 (gp - gr) = 0 := by
  have hpow : Real.rpow 1e-108 3 = 1e-324 := by
    show (1e-108 : ℝ) ^ (3 : ℝ) = 1e-324
    rw [show (3 : ℝ) = ((3 : Nat) : ℝ) by norm_num, Real.rpow_natCast]
    norm_num
  obtain ⟨out, hrun, hlen⟩ :=
    run_seven_orbitals (⟨Real.exp, Real.log, Real.sqrt,
        fun x y => if Real.rpow x y ≤ 1e-324 then 0 else Real.rpow x y⟩ : LibM ℝ)
      referenceUtil isSqrt_real sorts_referenceUtil 0 1e-108
  obtain ⟨_, _, _, _, _, hL⟩ := run_ok _ _ _ _ out hrun
  have hL0 : out.state.L = 0 := by
    rw [hL]
    simp only []
    rw [if_pos (le_of_eq hpow), mul_zero]
    have hz : Real.rpow 0 (1.0 / 3.0) = 0 := by
      show (0 : ℝ) ^ ((1.0 : ℝ) / 3.0) = 0
      exact Real.zero_rpow (by norm_num)
    rw [hz]
    norm_num
  refine ⟨by norm_num, by decide, hpow, out, hrun, hlen, hL0, ?_⟩
  intro p r gp gr _ _ _
  rw [hL0, mul_zero, zero_mul]

theorem integral_symmetries_witness :
    ((∀ v : vec3 Rat, referenceUtil.norm2 v = v.x * v.x + v.y * v.y + v.z * v.z) ∧
      exampleState.gvecs = [((0 : Int), (0 : Int), (0 : Int)), (-1, 0, 0), (0, -1, 0),
        (0, 0, -1), (0, 0, 1), (0, 1, 0), (1, 0, 0)].map toVec ∧
      [((0 : Int), (0 : Int), (0 : Int)), (-1, 0, 0), (0, -1, 0), (0, 0, -1), (0, 0, 1),
        (0, 1, 0), (1, 0, 0)].Nodup) ∧
    ∃ v : Rat, integral referenceUtil exampleState 1 6 0 0 = some v ∧
      integral referenceUtil exampleState 6 1 0 0 = some v ∧
      integral referenceUtil exampleState 0 0 1 6 = some v :=
  ⟨⟨fun _ => rfl, rfl, by decide⟩,
    integral_symmetries referenceUtil exampleState (fun _ => rfl)
      [(0, 0, 0), (-1, 0, 0), (0, -1, 0), (0, 0, -1), (0, 0, 1), (0, 1, 0), (1, 0, 0)]
      rfl (by decide) 1 6 0 0 (by decide) (by decide) (by decide) (by decide)⟩

end Jellium
